import Mathlib

/-!
The oneSearch UI: media-type grouping and the Bento bucket state machine.

A shallow embedding of the parts of `dist/onesearch.js` that register engines,
classify engine results into media types and keep the per-box loading state,
followed by theorems about them.

Conventions of the embedding

* A JavaScript object used as a map is an association list `Obj β` of its own
  enumerable properties in insertion order.  Enumeration (`Object.keys`,
  `angular.forEach`) visits the keys that are array indices first, in ascending
  numeric order, and then the other keys in insertion order: `Obj.enumerate`.
  The engine registry is enumerated through it.  The loops over `self.boxes` and
  over the media types of a rule are taken in insertion order: the names of the
  scenarios below are plain names, and the general theorems about boxes are
  stated box by box.  `Obj.get` reads an own property,
  `Obj.set` is the assignment `o[k] = v` (overwrite in place, else append);
  `assign` is the same assignment with a computed key, where the key
  `__proto__` creates no own property.
* Where the source reads a plain object `{}` with a computed key and tests the
  value for `undefined` or truthiness, the members inherited from
  `Object.prototype` are visible as well; `protoMember` lists them.
* A thrown `TypeError` / `URIError` is a value of `JsError`; a handler that
  throws keeps the mutations it made before the throw.
* A loop over the keys of `self.boxes` that touches only `self.boxes[type]` is a
  map over the entries of the association list.
* `$parse` getters and `decodeURIComponent` belong to the platform: the handlers
  take the values of `engine.getResults(data)` and `engine.getResourceLink(data)`
  as arguments, and `decodeURIComponent` is a parameter.
* Numbers are integers (rank stamps, ids, counts).  An integer stands for the
  Number value of its literal, the nearest double; `numberToString` is the
  coercion `String(n)` of that value.
-/

set_option autoImplicit false

/-! ## JavaScript values -/

/-- JSON-shaped JavaScript values (response payloads, config literals). -/
inductive JVal where
  | undefined
  | null
  | bool (b : Bool)
  | num (n : Int)
  | str (s : String)
  | arr (xs : List JVal)
  | obj (fs : List (String × JVal))
  deriving Repr, Inhabited

/-- Errors a modelled function can throw. -/
inductive JsError where
  | typeError
  | uriError
  deriving Repr, DecidableEq, Inhabited

/-- Own enumerable properties of a JavaScript object, in insertion order. -/
abbrev Obj (β : Type) := List (String × β)

namespace Obj

variable {β : Type}

/-- Own-property read `o[k]` (`none` is `undefined`). -/
def get (o : Obj β) (k : String) : Option β :=
  match o with
  | [] => none
  | (k', v) :: rest => if k' = k then some v else get rest k

/-- Assignment `o[k] = v`: an existing own property keeps its place. -/
def set (o : Obj β) (k : String) (v : β) : Obj β :=
  match o with
  | [] => [(k, v)]
  | (k', v') :: rest => if k' = k then (k', v) :: rest else (k', v') :: set rest k v

/-- The list `Object.keys(o)`. -/
def keys (o : Obj β) : List String := o.map Prod.fst

end Obj

/-- Assignment `o[k] = v` on a plain object with a computed key: the key
`__proto__` reaches the inherited accessor and creates no own property. -/
def assign {β : Type} (o : Obj β) (k : String) (v : β) : Obj β :=
  if k = "__proto__" then o else Obj.set o k v

/-- The array index a property key denotes, if it is one: the canonical decimal
numeral of an integer below `2^32 - 1`. -/
def arrayIndex (k : String) : Option Nat :=
  if k.data ≠ [] ∧ k.data.all Char.isDigit = true ∧
      (k.data.head? ≠ some '0' ∨ k.data.length = 1) then
    if k.data.foldl (fun n c => 10 * n + (c.toNat - 48)) 0 < 4294967295 then
      some (k.data.foldl (fun n c => 10 * n + (c.toNat - 48)) 0)
    else none
  else none

/-- The order of two array-index keys. -/
def indexLe {β : Type} (a b : String × β) : Prop :=
  (arrayIndex a.1).getD 0 ≤ (arrayIndex b.1).getD 0

instance {β : Type} : DecidableRel (indexLe : String × β → String × β → Prop) := fun a b => by
  unfold indexLe; infer_instance

/-- The order in which the own properties of an object are enumerated
(`Object.keys`, `angular.forEach`): the array-index keys in ascending numeric
order, then the other keys in insertion order. -/
def Obj.enumerate {β : Type} (o : Obj β) : Obj β :=
  (o.filter (fun kv => (arrayIndex kv.1).isSome)).insertionSort indexLe ++
    o.filter (fun kv => (arrayIndex kv.1).isNone)

/-- The members every plain object inherits from `Object.prototype`, each with
the string its value coerces to when it is used as a property key. -/
def protoMember (k : String) : Option String :=
  if k = "__proto__" then some "[object Object]"
  else if k = "constructor" then some "function Object() \x7b [native code] \x7d"
  else if k ∈ ["toString", "toLocaleString", "valueOf", "hasOwnProperty", "isPrototypeOf",
      "propertyIsEnumerable", "__defineGetter__", "__defineSetter__", "__lookupGetter__",
      "__lookupSetter__"] then
    some ("function " ++ k ++ "() \x7b [native code] \x7d")
  else none

/-! ## The string of a number -/

/-- Number of binary digits of `n`, counted up to `fuel` of them. -/
def bitLength : Nat → Nat → Nat
  | 0, _ => 0
  | fuel + 1, n => if n = 0 then 0 else bitLength fuel (n / 2) + 1

/-- The Number value of a non-negative integer literal: the nearest double, ties
to the even significand; `none` is `Infinity` (a value that needs more than 1024
binary digits). -/
def nearestDouble (n : Nat) : Option Nat :=
  if n < 9007199254740992 then some n
  else if 1024 < bitLength 1025 n then none
  else
    let e := bitLength 1025 n - 53
    let q := n / 2 ^ e
    let r := n % 2 ^ e
    let q' := if 2 * r > 2 ^ e ∨ (2 * r = 2 ^ e ∧ q % 2 = 1) then q + 1 else q
    if 1024 < bitLength 1025 (q' * 2 ^ e) then none else some (q' * 2 ^ e)

/-- The search of `Number::toString` from `k` significant digits on: the decimal
numeral with the fewest significant digits whose Number value is `v`, the closest
to `v` when two have that many digits. -/
def shortestFrom (v nd : Nat) : Nat → Nat → Nat
  | 0, _ => v
  | fuel + 1, k =>
    let t := nd - k
    let lo := v / 10 ^ t * 10 ^ t
    let hi := lo + 10 ^ t
    if nearestDouble lo = some v ∧ nearestDouble hi = some v then
      if v - lo < hi - v then lo
      else if hi - v < v - lo then hi
      else if (lo / 10 ^ t) % 2 = 0 then lo else hi
    else if nearestDouble lo = some v then lo
    else if nearestDouble hi = some v then hi
    else shortestFrom v nd fuel (k + 1)

/-- Trailing zeros removed from a decimal numeral. -/
def stripZeros : Nat → Nat → Nat
  | 0, c => c
  | fuel + 1, c => if c ≠ 0 ∧ c % 10 = 0 then stripZeros fuel (c / 10) else c

/-- The string of `Number::toString` for the integer `c` whose significant digits
are final: plain digits up to 21 of them, exponent form beyond. -/
def formatNumber (c : Nat) : String :=
  let digits := Nat.repr c
  if digits.length ≤ 21 then digits
  else
    let s := Nat.repr (stripZeros digits.length c)
    (if s.length = 1 then s else s.take 1 ++ "." ++ s.drop 1) ++ "e+" ++
      Nat.repr (digits.length - 1)

/-- The string `String(n)` of the number an integer literal `n` denotes: the
decimal numeral below `2^53`, the shortest numeral of the nearest double above. -/
def numberToString (n : Int) : String :=
  if n.natAbs < 9007199254740992 then toString n
  else
    (if n < 0 then "-" else "") ++
      match nearestDouble n.natAbs with
      | some v => formatNumber (shortestFrom v (Nat.repr v).length (Nat.repr v).length 1)
      | none => "Infinity"

namespace JVal

mutual
/-- The coercion `String(v)` applied when a value is used as a property key. -/
def toStr : JVal → String
  | undefined => "undefined"
  | null => "null"
  | bool b => if b then "true" else "false"
  | num n => numberToString n
  | str s => s
  | arr xs => joinElems xs
  | obj _ => "[object Object]"
termination_by structural v => v
/-- The coercion `Array.prototype.join` of the elements of an array: `null` and
`undefined` elements give the empty string. -/
def joinElems : List JVal → String
  | [] => ""
  | x :: rest =>
    (match x with
      | undefined => ""
      | null => ""
      | v => toStr v) ++
    (match rest with
      | [] => ""
      | _ => "," ++ joinElems rest)
termination_by structural xs => xs
end

/-- Member access `v[k]` as `$parse` performs it: own properties of objects,
`undefined` on everything else. -/
def prop (v : JVal) (k : String) : JVal :=
  match v with
  | obj fs => (Obj.get fs k).getD undefined
  | _ => undefined

end JVal

/-- Split the characters of a dotted path at every `.`. -/
def splitPath : List Char → List Char → List String
  | [], cur => [String.mk cur.reverse]
  | c :: cs, cur =>
    if c = '.' then String.mk cur.reverse :: splitPath cs [] else splitPath cs (c :: cur)

/-- Modelled from the spec: AngularJS `$parse(path)` for a path expression made
of property names joined by dots ("small typed accessor ... returning an
optional leaf value ... must not throw on missing intermediate path segments").
The getter applied to a value. -/
def parse (path : String) (v : JVal) : JVal :=
  (splitPath path.data []).foldl JVal.prop v

/-! ## Media types: `buildGroups` and `groupBy` -/

/-- A result item: one record of an engine's result list. -/
abbrev Item := Obj JVal

/-- The qualifier of a media type in an engine config, `TYPE_LABEL: String|Array`
(and the `number` case `buildGroups` accepts). -/
inductive Qualifier where
  | str (s : String)
  | num (n : Int)
  | arr (vs : List JVal)
  deriving Repr, Inhabited

/-- The `mediaTypes` object of an engine config: `{path, types}`. -/
structure MediaRule where
  path : String
  types : Obj Qualifier
  deriving Repr, Inhabited

/-- The `mediaTypes` property of a registered engine: the classification object,
or the engine's own name when the config gave none. -/
inductive MediaTypes where
  | rule (media : MediaRule)
  | name (media : String)
  deriving Repr, Inhabited

/-- The `switch (typeof value)` of `buildGroups`: a string or a number becomes
a one-element array, an array is kept (`toArray`). -/
def Qualifier.toArray : Qualifier → List JVal
  | .str s => [JVal.str s]
  | .num n => [JVal.num n]
  | .arr vs => vs

/-- The loop `inverted[obj[value][i]] = value` of `invertArrayToObject` for one
key `value` of `obj`. -/
def invertInto (inverted : Obj String) (value : String) : List JVal → Obj String
  | [] => inverted
  | x :: rest => invertInto (assign inverted x.toStr value) value rest

/-- The function `invertArrayToObject(obj)`: every array element becomes a key
mapped to the key of the array that held it. -/
def invertArrayToObject (obj : Obj (List JVal)) : Obj String :=
  obj.foldl (fun inverted kv => invertInto inverted kv.1 kv.2) []

/-- The call `angular.extend(dst, src)`: copy the own properties of `src`. -/
def extend {β : Type} (dst src : Obj β) : Obj β :=
  src.foldl (fun d kv => Obj.set d kv.1 kv.2) dst

/-- The helper `buildGroups(types)`: the map from raw value to media type.
The one-property object `v` is built by `v[type] = value`. -/
def buildGroups (types : Obj Qualifier) : Obj String :=
  types.foldl
    (fun groups tv => extend groups (invertArrayToObject (assign [] tv.1 tv.2.toArray))) []

/-- The group an item goes to: `g = groups[prop]`, `'other'` when `g` is
undefined.  The read sees what a plain object inherits, coerced to a key by
`result[g]`. -/
def groupOf (groups : Obj String) (prop : JVal) : String :=
  match Obj.get groups prop.toStr with
  | some g => g
  | none =>
    match protoMember prop.toStr with
    | some inherited => inherited
    | none => "other"

/-- The statements `if (!result[g]) result[g] = []; result[g].push(item)`.
An inherited member is truthy and has no `push`: TypeError. -/
def pushItem (result : Obj (List Item)) (g : String) (item : Item) :
    Except JsError (Obj (List Item)) :=
  match Obj.get result g with
  | some group => .ok (Obj.set result g (group ++ [item]))
  | none =>
    match protoMember g with
    | some _ => .error .typeError
    | none => .ok (Obj.set result g [item])

/-- The loop `angular.forEach(collection, ...)` of `groupBy`. -/
def groupItems (groups : Obj String) (path : String) :
    List Item → Obj (List Item) → Except JsError (Obj (List Item))
  | [], result => .ok result
  | item :: rest, result =>
    match pushItem result (groupOf groups (parse path (JVal.obj item))) item with
    | .ok result' => groupItems groups path rest result'
    | .error e => .error e

/-- The service method `mediaTypes.groupBy(collection, media)`. -/
def groupBy (collection : List Item) : MediaTypes → Except JsError (Obj (List Item))
  | .rule media => groupItems (buildGroups media.types) media.path collection []
  | .name media => .ok (assign [] media collection)

/-- The media type `groupBy` gives an item under a classification rule. -/
def bucketOf (media : MediaRule) (item : Item) : String :=
  groupOf (buildGroups media.types) (parse media.path (JVal.obj item))

/-- A media type declares a raw value when the value, as a property key, is
the key of its qualifier or of one element of its qualifier array. -/
def declares (q : Qualifier) (raw : JVal) : Prop :=
  raw.toStr ∈ q.toArray.map JVal.toStr

instance (q : Qualifier) (raw : JVal) : Decidable (declares q raw) := by
  unfold declares; infer_instance

/-- The rule of the spec's round-trip example. -/
def exampleRule : MediaRule :=
  { path := "type"
    types := [("books", .str "book"), ("journals", .arr [.str "periodical", .str "serial"])] }

/-- The three items of the spec's round-trip example. -/
def exampleItems : List Item :=
  [[("type", .str "book")], [("type", .str "periodical")], [("type", .str "zzz")]]


/-! ## Engine registration -/

/-- One entry of the private `_types` table of the mediaTypes provider. -/
structure MediaType where
  engines : List String
  loaded : Bool
  deriving Repr, DecidableEq, Inhabited

/-- The initial `_types` table: the catch-all type `other`. -/
def initialTypes : Obj MediaType := [("other", { engines := [], loaded := false })]

/-- The provider method `mediaTypesProvider.type(type, engine)`.  The test
`!_types[type]` sees inherited members, which have no `engines` array: the
final `push` is then a TypeError, raised in a config block. -/
def registerType (types : Obj MediaType) (type engine : String) :
    Except JsError (Obj MediaType) :=
  let types1 :=
    match Obj.get types type with
    | some _ => types
    | none =>
      match protoMember type with
      | some _ => types
      | none => Obj.set types type { engines := [], loaded := false }
  match Obj.get types1 "other" with
  | none => .error .typeError
  | some other =>
    let types2 :=
      if engine ∈ other.engines then types1
      else Obj.set types1 "other" { other with engines := other.engines ++ [engine] }
    match Obj.get types2 type with
    | none => .error .typeError
    | some t => .ok (Obj.set types2 type { t with engines := t.engines ++ [engine] })

/-- The truthiness test `if (v)`. -/
def JVal.truthy : JVal → Bool
  | .undefined => false
  | .null => false
  | .bool b => b
  | .num n => n != 0
  | .str s => s != ""
  | .arr _ => true
  | .obj _ => true

/-- The params object handed to `oneSearchProvider.engine`, after
`angular.extend(defaults, engine)`: an absent property has its default. -/
structure EngineConfig where
  id : JVal := .null
  priority : Int := 10
  resultsPath : Option String := none
  totalsPath : Option String := none
  mediaTypes : Option MediaRule := none
  templateUrl : Option String := none
  filterQuery : Option String := none
  controller : Option String := none
  deriving Repr, Inhabited

/-- A registered engine: the value stored in `_engines[name]`. -/
structure Engine where
  name : String
  id : JVal
  priority : Int
  resultsPath : Option String
  totalsPath : Option String
  mediaTypes : MediaTypes
  templateUrl : Option String
  filterQuery : Option String
  controller : Option String
  deriving Repr, Inhabited

/-- The two private tables of the providers: `_types` and `_engines`. -/
structure Registry where
  types : Obj MediaType
  engines : Obj Engine
  deriving Repr, Inhabited

/-- The registry before any engine has registered. -/
def Registry.initial : Registry := { types := initialTypes, engines := [] }

/-- The calls `mediaTypesProvider.type(type, name)` for each key of
`e.mediaTypes.types`, in order. -/
def registerTypes (name : String) : List String → Obj MediaType → Except JsError (Obj MediaType)
  | [], types => .ok types
  | type :: rest, types =>
    match registerType types type name with
    | .ok types' => registerTypes name rest types'
    | .error e => .error e

/-- The provider method `oneSearchProvider.engine(name, engine)`. -/
def Registry.engine (reg : Registry) (name : JVal) (engine : EngineConfig) :
    Except JsError Registry :=
  match name with
  | .str name =>
    if engine.id.truthy then
      let registered : Except JsError (Obj MediaType × MediaTypes) :=
        match engine.mediaTypes with
        | some media =>
          (registerTypes name (Obj.keys media.types) reg.types).map (fun t => (t, .rule media))
        | none => (registerType reg.types name name).map (fun t => (t, .name name))
      match registered with
      | .error e => .error e
      | .ok (types, mediaTypes) =>
        .ok { types := types
              engines := assign reg.engines name
                { name := name, id := engine.id, priority := engine.priority
                  resultsPath := engine.resultsPath, totalsPath := engine.totalsPath
                  mediaTypes := mediaTypes, templateUrl := engine.templateUrl
                  filterQuery := engine.filterQuery, controller := engine.controller } }
    else .ok reg
  | _ => .ok reg

/-! ## The Bento service -/

/-- One box of `Bento.boxes`: a copied media type with its result state. -/
structure Box where
  engines : List String
  loaded : Bool
  results : Obj (List Item)
  resourceLinks : Obj String
  resourceLinkParams : Obj (Option Qualifier)
  resultLimit : Nat
  deriving Repr, Inhabited

/-- A pre-loaded entry of `Bento.engines`: the template requested and the
controller of the engine. -/
structure Preloaded where
  tpl : Option String
  controller : Option String
  deriving Repr, DecidableEq, Inhabited

/-- The state of the Bento service: `this.boxes` and `this.engines`. -/
structure Bento where
  boxes : Obj Box
  engines : Obj Preloaded
  deriving Repr, Inhabited

/-- The limit `initResultLimit(box)` computes from the number of engines. -/
def initResultLimit (numEngines : Nat) : Nat :=
  if numEngines > 1 then 1 else (if numEngines < 2 then 3 else 2)

/-- The body of the callback of `setResultLimit(box)`.  The callback is
deferred through `$q.when(...).then`: it runs when the handler that called it
has returned, and reads the box as that handler left it. -/
def setResultLimit (box : Box) : Box :=
  let numResults := box.results.length
  let numEngines := box.engines.length
  let expecting := numResults + numEngines
  if (expecting < 2 ∧ box.resultLimit < 3) ∨ (expecting < 3 ∧ box.resultLimit < 2) then
    { box with resultLimit := box.resultLimit + 1 }
  else box

/-- The helper `loadProgress(type, engine)` on the box `self.boxes[type]`:
`indexOf`, then `splice(i, 1)` and the deferred `setResultLimit`.  A handler
touches a box once, so the deferred callback sees the box after the splice. -/
def loadProgress (box : Box) (engine : String) : Box :=
  if engine ∈ box.engines then
    setResultLimit { box with engines := box.engines.erase engine }
  else box

/-- The helper `removeFromBoxes(engine)`: `loadProgress` on every box. -/
def removeFromBoxes (boxes : Obj Box) (engine : String) : Obj Box :=
  boxes.map (fun tb => (tb.1, loadProgress tb.2 engine))

/-- The method `Bento.getBoxes` on the boxes: a deep copy of `mediaTypes.types`
replaces the boxes, each with its initial limit and empty result maps.
`Bento.engines` is not touched. -/
def getBoxes (st : Bento) (types : Obj MediaType) : Bento :=
  { st with
    boxes := types.map (fun tm =>
      (tm.1, { engines := tm.2.engines, loaded := tm.2.loaded, results := [],
               resourceLinks := [], resourceLinkParams := [],
               resultLimit := initResultLimit tm.2.engines.length })) }

/-- The callback of `res.map`: `newItem.position = i`. -/
def stampFrom : Nat → List Item → List Item
  | _, [] => []
  | i, item :: rest => Obj.set item "position" (.num i) :: stampFrom (i + 1) rest

/-- The stamped result list `res.map(function(item, i){...})`. -/
def stamp (res : List Item) : List Item := stampFrom 0 res

/-- The stamp of an item, when it is the integer the handler wrote. -/
def position (item : Item) : Option Int :=
  match Obj.get item "position" with
  | some (.num n) => some n
  | _ => none

/-- The comparator given to `sort`: 1, -1 or 0 by the `position` stamps. -/
def comparePosition (a b : Item) : Int :=
  match position a, position b with
  | some x, some y => if x > y then 1 else if x < y then -1 else 0
  | _, _ => 0

/-- The call `grouped[type].sort(comparator)`: a stable sort. -/
def sortByPosition (group : List Item) : List Item :=
  group.insertionSort (fun a b => comparePosition a b ≤ 0)

/-- The argument `String(link[engine.id])` of `decodeURIComponent`, where `link`
is the value of `engine.getResourceLink(data)`: `none` for a response without
`resourceLinks` (the getter gives `undefined`, or `null`), else the own
properties of the object.  Member access on `undefined` is a TypeError. -/
def linkText (link : Option (Obj JVal)) (id : JVal) : Except JsError String :=
  match link with
  | none => .error .typeError
  | some fs =>
    match Obj.get fs id.toStr with
    | some more => .ok more.toStr
    | none => .ok ((protoMember id.toStr).getD "undefined")

/-- The body of `Object.keys(self.boxes).forEach(function(type){...})` in the
success handler, on the box `self.boxes[type]`.  A throw keeps the assignment
made before it. -/
def storeGroup (decodeURIComponent : String → Except JsError String) (engine : Engine)
    (link : Option (Obj JVal)) (grouped : Obj (List Item)) (type : String) (box : Box) :
    Box × Option JsError :=
  match Obj.get grouped type with
  | some group =>
    let box1 := { box with results := assign box.results engine.name (sortByPosition group) }
    match linkText link engine.id with
    | .error e => (box1, some e)
    | .ok more =>
      match decodeURIComponent more with
      | .error e => (box1, some e)
      | .ok url =>
        let box2 := { box1 with resourceLinks := assign box1.resourceLinks engine.name url }
        let box3 :=
          match engine.mediaTypes with
          | .rule media =>
            { box2 with
              resourceLinkParams :=
                assign box2.resourceLinkParams engine.name (Obj.get media.types type) }
          | .name _ => box2
        (loadProgress box3 engine.name, none)
  | none => (loadProgress box engine.name, none)

/-- The loop `Object.keys(self.boxes).forEach(...)` of the success handler:
the boxes in key order, left as they are from the first throw on. -/
def storeGroups (decodeURIComponent : String → Except JsError String) (engine : Engine)
    (link : Option (Obj JVal)) (grouped : Obj (List Item)) : Obj Box → Obj Box × Option JsError
  | [] => ([], none)
  | (type, box) :: rest =>
    match storeGroup decodeURIComponent engine link grouped type box with
    | (box', some e) => ((type, box') :: rest, some e)
    | (box', none) =>
      let done := storeGroups decodeURIComponent engine link grouped rest
      ((type, box') :: done.1, done.2)

/-- The success callback of `engine.response.then` for a registered engine.
`res` is the value of `engine.getResults(data)` (the empty list stands for every
value `isEmpty` accepts), `link` the value of `engine.getResourceLink(data)`.
The result is the new state and the error thrown, if any. -/
def onSuccess (decodeURIComponent : String → Except JsError String) (st : Bento)
    (engine : Engine) (res : List Item) (link : Option (Obj JVal)) : Bento × Option JsError :=
  if res.isEmpty then
    ({ st with boxes := removeFromBoxes st.boxes engine.name }, none)
  else
    match groupBy (stamp res) engine.mediaTypes with
    | .error e => (st, some e)
    | .ok grouped =>
      match storeGroups decodeURIComponent engine link grouped st.boxes with
      | (boxes, some e) => ({ st with boxes := boxes }, some e)
      | (boxes, none) =>
        ({ boxes := boxes
           engines := assign st.engines engine.name
             { tpl := engine.templateUrl, controller := engine.controller } }, none)

/-- The error callback of `engine.response.then`. -/
def onFailure (st : Bento) (engine : Engine) : Bento :=
  { st with boxes := removeFromBoxes st.boxes engine.name }

/-- The terminal outcome of one engine request. -/
inductive Outcome where
  | success (res : List Item) (link : Option (Obj JVal))
  | failure
  deriving Repr, Inhabited

/-- One engine resolution: the handler for the outcome, with the limit
recomputations it scheduled.  Each response arrives in a digest of its own, so
the deferred callbacks of a handler run before the handler of the next response. -/
def resolve (decodeURIComponent : String → Except JsError String) (st : Bento)
    (engine : Engine) : Outcome → Bento
  | .success res link => (onSuccess decodeURIComponent st engine res link).1
  | .failure => onFailure st engine

/-- A sequence of engine resolutions, in the order given. -/
def resolveAll (decodeURIComponent : String → Except JsError String) (st : Bento) :
    List (Engine × Outcome) → Bento
  | [] => st
  | (engine, outcome) :: rest =>
    resolveAll decodeURIComponent (resolve decodeURIComponent st engine outcome) rest

/-! ## Observations on a Bento state and the scenarios used below -/

/-- The pending list `boxes[type].engines` of a box. -/
def Bento.pending (st : Bento) (type : String) : Option (List String) :=
  (Obj.get st.boxes type).map Box.engines

/-- The stored list `boxes[type].results[engine]`. -/
def Bento.stored (st : Bento) (type engine : String) : Option (List Item) :=
  (Obj.get st.boxes type).bind (fun box => Obj.get box.results engine)

/-- The value `boxes[type].resultLimit`. -/
def Bento.limit (st : Bento) (type : String) : Option Nat :=
  (Obj.get st.boxes type).map Box.resultLimit

/-- The Bento service before the first search. -/
def Bento.initial : Bento := { boxes := [], engines := [] }

/-- Total number of items held by the groups of a grouping. -/
def groupSizes (result : Obj (List Item)) : Nat := (result.map (fun kv => kv.2.length)).sum

/-- An engine config with the classification rule `{path: "type", types: {books: "book"}}`. -/
def booksConfig : EngineConfig :=
  { id := .num 64, resultsPath := some "Catalog.list"
    mediaTypes := some { path := "type", types := [("books", .str "book")] } }

/-- The engine `catalog` as `oneSearchProvider.engine("catalog", booksConfig)` stores it. -/
def catalog : Engine :=
  { name := "catalog", id := .num 64, priority := 10, resultsPath := some "Catalog.list"
    totalsPath := none, mediaTypes := .rule { path := "type", types := [("books", .str "book")] }
    templateUrl := none, filterQuery := none, controller := none }

/-- The registry after `catalog` alone has registered. -/
def catalogRegistry : Registry :=
  { types := [("other", { engines := ["catalog"], loaded := false }),
              ("books", { engines := ["catalog"], loaded := false })]
    engines := [("catalog", catalog)] }

/-- An engine config whose rule names the catch-all type itself:
`{path: "type", types: {other: "misc"}}`. -/
def otherConfig : EngineConfig :=
  { id := .num 4, mediaTypes := some { path := "type", types := [("other", .str "misc")] } }

/-- The engine `ejournals` as `oneSearchProvider.engine("ejournals", otherConfig)` stores it. -/
def ejournals : Engine :=
  { name := "ejournals", id := .num 4, priority := 10, resultsPath := none, totalsPath := none
    mediaTypes := .rule { path := "type", types := [("other", .str "misc")] }
    templateUrl := none, filterQuery := none, controller := none }

/-- The registry after `ejournals` alone has registered with `otherConfig`. -/
def otherRegistry : Registry :=
  { types := [("other", { engines := ["ejournals", "ejournals"], loaded := false })]
    engines := [("ejournals", ejournals)] }

/-- The engine `booksConfig` registers under a given name. -/
def booksEngine (name : String) : Engine := { catalog with name := name }

/-- The registry after three engines have registered with `booksConfig`. -/
def threeRegistry : Registry :=
  { types := [("other", { engines := ["catalog", "scout", "acumen"], loaded := false }),
              ("books", { engines := ["catalog", "scout", "acumen"], loaded := false })]
    engines := [("catalog", catalog), ("scout", booksEngine "scout"),
                ("acumen", booksEngine "acumen")] }

/-- Three raw results: A is no book, B and C are books. -/
def rawABC : List Item :=
  [[("title", .str "A"), ("type", .str "map")], [("title", .str "B"), ("type", .str "book")],
   [("title", .str "C"), ("type", .str "book")]]

/-- The value of the `resourceLinks` getter on a response with a link for
backend id 64. -/
def someLinks : Option (Obj JVal) := some [("64", .str "http://library.example/more")]

/-- A list of items carries strictly increasing integer stamps. -/
def StrictlyRanked (items : List Item) : Prop :=
  items.Pairwise (fun a b => ∃ x y, position a = some x ∧ position b = some y ∧ x < y)

/-- The handler for an outcome returns without throwing. -/
def Completes (decodeURIComponent : String → Except JsError String) (st : Bento)
    (engine : Engine) : Outcome → Prop
  | .success res link => (onSuccess decodeURIComponent st engine res link).2 = none
  | .failure => True

/-- Every handler of a sequence of resolutions returns without throwing. -/
def AllComplete (decodeURIComponent : String → Except JsError String) :
    Bento → List (Engine × Outcome) → Prop
  | _, [] => True
  | st, (engine, outcome) :: rest =>
    Completes decodeURIComponent st engine outcome ∧
    AllComplete decodeURIComponent (resolve decodeURIComponent st engine outcome) rest

/-! ## Registration sequences and dispatch -/

/-- The config blocks of the engine modules, run in order on the registry. -/
def registerAll : List (JVal × EngineConfig) → Registry → Except JsError Registry
  | [], reg => .ok reg
  | (name, engine) :: rest, reg =>
    match reg.engine name engine with
    | .ok reg' => registerAll rest reg'
    | .error e => .error e

/-- The media types a sequence of registrations names: the keys of the rule of
each registered engine, or the engine's own name when its config has no rule. -/
def declaredTypes : List (JVal × EngineConfig) → List String
  | [] => []
  | (.str name, engine) :: rest =>
    (if engine.id.truthy then
      match engine.mediaTypes with
      | some media => Obj.keys media.types
      | none => [name]
    else []) ++ declaredTypes rest
  | _ :: rest => declaredTypes rest

/-- The comparator `orderObjectBy` gives to `sort` for the field `priority`. -/
def comparePriority (a b : Engine) : Int :=
  if a.priority = b.priority then 0 else if a.priority > b.priority then 1 else -1

/-- The order the comparator induces: `a` may stand before `b`. -/
def priorityLe (a b : Engine) : Prop := comparePriority a b ≤ 0

instance : DecidableRel priorityLe := fun a b => by
  unfold priorityLe; infer_instance

/-- The filter `orderObjectBy(items, 'priority')`: the values, as
`angular.forEach` enumerates them, are sorted with `Array.prototype.sort` (a
stable sort) and put into a new object under their `name`, in sorted order. -/
def orderObjectBy (items : Obj Engine) : Obj Engine :=
  let filtered := (Obj.enumerate items).map Prod.snd
  let sorted := filtered.insertionSort priorityLe
  sorted.foldl (fun newObj engine => assign newObj engine.name engine) []

/-- The value `SearchParams`: the default search parameters. -/
def SearchParams : Obj JVal := [("limit", .num 100)]

/-- The local parameters `p` of one engine in `searchAll`: `{engine: engine.id}`
extended by the global params, the filter query appended to `p.s` when it is not
null. -/
def requestParams (params : Obj JVal) (engine : Engine) : Obj JVal :=
  let p := extend [("engine", engine.id)] params
  match engine.filterQuery with
  | some filterQuery =>
    Obj.set p "s" (.str (((Obj.get p "s").getD .undefined).toStr ++ " " ++ filterQuery))
  | none => p

/-- The method `oneSearch.searchAll(params)` on the registered engines: the
caller's params after `angular.extend(params, SearchParams)`, and the calls
`Search.request(p)` in the order `angular.forEach(prioritized, ...)` makes them,
each with the name of its engine. -/
def searchAll (params : Obj JVal) (engines : Obj Engine) :
    Obj JVal × List (String × Obj JVal) :=
  let params' := extend params SearchParams
  (params',
    (Obj.enumerate (orderObjectBy engines)).map (fun ne => (ne.1, requestParams params' ne.2)))

/-- The query text `params['s']` a request carries. -/
def queryText (p : Obj JVal) : Option JVal := Obj.get p "s"

/-- The rule of the spec for the limit: with `expected` the engines that
contributed plus the engines still pending, increment by 1 if `expected < 2` and
the limit is below 3, or `expected < 3` and the limit is below 2. -/
def recomputeLimit (limit expected : Nat) : Nat :=
  if (expected < 2 ∧ limit < 3) ∨ (expected < 3 ∧ limit < 2) then limit + 1 else limit

/-- Engine names are the keys of `_engines`: distinct, each the `name` of its
record, none of them `__proto__`. -/
def WellNamed (engines : Obj Engine) : Prop :=
  (Obj.keys engines).Nodup ∧ ∀ ne ∈ engines, ne.2.name = ne.1 ∧ ne.1 ≠ "__proto__"

/-- The registry after `catalog` and `scout` have registered with `booksConfig`. -/
def twoRegistry : Registry :=
  { types := [("other", { engines := ["catalog", "scout"], loaded := false }),
              ("books", { engines := ["catalog", "scout"], loaded := false })]
    engines := [("catalog", catalog), ("scout", booksEngine "scout")] }

/-- An engine config with a classification rule that names no media type. -/
def emptyRuleConfig : EngineConfig :=
  { id := .num 2, mediaTypes := some { path := "type", types := [] } }

/-- An engine config without a classification rule. -/
def plainConfig : EngineConfig := { id := .num 2, resultsPath := some "Databases.databases" }

/-- Three registrations with priorities 5, 1 and (by default) 10, then one more
with priority 5. -/
def priorityRegistrations : List (JVal × EngineConfig) :=
  [(.str "catalog", { booksConfig with priority := 5 }),
   (.str "databases", { plainConfig with priority := 1 }),
   (.str "acumen", plainConfig),
   (.str "scout", { booksConfig with priority := 5, filterQuery := some "site:example.org" })]

/-- The route parameters of the search for `cats`. -/
def catsParams : Obj JVal := [("s", .str "cats")]

/-- The engine list of a media type after a registration call, when the call
returned and the media type exists. -/
def enginesOf (r : Except JsError Registry) (type : String) : Option (List String) :=
  match r with
  | .ok reg => (Obj.get reg.types type).map MediaType.engines
  | .error _ => none

/-- The names of the registered engines after a registration call. -/
def namesOf (r : Except JsError Registry) : Option (List String) :=
  match r with
  | .ok reg => some (Obj.keys reg.engines)
  | .error _ => none

/-- The registry the registrations `priorityRegistrations` build. -/
def priorityRegistry : Registry :=
  { types := [("other", { engines := ["catalog", "databases", "acumen", "scout"],
                          loaded := false }),
              ("books", { engines := ["catalog", "scout"], loaded := false }),
              ("databases", { engines := ["databases"], loaded := false }),
              ("acumen", { engines := ["acumen"], loaded := false })]
    engines := [("catalog", { catalog with priority := 5 }),
                ("databases",
                  { name := "databases", id := .num 2, priority := 1
                    resultsPath := some "Databases.databases", totalsPath := none
                    mediaTypes := .name "databases", templateUrl := none
                    filterQuery := none, controller := none }),
                ("acumen",
                  { name := "acumen", id := .num 2, priority := 10
                    resultsPath := some "Databases.databases", totalsPath := none
                    mediaTypes := .name "acumen", templateUrl := none
                    filterQuery := none, controller := none }),
                ("scout",
                  { booksEngine "scout" with
                    priority := 5, filterQuery := some "site:example.org" })] }

/-! ## The older Bento service and the box watcher -/

/-- The initial limit of a box in `src/app/bento/bento.js`:
`self.boxes[type]['engines'].length > 1 ? 1 : 3`. -/
def legacyInitLimit (numEngines : Nat) : Nat := if numEngines > 1 then 1 else 3

/-- The filter `limitTo` on an array with a non-negative limit: the first
`limit` elements. -/
def limitTo (input : List Item) (limit : Nat) : List Item := input.take limit

/-- The list `src/app/bento/bento.js` stores for a group:
`$filter('limitTo')(grouped[type], 3)`. -/
def legacyStoredGroup (group : List Item) : List Item := limitTo group 3

/-- The scan of the `bentoBox` watcher over the previous pending list: the first
engine that is not in the current list, `''` when there is none. -/
def removedEngine : List String → List String → String
  | [], _ => ""
  | eng :: rest, newVal => if eng ∈ newVal then removedEngine rest newVal else eng

/-- Four raw results, all books. -/
def rawFour : List Item :=
  [[("title", .str "A"), ("type", .str "book")], [("title", .str "B"), ("type", .str "book")],
   [("title", .str "C"), ("type", .str "book")], [("title", .str "D"), ("type", .str "book")]]

/-- The registrations of `catalog` with `booksConfig` and of `suggest` with a rule
that names no media type. -/
def suggestRegistrations : List (JVal × EngineConfig) :=
  [(.str "catalog", booksConfig), (.str "suggest", emptyRuleConfig)]

/-- The engine `suggest` as `emptyRuleConfig` registers it. -/
def suggest : Engine :=
  { name := "suggest", id := .num 2, priority := 10, resultsPath := none, totalsPath := none
    mediaTypes := .rule { path := "type", types := [] }
    templateUrl := none, filterQuery := none, controller := none }

/-- The registry the registrations `suggestRegistrations` build. -/
def suggestRegistry : Registry :=
  { types := [("other", { engines := ["catalog"], loaded := false }),
              ("books", { engines := ["catalog"], loaded := false })]
    engines := [("catalog", catalog), ("suggest", suggest)] }

/-- The config object of the doc comment of `invertArrayToObject`. -/
def invertExample : Obj (List JVal) := [("field", [.str "value1", .str "value2"])]

/-- What a handler that returns does to one box for the engine named `engine`:
the results map is as before or has a group assigned under the engine's name, the
engine leaves the pending list, and the limit is recomputed if the engine was
pending. -/
def Settles (engine : String) (old new : Box) : Prop :=
  (new.results = old.results ∨ ∃ group, new.results = assign old.results engine group) ∧
  new.engines = old.engines.erase engine ∧
  ((engine ∉ old.engines ∧ new.resultLimit = old.resultLimit) ∨
    (engine ∈ old.engines ∧
      new.resultLimit =
        recomputeLimit old.resultLimit (new.results.length + new.engines.length)))

/-- A box along a sequence of handlers that return, one per engine name. -/
def SettlesAll : List String → Box → Box → Prop
  | [], old, new => new = old
  | engine :: rest, old, new => ∃ mid, Settles engine old mid ∧ SettlesAll rest mid new

/-- The limit of a box that started with `n` pending engines, as the counts seen
so far decide it: `p` engines pending, `r` engines with stored results. -/
def LimitTracks (n : Nat) (box : Box) : Prop :=
  box.engines.length ≤ n ∧
  (n ≤ 1 → box.resultLimit = 3) ∧
  (2 ≤ n →
    (3 ≤ box.results.length + box.engines.length → box.resultLimit = 1) ∧
    (box.results.length + box.engines.length = 2 →
      (box.engines.length = n → box.resultLimit = 1) ∧
      (box.engines.length < n → box.resultLimit = 2)) ∧
    (box.results.length + box.engines.length ≤ 1 →
      (box.engines.length + 1 = n → box.resultLimit = 2) ∧
      (box.engines.length + 2 ≤ n → box.resultLimit = 3)))

/-- Four registrations without a rule: `b` with priority 1, then `1`, `a` and `0`
with the default priority. -/
def indexRegistrations : List (JVal × EngineConfig) :=
  [(.str "b", { plainConfig with priority := 1 }), (.str "1", plainConfig),
   (.str "a", plainConfig), (.str "0", plainConfig)]

/-- An object of arrays with the element `__proto__`. -/
def protoExample : Obj (List JVal) := [("a", [.str "__proto__", .str "x"])]

/-- An engine config whose rule declares the raw values `__proto__` and `x` for
the media type `a`. -/
def protoConfig : EngineConfig :=
  { id := .num 64
    mediaTypes := some { path := "type", types := [("a", .arr [.str "__proto__", .str "x"])] } }

/-! ## Number strings and enumeration order, on examples -/

/-- The string of a number: decimal below `2^53`; above, the digits of the nearest
double (`2^53 + 1` is `2^53`, `2^60` prints with three zeros), and exponent form
from `10^21` on. -/
theorem numberToString_examples :
    numberToString 64 = "64" ∧ numberToString (-5) = "-5" ∧
    numberToString 9007199254740993 = "9007199254740992" ∧
    numberToString 1152921504606846976 = "1152921504606847000" ∧
    numberToString 1000000000000000000000 = "1e+21" ∧
    numberToString 1180591620717411303424 = "1.1805916207174113e+21" := by
  decide

theorem numberToString_safe (n : Int) (h : n.natAbs < 9007199254740992) :
    numberToString n = toString n := by
  unfold numberToString
  rw [if_pos h]

/-- Enumeration puts the array indices first, in numeric order; `01` is no array
index. -/
theorem enumerate_example :
    Obj.enumerate [("b", 1), ("10", 2), ("a", 3), ("9", 4), ("01", 5)] =
      [("9", 4), ("10", 2), ("b", 1), ("a", 3), ("01", 5)] := by
  decide

/-! ## Own-property maps -/

namespace Obj
variable {β : Type}

theorem get_set (o : Obj β) (k k' : String) (v : β) :
    get (set o k v) k' = if k = k' then some v else get o k' := by
  induction o with
  | nil => simp [set, get]
  | cons kv rest ih =>
    obtain ⟨a, b⟩ := kv
    by_cases h : a = k
    · subst h
      by_cases h' : a = k' <;> simp [set, get, h']
    · by_cases h' : a = k'
      · subst h'
        have : ¬ k = a := fun e => h e.symm
        simp [set, get, h, this]
      · simp [set, get, h, h', ih]

theorem get_eq_none_iff (o : Obj β) (k : String) : get o k = none ↔ k ∉ keys o := by
  induction o with
  | nil => simp [get, keys]
  | cons kv rest ih =>
    obtain ⟨a, b⟩ := kv
    by_cases h : a = k
    · simp [get, keys, h]
    · have h2 : ¬ k = a := fun e => h e.symm
      simp [get, h, h2, keys] at ih ⊢
      exact ih

theorem keys_set (o : Obj β) (k : String) (v : β) :
    keys (set o k v) = if k ∈ keys o then keys o else keys o ++ [k] := by
  induction o with
  | nil => simp [set, keys]
  | cons kv rest ih =>
    obtain ⟨a, b⟩ := kv
    by_cases h : a = k
    · simp [set, keys, h]
    · have h2 : ¬ k = a := fun e => h e.symm
      simp only [keys] at ih
      simp only [set, h, keys, if_false, List.map_cons, ih, List.mem_cons, h2, false_or]
      split <;> simp

theorem nodup_keys_set (o : Obj β) (k : String) (v : β) (h : (keys o).Nodup) :
    (keys (set o k v)).Nodup := by
  rw [keys_set]
  split
  · exact h
  · rename_i hk
    exact List.Nodup.append h (List.nodup_singleton k) (by simpa using hk)

end Obj


theorem groupSizes_set_some (o : Obj (List Item)) (k : String) (old v : List Item)
    (h : Obj.get o k = some old) :
    groupSizes (Obj.set o k v) + old.length = groupSizes o + v.length := by
  induction o with
  | nil => simp [Obj.get] at h
  | cons kv rest ih =>
    obtain ⟨a, b⟩ := kv
    by_cases hk : a = k
    · simp [Obj.get, hk] at h
      subst h
      simp [Obj.set, hk, groupSizes]
      omega
    · simp [Obj.get, hk] at h
      have := ih h
      simp [Obj.set, hk, groupSizes] at this ⊢
      omega

theorem groupSizes_set_none (o : Obj (List Item)) (k : String) (v : List Item)
    (h : Obj.get o k = none) :
    groupSizes (Obj.set o k v) = groupSizes o + v.length := by
  induction o with
  | nil => simp [Obj.set, groupSizes]
  | cons kv rest ih =>
    obtain ⟨a, b⟩ := kv
    by_cases hk : a = k
    · simp [Obj.get, hk] at h
    · simp [Obj.get, hk] at h
      have := ih h
      simp [Obj.set, hk, groupSizes] at this ⊢
      omega

theorem protoMember_inherited (k s : String) (h : protoMember k = some s) :
    protoMember s = none := by
  unfold protoMember at h
  split at h
  · cases h; decide
  · split at h
    · cases h; decide
    · split at h
      · rename_i hk
        cases h
        simp only [List.mem_cons, List.mem_singleton, List.not_mem_nil, or_false] at hk
        rcases hk with h | h | h | h | h | h | h | h | h | h <;> subst h <;> decide
      · cases h


theorem Obj.snd_of_mem_set {β : Type} (o : Obj β) (k : String) (v : β) (p : String × β)
    (h : p ∈ Obj.set o k v) : p ∈ o ∨ p.2 = v := by
  induction o with
  | nil => simp [Obj.set] at h; right; rw [h]
  | cons kv rest ih =>
    obtain ⟨a, b⟩ := kv
    by_cases hk : a = k
    · simp only [Obj.set, hk, if_true, List.mem_cons] at h
      rcases h with h | h
      · right; rw [h]
      · left; exact List.mem_cons_of_mem _ h
    · simp only [Obj.set, hk, if_false, List.mem_cons] at h
      rcases h with h | h
      · left; rw [h]; exact List.mem_cons_self _ _
      · rcases ih h with h' | h'
        · left; exact List.mem_cons_of_mem _ h'
        · right; exact h'

theorem snd_of_mem_assign {β : Type} (o : Obj β) (k : String) (v : β) (p : String × β)
    (h : p ∈ assign o k v) : p ∈ o ∨ p.2 = v := by
  unfold assign at h
  split at h
  · left; exact h
  · exact Obj.snd_of_mem_set o k v p h

theorem snd_of_mem_invertInto (value : String) (xs : List JVal) :
    ∀ (inverted : Obj String) (p : String × String),
      p ∈ invertInto inverted value xs → p ∈ inverted ∨ p.2 = value := by
  induction xs with
  | nil => intro inverted p h; left; simpa [invertInto] using h
  | cons x rest ih =>
    intro inverted p h
    rcases ih _ p (by simpa [invertInto] using h) with h' | h'
    · exact snd_of_mem_assign _ _ _ _ h'
    · right; exact h'

theorem snd_of_mem_extend {β : Type} (src : Obj β) :
    ∀ (dst : Obj β) (p : String × β), p ∈ extend dst src → p ∈ dst ∨ ∃ q ∈ src, p.2 = q.2 := by
  induction src with
  | nil => intro dst p h; left; simpa [extend] using h
  | cons kv rest ih =>
    intro dst p h
    have h1 : p ∈ extend (Obj.set dst kv.1 kv.2) rest := by simpa [extend] using h
    rcases ih _ p h1 with h' | ⟨q, hq, he⟩
    · rcases Obj.snd_of_mem_set _ _ _ _ h' with h2 | h2
      · left; exact h2
      · right; exact ⟨kv, List.mem_cons_self _ _, h2⟩
    · right; exact ⟨q, List.mem_cons_of_mem _ hq, he⟩

theorem snd_of_mem_invertOne (t : String) (vs : List JVal) (p : String × String)
    (h : p ∈ invertArrayToObject (assign [] t vs)) : p.2 = t := by
  unfold assign at h
  split at h
  · simp [invertArrayToObject] at h
  · simp only [Obj.set, invertArrayToObject, List.foldl_cons, List.foldl_nil] at h
    rcases snd_of_mem_invertInto _ _ _ _ h with h' | h'
    · simp at h'
    · exact h'

theorem buildGroups_values_aux (types : Obj Qualifier) :
    ∀ (groups : Obj String) (p : String × String),
      p ∈ types.foldl
        (fun groups tv => extend groups (invertArrayToObject (assign [] tv.1 tv.2.toArray)))
        groups →
      p ∈ groups ∨ p.2 ∈ Obj.keys types := by
  induction types with
  | nil => intro groups p h; left; simpa using h
  | cons tv rest ih =>
    intro groups p h
    rcases ih _ p (by simpa using h) with h' | h'
    · rcases snd_of_mem_extend _ _ p h' with h2 | ⟨q, hq, he⟩
      · left; exact h2
      · right
        rw [he, snd_of_mem_invertOne _ _ q hq]
        simp [Obj.keys]
    · right
      simp only [Obj.keys, List.map_cons, List.mem_cons]
      right; exact h'

/-- Every group named by `buildGroups` is one of the declared media types. -/
theorem buildGroups_values (types : Obj Qualifier) (p : String × String)
    (h : p ∈ buildGroups types) : p.2 ∈ Obj.keys types := by
  rcases buildGroups_values_aux types [] p h with h' | h'
  · simp at h'
  · exact h'

theorem Obj.mem_of_get {β : Type} (o : Obj β) (k : String) (v : β) (h : Obj.get o k = some v) :
    (k, v) ∈ o := by
  induction o with
  | nil => simp [Obj.get] at h
  | cons kv rest ih =>
    obtain ⟨a, b⟩ := kv
    by_cases hk : a = k
    · simp [Obj.get, hk] at h
      simp [hk, h]
    · simp [Obj.get, hk] at h
      exact List.mem_cons_of_mem _ (ih h)

/-- With media types named as registration accepts them, the group of any raw
value is a key `pushItem` can create. -/
theorem groupOf_pushable (types : Obj Qualifier)
    (hnames : ∀ t ∈ Obj.keys types, protoMember t = none) (raw : JVal) :
    protoMember (groupOf (buildGroups types) raw) = none := by
  unfold groupOf
  split
  · rename_i g hg
    exact hnames g (buildGroups_values types _ (Obj.mem_of_get _ _ _ hg))
  · split
    · rename_i s hs
      exact protoMember_inherited _ _ hs
    · decide

/-- Invariant-carrying description of the loop of `groupBy`. -/
theorem groupItems_spec (groups : Obj String) (path : String)
    (hg : ∀ raw, protoMember (groupOf groups raw) = none) :
    ∀ (rest : List Item) (acc : Obj (List Item)),
      (Obj.keys acc).Nodup → (∀ g group, Obj.get acc g = some group → group ≠ []) →
      ∃ result, groupItems groups path rest acc = .ok result ∧
        (Obj.keys result).Nodup ∧
        (∀ g, (Obj.get result g).getD [] = (Obj.get acc g).getD [] ++
          rest.filter (fun item => decide (groupOf groups (parse path (JVal.obj item)) = g))) ∧
        (∀ g group, Obj.get result g = some group → group ≠ []) ∧
        groupSizes result = groupSizes acc + rest.length := by
  intro rest
  induction rest with
  | nil =>
    intro acc hnd hne
    exact ⟨acc, rfl, hnd, by simp, hne, by simp⟩
  | cons item rest ih =>
    intro acc hnd hne
    simp only [groupItems]
    cases hget : Obj.get acc (groupOf groups (parse path (JVal.obj item))) with
    | some group =>
      simp only [pushItem, hget]
      obtain ⟨result, hres, hnd', hfil, hne', hsz⟩ := ih
        (Obj.set acc (groupOf groups (parse path (JVal.obj item))) (group ++ [item]))
        (Obj.nodup_keys_set _ _ _ hnd)
        (by
          intro g grp h
          rw [Obj.get_set] at h
          split at h
          · cases h; simp
          · exact hne g grp h)
      refine ⟨result, hres, hnd', ?_, hne', ?_⟩
      · intro g
        rw [hfil g, Obj.get_set]
        by_cases hk : groupOf groups (parse path (JVal.obj item)) = g
        · subst hk
          simp [hget]
        · simp [hk]
      · have := groupSizes_set_some acc _ group (group ++ [item]) hget
        simp only [List.length_append, List.length_cons, List.length_nil] at this ⊢
        omega
    | none =>
      simp only [pushItem, hget, hg]
      obtain ⟨result, hres, hnd', hfil, hne', hsz⟩ := ih
        (Obj.set acc (groupOf groups (parse path (JVal.obj item))) [item])
        (Obj.nodup_keys_set _ _ _ hnd)
        (by
          intro g grp h
          rw [Obj.get_set] at h
          split at h
          · cases h; simp
          · exact hne g grp h)
      refine ⟨result, hres, hnd', ?_, hne', ?_⟩
      · intro g
        rw [hfil g, Obj.get_set]
        by_cases hk : groupOf groups (parse path (JVal.obj item)) = g
        · subst hk
          simp [hget]
        · simp [hk]
      · have := groupSizes_set_none acc _ [item] hget
        simp only [List.length_cons, List.length_nil] at this ⊢
        omega

/-- C2. With a classification rule (media types named as registration accepts
them), `groupBy` returns a grouping that partitions the collection: its keys are
distinct, the group under each key is exactly the sub-list of the items classified
to that key, in input order, no group is empty, and the groups together hold as
many items as the collection. -/
theorem groupBy_partitions (media : MediaRule) (collection : List Item)
    (hnames : ∀ t ∈ Obj.keys media.types, protoMember t = none) :
    ∃ result, groupBy collection (.rule media) = .ok result ∧
      (Obj.keys result).Nodup ∧
      (∀ g, (Obj.get result g).getD [] =
        collection.filter (fun item => decide (bucketOf media item = g))) ∧
      (∀ g group, Obj.get result g = some group → group ≠ [] ∧ group.Sublist collection) ∧
      groupSizes result = collection.length := by
  obtain ⟨result, hres, hnd, hfil, hne, hsz⟩ :=
    groupItems_spec (buildGroups media.types) media.path
      (groupOf_pushable media.types hnames) collection [] (by simp [Obj.keys])
      (by intro g group h; simp [Obj.get] at h)
  refine ⟨result, hres, hnd, ?_, ?_, ?_⟩
  · intro g
    have := hfil g
    simpa [Obj.get, bucketOf] using this
  · intro g group h
    refine ⟨hne g group h, ?_⟩
    have := hfil g
    rw [h] at this
    simp only [Option.getD_some, Obj.get, Option.getD_none, List.nil_append] at this
    rw [this]
    exact List.filter_sublist _
  · simpa [groupSizes] using hsz

theorem groupBy_partitions_witness :
    (∀ t ∈ Obj.keys exampleRule.types, protoMember t = none) ∧
    ∃ result, groupBy exampleItems (.rule exampleRule) = .ok result ∧
      (Obj.keys result).Nodup ∧
      (∀ g, (Obj.get result g).getD [] =
        exampleItems.filter (fun item => decide (bucketOf exampleRule item = g))) ∧
      (∀ g group, Obj.get result g = some group → group ≠ [] ∧ group.Sublist exampleItems) ∧
      groupSizes result = exampleItems.length :=
  ⟨by decide, groupBy_partitions exampleRule exampleItems (by decide)⟩

/-! ## What `buildGroups` maps a raw key to -/

theorem Obj.eq_of_mem_set {β : Type} (o : Obj β) (k : String) (v : β) (p : String × β)
    (h : p ∈ Obj.set o k v) : p ∈ o ∨ p = (k, v) := by
  induction o with
  | nil => simp [Obj.set] at h; right; exact h
  | cons kv rest ih =>
    obtain ⟨a, b⟩ := kv
    by_cases hk : a = k
    · simp only [Obj.set, hk, if_true, List.mem_cons] at h
      rcases h with h | h
      · right; exact h
      · left; exact List.mem_cons_of_mem _ h
    · simp only [Obj.set, hk, if_false, List.mem_cons] at h
      rcases h with h | h
      · left; rw [h]; exact List.mem_cons_self _ _
      · rcases ih h with h' | h'
        · left; exact List.mem_cons_of_mem _ h'
        · right; exact h'

theorem mem_invertInto (value : String) (xs : List JVal) :
    ∀ (inverted : Obj String) (p : String × String),
      p ∈ invertInto inverted value xs →
      p ∈ inverted ∨ (p.2 = value ∧ p.1 ∈ xs.map JVal.toStr) := by
  induction xs with
  | nil => intro inverted p h; left; simpa [invertInto] using h
  | cons x rest ih =>
    intro inverted p h
    rcases ih _ p (by simpa [invertInto] using h) with h' | ⟨h1, h2⟩
    · unfold assign at h'
      split at h'
      · left; exact h'
      · rcases Obj.eq_of_mem_set _ _ _ _ h' with h2 | h2
        · left; exact h2
        · right; rw [h2]; simp
    · right; exact ⟨h1, by simp [h2]⟩

theorem get_extend {β : Type} (src : Obj β) :
    ∀ (dst : Obj β) (k : String) (v : β),
      Obj.get (extend dst src) k = some v → Obj.get dst k = some v ∨ (k, v) ∈ src := by
  induction src with
  | nil => intro dst k v h; left; simpa [extend] using h
  | cons kv rest ih =>
    intro dst k v h
    have h1 : Obj.get (extend (Obj.set dst kv.1 kv.2) rest) k = some v := by
      simpa [extend] using h
    rcases ih _ k v h1 with h' | h'
    · rw [Obj.get_set] at h'
      split at h'
      · rename_i hk
        right
        cases h'
        rw [← hk]
        exact List.mem_cons_self _ _
      · left; exact h'
    · right; exact List.mem_cons_of_mem _ h'

theorem mem_invertOne (t : String) (vs : List JVal) (p : String × String)
    (h : p ∈ invertArrayToObject (assign [] t vs)) : p.2 = t ∧ p.1 ∈ vs.map JVal.toStr := by
  unfold assign at h
  split at h
  · simp [invertArrayToObject] at h
  · simp only [Obj.set, invertArrayToObject, List.foldl_cons, List.foldl_nil] at h
    rcases mem_invertInto _ _ _ _ h with h' | h'
    · simp at h'
    · exact h'

theorem buildGroups_get_aux (types : Obj Qualifier) :
    ∀ (groups : Obj String) (k g : String),
      Obj.get (types.foldl
        (fun groups tv => extend groups (invertArrayToObject (assign [] tv.1 tv.2.toArray)))
        groups) k = some g →
      Obj.get groups k = some g ∨ ∃ q, (g, q) ∈ types ∧ k ∈ q.toArray.map JVal.toStr := by
  induction types with
  | nil => intro groups k g h; left; simpa using h
  | cons tv rest ih =>
    intro groups k g h
    rcases ih _ k g (by simpa using h) with h' | ⟨q, hq, hk⟩
    · rcases get_extend _ _ k g h' with h2 | h2
      · left; exact h2
      · right
        obtain ⟨h3, h4⟩ := mem_invertOne _ _ _ h2
        simp only at h3 h4
        refine ⟨tv.2, ?_, h4⟩
        rw [h3]
        exact List.mem_cons_self _ _
    · right; exact ⟨q, List.mem_cons_of_mem _ hq, hk⟩

/-- A raw key that `buildGroups` maps to a media type is declared by that type. -/
theorem buildGroups_get (types : Obj Qualifier) (k g : String)
    (h : Obj.get (buildGroups types) k = some g) :
    ∃ q, (g, q) ∈ types ∧ k ∈ q.toArray.map JVal.toStr := by
  rcases buildGroups_get_aux types [] k g h with h' | h'
  · simp [Obj.get] at h'
  · exact h'

theorem Obj.get_set_ne_none {β : Type} (o : Obj β) (k k' : String) (v : β)
    (h : Obj.get o k' ≠ none ∨ k = k') : Obj.get (Obj.set o k v) k' ≠ none := by
  rw [Obj.get_set]
  split
  · simp
  · rename_i hk
    rcases h with h | h
    · exact h
    · exact absurd h hk

theorem invertInto_get (value : String) (xs : List JVal) (k : String) (hk : k ≠ "__proto__") :
    ∀ (inverted : Obj String),
      Obj.get inverted k ≠ none ∨ k ∈ xs.map JVal.toStr →
      Obj.get (invertInto inverted value xs) k ≠ none := by
  induction xs with
  | nil =>
    intro inverted h
    rcases h with h | h
    · simpa [invertInto] using h
    · simp at h
  | cons x rest ih =>
    intro inverted h
    simp only [invertInto]
    apply ih
    by_cases hx : x.toStr = k
    · left
      have hne : ¬ x.toStr = "__proto__" := by rw [hx]; exact hk
      rw [assign, if_neg hne]
      exact Obj.get_set_ne_none _ _ _ _ (Or.inr hx)
    · rcases h with h | h
      · left
        unfold assign
        split
        · exact h
        · exact Obj.get_set_ne_none _ _ _ _ (Or.inl h)
      · right
        simp only [List.map_cons, List.mem_cons] at h
        rcases h with h | h
        · exact absurd h.symm hx
        · exact h

theorem extend_get_ne_none {β : Type} (src : Obj β) (k : String) :
    ∀ (dst : Obj β), Obj.get dst k ≠ none ∨ Obj.get src k ≠ none →
      Obj.get (extend dst src) k ≠ none := by
  induction src with
  | nil =>
    intro dst h
    rcases h with h | h
    · simpa [extend] using h
    · simp [Obj.get] at h
  | cons kv rest ih =>
    intro dst h
    have : extend dst (kv :: rest) = extend (Obj.set dst kv.1 kv.2) rest := by simp [extend]
    rw [this]
    apply ih
    by_cases hk : kv.1 = k
    · left; exact Obj.get_set_ne_none _ _ _ _ (Or.inr hk)
    · rcases h with h | h
      · left; exact Obj.get_set_ne_none _ _ _ _ (Or.inl h)
      · right
        obtain ⟨a, b⟩ := kv
        simpa [Obj.get, hk] using h

theorem buildGroups_get_ne_none_aux (types : Obj Qualifier) (k : String)
    (hk : k ≠ "__proto__") (hnames : ∀ t ∈ Obj.keys types, t ≠ "__proto__") :
    ∀ (groups : Obj String),
      (Obj.get groups k ≠ none ∨ ∃ tq ∈ types, k ∈ tq.2.toArray.map JVal.toStr) →
      Obj.get (types.foldl
        (fun groups tv => extend groups (invertArrayToObject (assign [] tv.1 tv.2.toArray)))
        groups) k ≠ none := by
  induction types with
  | nil =>
    intro groups h
    rcases h with h | ⟨tq, htq, _⟩
    · simpa using h
    · simp at htq
  | cons tv rest ih =>
    intro groups h
    simp only [List.foldl_cons]
    apply ih (fun t ht => hnames t (by simp [Obj.keys] at ht ⊢; right; exact ht))
    by_cases hd : k ∈ tv.2.toArray.map JVal.toStr
    · left
      apply extend_get_ne_none
      right
      have hname : ¬ tv.1 = "__proto__" := hnames tv.1 (by simp [Obj.keys])
      rw [assign, if_neg hname]
      simp only [Obj.set, invertArrayToObject, List.foldl_cons, List.foldl_nil]
      exact invertInto_get _ _ k hk _ (Or.inr hd)
    · rcases h with h | ⟨tq, htq, hin⟩
      · left; exact extend_get_ne_none _ _ _ (Or.inl h)
      · right
        simp only [List.mem_cons] at htq
        rcases htq with htq | htq
        · rw [htq] at hin; exact absurd hin hd
        · exact ⟨tq, htq, hin⟩

/-- Classification outside the inherited keys: when the raw value is not
the name of a member of `Object.prototype`, the item goes to a media type that
declares the raw value, and to `other` when no media type declares it. -/
theorem bucketOf_declared_or_other (media : MediaRule) (item : Item)
    (hnames : ∀ t ∈ Obj.keys media.types, t ≠ "__proto__")
    (hraw : protoMember (parse media.path (JVal.obj item)).toStr = none) :
    (∃ q, (bucketOf media item, q) ∈ media.types ∧
        declares q (parse media.path (JVal.obj item))) ∨
      ((∀ tq ∈ media.types, ¬ declares tq.2 (parse media.path (JVal.obj item))) ∧
        bucketOf media item = "other") := by
  cases hget : Obj.get (buildGroups media.types) (parse media.path (JVal.obj item)).toStr with
  | some g =>
    left
    obtain ⟨q, hq, hk⟩ := buildGroups_get _ _ _ hget
    have : bucketOf media item = g := by simp [bucketOf, groupOf, hget]
    rw [this]
    exact ⟨q, hq, hk⟩
  | none =>
    right
    refine ⟨?_, by simp [bucketOf, groupOf, hget, hraw]⟩
    intro tq htq hdecl
    have hk : (parse media.path (JVal.obj item)).toStr ≠ "__proto__" := by
      intro h
      rw [h] at hraw
      exact absurd hraw (by decide)
    exact buildGroups_get_ne_none_aux media.types _ hk hnames [] (Or.inr ⟨tq, htq, hdecl⟩) hget

/-! ## The resolution handlers: what they do to a box -/

theorem setResultLimit_engines (box : Box) : (setResultLimit box).engines = box.engines := by
  unfold setResultLimit; simp only []; split <;> rfl

theorem setResultLimit_results (box : Box) : (setResultLimit box).results = box.results := by
  unfold setResultLimit; simp only []; split <;> rfl

theorem setResultLimit_links (box : Box) :
    (setResultLimit box).resourceLinks = box.resourceLinks ∧
    (setResultLimit box).resourceLinkParams = box.resourceLinkParams ∧
    (setResultLimit box).loaded = box.loaded := by
  unfold setResultLimit; simp only []; split <;> exact ⟨rfl, rfl, rfl⟩

theorem loadProgress_engines (box : Box) (engine : String) :
    (loadProgress box engine).engines = box.engines.erase engine := by
  unfold loadProgress
  split
  · rw [setResultLimit_engines]
  · rename_i h
    rw [List.erase_of_not_mem h]

theorem loadProgress_results (box : Box) (engine : String) :
    (loadProgress box engine).results = box.results := by
  unfold loadProgress
  split
  · rw [setResultLimit_results]
  · rfl

theorem loadProgress_links (box : Box) (engine : String) :
    (loadProgress box engine).resourceLinks = box.resourceLinks ∧
    (loadProgress box engine).resourceLinkParams = box.resourceLinkParams ∧
    (loadProgress box engine).loaded = box.loaded := by
  unfold loadProgress
  split
  · exact setResultLimit_links _
  · exact ⟨rfl, rfl, rfl⟩

theorem storeGroup_engines (decodeURIComponent : String → Except JsError String)
    (engine : Engine) (link : Option (Obj JVal)) (grouped : Obj (List Item)) (type : String) (box : Box) :
    (storeGroup decodeURIComponent engine link grouped type box).1.engines =
        box.engines.erase engine.name ∨
      (storeGroup decodeURIComponent engine link grouped type box).1.engines = box.engines := by
  unfold storeGroup
  split
  · split
    · right; rfl
    · split
      · right; rfl
      · left
        rw [loadProgress_engines]
        split <;> rfl
  · left; exact loadProgress_engines _ _

theorem storeGroups_engines (decodeURIComponent : String → Except JsError String)
    (engine : Engine) (link : Option (Obj JVal)) (grouped : Obj (List Item)) (boxes : Obj Box) :
    List.Forall₂
      (fun (old new : String × Box) =>
        new.1 = old.1 ∧
        (new.2.engines = old.2.engines.erase engine.name ∨ new.2.engines = old.2.engines))
      boxes (storeGroups decodeURIComponent engine link grouped boxes).1 := by
  induction boxes with
  | nil => simp [storeGroups]
  | cons tb rest ih =>
    obtain ⟨type, box⟩ := tb
    have h := storeGroup_engines decodeURIComponent engine link grouped type box
    simp only [storeGroups]
    split
    · rename_i box' e heq
      rw [heq] at h
      refine List.Forall₂.cons ⟨rfl, h⟩ ?_
      exact List.forall₂_same.mpr (fun x _ => ⟨rfl, Or.inr rfl⟩)
    · rename_i box' heq
      rw [heq] at h
      exact List.Forall₂.cons ⟨rfl, h⟩ ih

theorem removeFromBoxes_forall₂ (boxes : Obj Box) (engine : String) :
    List.Forall₂
      (fun (old new : String × Box) =>
        new.1 = old.1 ∧ new.2.engines = old.2.engines.erase engine ∧
        new.2.results = old.2.results ∧ new.2.resourceLinks = old.2.resourceLinks ∧
        new.2.resourceLinkParams = old.2.resourceLinkParams ∧ new.2.loaded = old.2.loaded)
      boxes (removeFromBoxes boxes engine) := by
  induction boxes with
  | nil => simp [removeFromBoxes]
  | cons tb rest ih =>
    refine List.Forall₂.cons ⟨rfl, loadProgress_engines _ _, loadProgress_results _ _,
      (loadProgress_links _ _).1, (loadProgress_links _ _).2.1, (loadProgress_links _ _).2.2⟩ ?_
    exact ih

/-- A failed resolution and a successful one with an empty result list produce
the same Bento state, without error: in every box the first occurrence of the
engine is removed from the pending list (`splice(i, 1)`), the entries of the
other engines stay as they are, and the stored results, the resource links and
the pre-loaded engines are unchanged. -/
theorem failure_and_empty_remove_engine (decodeURIComponent : String → Except JsError String)
    (st : Bento) (engine : Engine) (link : Option (Obj JVal)) :
    onSuccess decodeURIComponent st engine [] link = (onFailure st engine, none) ∧
    resolve decodeURIComponent st engine (.success [] link) =
      resolve decodeURIComponent st engine .failure ∧
    (resolve decodeURIComponent st engine .failure).engines = st.engines ∧
    List.Forall₂
      (fun (old new : String × Box) =>
        new.1 = old.1 ∧ new.2.engines = old.2.engines.erase engine.name ∧
        (∀ other, other ≠ engine.name → new.2.engines.count other = old.2.engines.count other) ∧
        new.2.results = old.2.results ∧ new.2.resourceLinks = old.2.resourceLinks ∧
        new.2.resourceLinkParams = old.2.resourceLinkParams)
      st.boxes (resolve decodeURIComponent st engine .failure).boxes := by
  refine ⟨rfl, rfl, rfl, ?_⟩
  refine List.Forall₂.imp ?_ (removeFromBoxes_forall₂ st.boxes engine.name)
  intro old new h
  obtain ⟨h1, h2, h3, h4, h5, _⟩ := h
  refine ⟨h1, h2, ?_, h3, h4, h5⟩
  intro other hne
  rw [h2, List.count_erase_of_ne hne]

/-- C7. Every resolution handler (success with any response, empty, failure)
leaves the boxes in place and each pending list a sub-list of what it was: the
new list is the old one, or the old one without the first occurrence of the
resolving engine. -/
theorem pending_only_shrinks (decodeURIComponent : String → Except JsError String)
    (st : Bento) (engine : Engine) (outcome : Outcome) :
    List.Forall₂
      (fun (old new : String × Box) =>
        new.1 = old.1 ∧
        (new.2.engines = old.2.engines ∨ new.2.engines = old.2.engines.erase engine.name) ∧
        new.2.engines.Sublist old.2.engines ∧
        (∀ other, other ≠ engine.name → new.2.engines.count other = old.2.engines.count other) ∧
        old.2.engines.length ≤ new.2.engines.length + 1)
      st.boxes (resolve decodeURIComponent st engine outcome).boxes := by
  have key : List.Forall₂
      (fun (old new : String × Box) =>
        new.1 = old.1 ∧
        (new.2.engines = old.2.engines.erase engine.name ∨ new.2.engines = old.2.engines))
      st.boxes (resolve decodeURIComponent st engine outcome).boxes := by
    cases outcome with
    | failure =>
      exact List.Forall₂.imp (fun _ _ h => ⟨h.1, Or.inl h.2.1⟩)
        (removeFromBoxes_forall₂ st.boxes engine.name)
    | success res link =>
      simp only [resolve, onSuccess]
      split
      · exact List.Forall₂.imp (fun _ _ h => ⟨h.1, Or.inl h.2.1⟩)
          (removeFromBoxes_forall₂ st.boxes engine.name)
      · split
        · exact List.forall₂_same.mpr (fun x _ => ⟨rfl, Or.inr rfl⟩)
        · rename_i grouped _
          have h := storeGroups_engines decodeURIComponent engine link grouped st.boxes
          split
          · rename_i boxes e heq
            rw [heq] at h
            exact h
          · rename_i boxes heq
            rw [heq] at h
            exact h
  refine List.Forall₂.imp ?_ key
  intro old new h
  obtain ⟨h1, h2⟩ := h
  refine ⟨h1, h2.symm, ?_, ?_, ?_⟩
  · rcases h2 with h2 | h2
    · rw [h2]; exact List.erase_sublist _ _
    · rw [h2]
  · intro other hne
    rcases h2 with h2 | h2
    · rw [h2]; exact List.count_erase_of_ne hne _
    · rw [h2]
  · rcases h2 with h2 | h2
    · rw [h2, List.length_erase]
      split <;> omega
    · rw [h2]; omega

/-- An engine listed once in a pending list is gone after `loadProgress`. -/
theorem loadProgress_clears_engine_listed_once (box : Box) (engine : String)
    (h : box.engines.Nodup) : engine ∉ (loadProgress box engine).engines := by
  rw [loadProgress_engines]
  exact h.not_mem_erase

/-- On a box whose pending list has no duplicate, a second `loadProgress` for the
same engine changes nothing. -/
theorem loadProgress_twice_listed_once (box : Box) (engine : String) (h : box.engines.Nodup) :
    loadProgress (loadProgress box engine) engine = loadProgress box engine := by
  have hnot := loadProgress_clears_engine_listed_once box engine h
  generalize loadProgress box engine = box' at hnot
  unfold loadProgress
  simp [hnot]

/-! ## Rank stamps and the stored lists -/

theorem position_stamped (item : Item) (i : Nat) :
    position (Obj.set item "position" (.num i)) = some (i : Int) := by
  simp [position, Obj.get_set]

theorem stampFrom_eq_map (res : List Item) :
    ∀ i, stampFrom i res =
      (res.enumFrom i).map (fun p => Obj.set p.2 "position" (.num p.1)) := by
  induction res with
  | nil => intro i; rfl
  | cons item rest ih => intro i; simp [stampFrom, List.enumFrom, ih]

theorem stampFrom_lower (res : List Item) :
    ∀ (i : Nat) (b : Item), b ∈ stampFrom i res → ∃ y, position b = some y ∧ (i : Int) ≤ y := by
  induction res with
  | nil => intro i b h; simp [stampFrom] at h
  | cons item rest ih =>
    intro i b h
    simp only [stampFrom, List.mem_cons] at h
    rcases h with h | h
    · exact ⟨i, by rw [h, position_stamped], le_refl _⟩
    · obtain ⟨y, hy, hle⟩ := ih (i + 1) b h
      exact ⟨y, hy, by push_cast at hle; omega⟩

theorem stampFrom_ranked (res : List Item) : ∀ i, StrictlyRanked (stampFrom i res) := by
  induction res with
  | nil => intro i; simp [stampFrom, StrictlyRanked]
  | cons item rest ih =>
    intro i
    simp only [stampFrom, StrictlyRanked, List.pairwise_cons]
    refine ⟨?_, ih (i + 1)⟩
    intro b hb
    obtain ⟨y, hy, hle⟩ := stampFrom_lower rest (i + 1) b hb
    exact ⟨i, y, position_stamped item i, hy, by push_cast at hle; omega⟩

/-- The stamped list carries each item's zero-based index, strictly increasing. -/
theorem stamp_ranked (res : List Item) : StrictlyRanked (stamp res) := stampFrom_ranked res 0

/-- Sorting a strictly ranked list by position leaves it as it is. -/
theorem sortByPosition_ranked (group : List Item) (h : StrictlyRanked group) :
    sortByPosition group = group := by
  unfold sortByPosition
  apply List.Sorted.insertionSort_eq
  refine List.Pairwise.imp ?_ h
  intro a b hab
  obtain ⟨x, y, hx, hy, hlt⟩ := hab
  simp only [comparePosition, hx, hy]
  have h1 : ¬ x > y := by omega
  simp [h1, hlt]

theorem storeGroup_results (decodeURIComponent : String → Except JsError String)
    (engine : Engine) (link : Option (Obj JVal)) (grouped : Obj (List Item)) (type : String)
    (box : Box) :
    (storeGroup decodeURIComponent engine link grouped type box).1.results =
      match Obj.get grouped type with
      | some group => assign box.results engine.name (sortByPosition group)
      | none => box.results := by
  unfold storeGroup
  split
  · split
    · rfl
    · split
      · rfl
      · rw [loadProgress_results]
        split <;> rfl
  · exact loadProgress_results _ _

theorem storeGroups_results (decodeURIComponent : String → Except JsError String)
    (engine : Engine) (link : Option (Obj JVal)) (grouped : Obj (List Item)) (boxes : Obj Box)
    (hok : (storeGroups decodeURIComponent engine link grouped boxes).2 = none) :
    List.Forall₂
      (fun (old new : String × Box) =>
        new.1 = old.1 ∧
        new.2.results =
          match Obj.get grouped old.1 with
          | some group => assign old.2.results engine.name (sortByPosition group)
          | none => old.2.results)
      boxes (storeGroups decodeURIComponent engine link grouped boxes).1 := by
  induction boxes with
  | nil => simp [storeGroups]
  | cons tb rest ih =>
    obtain ⟨type, box⟩ := tb
    have h := storeGroup_results decodeURIComponent engine link grouped type box
    simp only [storeGroups] at hok ⊢
    split
    · rename_i box' e heq
      simp [heq] at hok
    · rename_i box' heq
      rw [heq] at h hok
      exact List.Forall₂.cons ⟨rfl, h⟩ (ih hok)

/-- Rank preservation when the success handler completes: for an engine with a
classification rule and a non-empty result list, every box whose media type got
at least one item holds, under the engine's name, exactly the stamped raw results
classified into that type, in raw order with strictly increasing stamps; the
other boxes keep their stored results. -/
theorem success_stores_ranked_sublists (decodeURIComponent : String → Except JsError String)
    (st : Bento) (engine : Engine) (media : MediaRule) (res : List Item)
    (link : Option (Obj JVal))
    (hrule : engine.mediaTypes = .rule media)
    (hnames : ∀ t ∈ Obj.keys media.types, protoMember t = none)
    (hname : engine.name ≠ "__proto__") (hres : res ≠ [])
    (hok : (onSuccess decodeURIComponent st engine res link).2 = none) :
    List.Forall₂
      (fun (old new : String × Box) =>
        new.1 = old.1 ∧
        (((stamp res).filter (fun item => decide (bucketOf media item = old.1)) ≠ [] →
          Obj.get new.2.results engine.name =
            some ((stamp res).filter (fun item => decide (bucketOf media item = old.1)))) ∧
         ((stamp res).filter (fun item => decide (bucketOf media item = old.1)) = [] →
          new.2.results = old.2.results)) ∧
        StrictlyRanked ((stamp res).filter (fun item => decide (bucketOf media item = old.1))))
      st.boxes (onSuccess decodeURIComponent st engine res link).1.boxes := by
  obtain ⟨grouped, hgrouped, _, hfil, hne, _⟩ := groupBy_partitions media (stamp res) hnames
  have hempty : res.isEmpty = false := by
    cases res with
    | nil => exact absurd rfl hres
    | cons _ _ => rfl
  simp only [onSuccess, hempty, hrule, hgrouped, Bool.false_eq_true, if_false] at hok ⊢
  have hstore : (storeGroups decodeURIComponent engine link grouped st.boxes).2 = none := by
    revert hok
    split
    · intro hok; simp at hok
    · rename_i boxes heq
      intro _
      rw [heq]
  have hboxes := storeGroups_results decodeURIComponent engine link grouped st.boxes hstore
  have hfinal : (match storeGroups decodeURIComponent engine link grouped st.boxes with
      | (boxes, some e) => (({ st with boxes := boxes } : Bento), some e)
      | (boxes, none) =>
        (({ boxes := boxes
            engines := assign st.engines engine.name
              { tpl := engine.templateUrl, controller := engine.controller } } : Bento),
          none)).1.boxes = (storeGroups decodeURIComponent engine link grouped st.boxes).1 := by
    split <;> rename_i heq <;> rw [heq]
  rw [hfinal]
  refine List.Forall₂.imp ?_ hboxes
  intro old new h
  obtain ⟨h1, h2⟩ := h
  have hf := hfil old.1
  refine ⟨h1, ⟨?_, ?_⟩, List.Pairwise.filter _ (stamp_ranked res)⟩
  · intro hnonempty
    cases hget : Obj.get grouped old.1 with
    | none =>
      rw [hget] at hf
      exact absurd hf.symm hnonempty
    | some group =>
      rw [hget] at hf h2
      simp only [Option.getD_some] at hf
      simp only [] at h2
      rw [h2, assign, if_neg hname, Obj.get_set, if_pos rfl, ← hf,
        sortByPosition_ranked]
      rw [hf]
      exact List.Pairwise.filter _ (stamp_ranked res)
  · intro hnone
    cases hget : Obj.get grouped old.1 with
    | none =>
      rw [hget] at h2
      exact h2
    | some group =>
      rw [hget] at hf
      simp only [Option.getD_some] at hf
      exact absurd (hf.trans hnone) (hne old.1 group hget).1

/-! ## Resolutions whose handler completes -/

theorem storeGroup_completes (decodeURIComponent : String → Except JsError String)
    (engine : Engine) (link : Option (Obj JVal)) (grouped : Obj (List Item)) (type : String)
    (box : Box) (more url : String) (hlink : linkText link engine.id = .ok more)
    (hdecode : decodeURIComponent more = .ok url) :
    (storeGroup decodeURIComponent engine link grouped type box).2 = none := by
  unfold storeGroup
  split
  · simp only [hlink, hdecode]
  · rfl

theorem storeGroup_engines_of_completes (decodeURIComponent : String → Except JsError String)
    (engine : Engine) (link : Option (Obj JVal)) (grouped : Obj (List Item)) (type : String)
    (box : Box) (h : (storeGroup decodeURIComponent engine link grouped type box).2 = none) :
    (storeGroup decodeURIComponent engine link grouped type box).1.engines =
      box.engines.erase engine.name := by
  unfold storeGroup at h ⊢
  cases hg : Obj.get grouped type with
  | none => exact loadProgress_engines _ _
  | some group =>
    simp only [hg] at h ⊢
    cases hl : linkText link engine.id with
    | error e => simp [hl] at h
    | ok more =>
      simp only [hl] at h ⊢
      cases hd : decodeURIComponent more with
      | error e => simp [hd] at h
      | ok url =>
        simp only []
        rw [loadProgress_engines]
        split <;> rfl

theorem storeGroups_completes (decodeURIComponent : String → Except JsError String)
    (engine : Engine) (link : Option (Obj JVal)) (grouped : Obj (List Item)) (more url : String)
    (hlink : linkText link engine.id = .ok more) (hdecode : decodeURIComponent more = .ok url)
    (boxes : Obj Box) : (storeGroups decodeURIComponent engine link grouped boxes).2 = none := by
  induction boxes with
  | nil => rfl
  | cons tb rest ih =>
    obtain ⟨type, box⟩ := tb
    have h := storeGroup_completes decodeURIComponent engine link grouped type box more url
      hlink hdecode
    simp only [storeGroups]
    split
    · rename_i heq; simp [heq] at h
    · exact ih

theorem storeGroups_engines_of_completes
    (decodeURIComponent : String → Except JsError String) (engine : Engine)
    (link : Option (Obj JVal)) (grouped : Obj (List Item)) (boxes : Obj Box)
    (hok : (storeGroups decodeURIComponent engine link grouped boxes).2 = none) :
    List.Forall₂
      (fun (old new : String × Box) =>
        new.1 = old.1 ∧ new.2.engines = old.2.engines.erase engine.name)
      boxes (storeGroups decodeURIComponent engine link grouped boxes).1 := by
  induction boxes with
  | nil => simp [storeGroups]
  | cons tb rest ih =>
    obtain ⟨type, box⟩ := tb
    have h := storeGroup_engines_of_completes decodeURIComponent engine link grouped type box
    simp only [storeGroups] at hok ⊢
    split
    · rename_i heq; simp [heq] at hok
    · rename_i box' heq
      rw [heq] at h hok
      exact List.Forall₂.cons ⟨rfl, h rfl⟩ (ih hok)

/-- A resolution whose handler completes removes the first occurrence of the
engine from the pending list of every box. -/
theorem resolve_erases_of_completes (decodeURIComponent : String → Except JsError String)
    (st : Bento) (engine : Engine) (outcome : Outcome)
    (h : Completes decodeURIComponent st engine outcome) :
    List.Forall₂
      (fun (old new : String × Box) =>
        new.1 = old.1 ∧ new.2.engines = old.2.engines.erase engine.name)
      st.boxes (resolve decodeURIComponent st engine outcome).boxes := by
  cases outcome with
  | failure =>
    exact List.Forall₂.imp (fun _ _ h => ⟨h.1, h.2.1⟩)
      (removeFromBoxes_forall₂ st.boxes engine.name)
  | success res link =>
    simp only [Completes, onSuccess] at h
    simp only [resolve, onSuccess]
    split
    · exact List.Forall₂.imp (fun _ _ h => ⟨h.1, h.2.1⟩)
        (removeFromBoxes_forall₂ st.boxes engine.name)
    · rename_i hempty
      have hempty' : res.isEmpty = false := by simpa using hempty
      simp only [hempty', Bool.false_eq_true, if_false] at h
      split
      · rename_i e heq; simp [heq] at h
      · rename_i grouped heq
        simp only [heq] at h
        have hok : (storeGroups decodeURIComponent engine link grouped st.boxes).2 = none := by
          revert h
          split
          · intro h; simp at h
          · rename_i heq2; intro _; rw [heq2]
        have hb := storeGroups_engines_of_completes decodeURIComponent engine link grouped
          st.boxes hok
        split
        · rename_i heq2; rw [heq2] at hb; exact hb
        · rename_i heq2; rw [heq2] at hb; exact hb

/-- The success handler completes when the response carries `resourceLinks`, the
link decodes, and grouping returns: the engine then leaves the pending list of
every box, whether or not the box received items. -/
theorem success_completes_with_links (decodeURIComponent : String → Except JsError String)
    (st : Bento) (engine : Engine) (res : List Item) (link : Option (Obj JVal))
    (grouped : Obj (List Item)) (more url : String)
    (hgrouped : groupBy (stamp res) engine.mediaTypes = .ok grouped)
    (hlink : linkText link engine.id = .ok more) (hdecode : decodeURIComponent more = .ok url) :
    (onSuccess decodeURIComponent st engine res link).2 = none ∧
    List.Forall₂
      (fun (old new : String × Box) =>
        new.1 = old.1 ∧ new.2.engines = old.2.engines.erase engine.name)
      st.boxes (onSuccess decodeURIComponent st engine res link).1.boxes := by
  have hc : (onSuccess decodeURIComponent st engine res link).2 = none := by
    simp only [onSuccess]
    split
    · rfl
    · simp only [hgrouped]
      have hok := storeGroups_completes decodeURIComponent engine link grouped more url hlink
        hdecode st.boxes
      split
      · rename_i heq; simp [heq] at hok
      · rfl
  exact ⟨hc, resolve_erases_of_completes decodeURIComponent st engine (.success res link) hc⟩

theorem foldl_erase_eq_nil (names : List String) :
    ∀ (pending : List String), pending.Nodup → (∀ x ∈ pending, x ∈ names) →
      names.foldl List.erase pending = [] := by
  induction names with
  | nil =>
    intro pending _ h
    cases pending with
    | nil => rfl
    | cons x _ => exact absurd (h x (List.mem_cons_self _ _)) (by simp)
  | cons n rest ih =>
    intro pending hnd h
    simp only [List.foldl_cons]
    apply ih _ (hnd.erase n)
    intro x hx
    have hx' := (hnd.mem_erase_iff).1 hx
    rcases List.mem_cons.1 (h x hx'.2) with h1 | h1
    · exact absurd h1 hx'.1
    · exact h1

theorem forall₂_chain {α : Type} {R S T : α → α → Prop}
    (hT : ∀ x y z, R x y → S y z → T x z) :
    ∀ {a b c : List α}, List.Forall₂ R a b → List.Forall₂ S b c → List.Forall₂ T a c := by
  intro a b c hab
  induction hab generalizing c with
  | nil => intro hbc; cases hbc; exact List.Forall₂.nil
  | cons h _ ih =>
    intro hbc
    cases hbc with
    | cons h2 t2 => exact List.Forall₂.cons (hT _ _ _ h h2) (ih t2)

theorem resolveAll_erases_of_complete (decodeURIComponent : String → Except JsError String)
    (run : List (Engine × Outcome)) :
    ∀ (st : Bento), AllComplete decodeURIComponent st run →
      List.Forall₂
        (fun (old new : String × Box) =>
          new.1 = old.1 ∧
          new.2.engines = (run.map (fun eo => eo.1.name)).foldl List.erase old.2.engines)
        st.boxes (resolveAll decodeURIComponent st run).boxes := by
  induction run with
  | nil =>
    intro st _
    exact List.forall₂_same.mpr (fun x _ => ⟨rfl, rfl⟩)
  | cons eo rest ih =>
    intro st h
    obtain ⟨engine, outcome⟩ := eo
    obtain ⟨h1, h2⟩ := h
    have hstep := resolve_erases_of_completes decodeURIComponent st engine outcome h1
    have hrest := ih _ h2
    simp only [resolveAll, List.map_cons, List.foldl_cons]
    refine forall₂_chain ?_ hstep hrest
    intro x y z hxy hyz
    exact ⟨hyz.1.trans hxy.1, by rw [hyz.2, hxy.2]⟩

/-- Completion of a box: when the pending list of a
box has no duplicate, every handler of the run completes, and every engine of the
pending list resolves in the run, the pending list is empty after the run. -/
theorem pending_empty_after_complete_run
    (decodeURIComponent : String → Except JsError String) (st : Bento)
    (run : List (Engine × Outcome)) (hrun : AllComplete decodeURIComponent st run) :
    List.Forall₂
      (fun (old new : String × Box) =>
        new.1 = old.1 ∧
        (old.2.engines.Nodup → (∀ x ∈ old.2.engines, x ∈ run.map (fun eo => eo.1.name)) →
          new.2.engines = []))
      st.boxes (resolveAll decodeURIComponent st run).boxes := by
  refine List.Forall₂.imp ?_ (resolveAll_erases_of_complete decodeURIComponent run st hrun)
  intro old new h
  refine ⟨h.1, ?_⟩
  intro hnd hall
  rw [h.2]
  exact foldl_erase_eq_nil _ _ hnd hall

/-! ## Running a handler a second time -/

theorem Obj.set_set {β : Type} (o : Obj β) (k : String) (v : β) :
    Obj.set (Obj.set o k v) k v = Obj.set o k v := by
  induction o with
  | nil => simp [Obj.set]
  | cons kv rest ih =>
    obtain ⟨a, b⟩ := kv
    by_cases hk : a = k
    · simp [Obj.set, hk]
    · simp [Obj.set, hk, ih]

theorem assign_assign {β : Type} (o : Obj β) (k : String) (v : β) :
    assign (assign o k v) k v = assign o k v := by
  unfold assign
  split
  · rfl
  · exact Obj.set_set o k v

theorem loadProgress_of_not_mem (box : Box) (engine : String) (h : engine ∉ box.engines) :
    loadProgress box engine = box := by
  unfold loadProgress
  simp [h]

theorem storeGroup_twice (decodeURIComponent : String → Except JsError String)
    (engine : Engine) (link : Option (Obj JVal)) (grouped : Obj (List Item)) (type : String)
    (box : Box) (hnd : box.engines.Nodup) :
    storeGroup decodeURIComponent engine link grouped type
        (storeGroup decodeURIComponent engine link grouped type box).1 =
      storeGroup decodeURIComponent engine link grouped type box := by
  unfold storeGroup
  cases hg : Obj.get grouped type with
  | none =>
    simp only []
    rw [loadProgress_twice_listed_once box engine.name hnd]
  | some group =>
    simp only []
    cases hl : linkText link engine.id with
    | error e => simp only [assign_assign]
    | ok more =>
      simp only []
      cases hd : decodeURIComponent more with
      | error e => simp only [assign_assign]
      | ok url =>
        simp only []
        cases hm : engine.mediaTypes with
        | name n =>
          simp only []
          have hnot : engine.name ∉ (loadProgress
              { box with
                results := assign box.results engine.name (sortByPosition group)
                resourceLinks := assign box.resourceLinks engine.name url }
              engine.name).engines :=
            loadProgress_clears_engine_listed_once _ _ hnd
          generalize hb : loadProgress
              { box with
                results := assign box.results engine.name (sortByPosition group)
                resourceLinks := assign box.resourceLinks engine.name url }
              engine.name = b at hnot ⊢
          have hr : b.results = assign box.results engine.name (sortByPosition group) := by
            rw [← hb, loadProgress_results]
          have hk : b.resourceLinks = assign box.resourceLinks engine.name url := by
            rw [← hb, (loadProgress_links _ _).1]
          rw [hr, hk, assign_assign, assign_assign, ← hr, ← hk]
          rw [loadProgress_of_not_mem _ _ hnot]
        | rule media =>
          simp only []
          have hnot : engine.name ∉ (loadProgress
              { box with
                results := assign box.results engine.name (sortByPosition group)
                resourceLinks := assign box.resourceLinks engine.name url
                resourceLinkParams :=
                  assign box.resourceLinkParams engine.name (Obj.get media.types type) }
              engine.name).engines :=
            loadProgress_clears_engine_listed_once _ _ hnd
          generalize hb : loadProgress
              { box with
                results := assign box.results engine.name (sortByPosition group)
                resourceLinks := assign box.resourceLinks engine.name url
                resourceLinkParams :=
                  assign box.resourceLinkParams engine.name (Obj.get media.types type) }
              engine.name = b at hnot ⊢
          have hr : b.results = assign box.results engine.name (sortByPosition group) := by
            rw [← hb, loadProgress_results]
          have hk : b.resourceLinks = assign box.resourceLinks engine.name url := by
            rw [← hb, (loadProgress_links _ _).1]
          have hp : b.resourceLinkParams =
              assign box.resourceLinkParams engine.name (Obj.get media.types type) := by
            rw [← hb, (loadProgress_links _ _).2.1]
          rw [hr, hk, hp, assign_assign, assign_assign, assign_assign, ← hr, ← hk, ← hp]
          rw [loadProgress_of_not_mem _ _ hnot]

theorem storeGroup_nodup (decodeURIComponent : String → Except JsError String)
    (engine : Engine) (link : Option (Obj JVal)) (grouped : Obj (List Item)) (type : String)
    (box : Box) (hnd : box.engines.Nodup) :
    (storeGroup decodeURIComponent engine link grouped type box).1.engines.Nodup := by
  rcases storeGroup_engines decodeURIComponent engine link grouped type box with h | h
  · rw [h]; exact hnd.erase _
  · rw [h]; exact hnd

theorem storeGroups_twice (decodeURIComponent : String → Except JsError String)
    (engine : Engine) (link : Option (Obj JVal)) (grouped : Obj (List Item)) (boxes : Obj Box)
    (hnd : ∀ tb ∈ boxes, tb.2.engines.Nodup) :
    storeGroups decodeURIComponent engine link grouped
        (storeGroups decodeURIComponent engine link grouped boxes).1 =
      storeGroups decodeURIComponent engine link grouped boxes := by
  induction boxes with
  | nil => rfl
  | cons tb rest ih =>
    obtain ⟨type, box⟩ := tb
    have hbox : box.engines.Nodup := hnd (type, box) (List.mem_cons_self _ _)
    have hrest := ih (fun tb h => hnd tb (List.mem_cons_of_mem _ h))
    have htwice := storeGroup_twice decodeURIComponent engine link grouped type box hbox
    cases hs : storeGroup decodeURIComponent engine link grouped type box with
    | mk box' err =>
      rw [hs] at htwice
      simp only at htwice
      cases err with
      | some e =>
        simp only [storeGroups, hs, htwice]
      | none =>
        simp only [storeGroups, hs, htwice, hrest]

theorem removeFromBoxes_twice (boxes : Obj Box) (engine : String)
    (hnd : ∀ tb ∈ boxes, tb.2.engines.Nodup) :
    removeFromBoxes (removeFromBoxes boxes engine) engine = removeFromBoxes boxes engine := by
  induction boxes with
  | nil => rfl
  | cons tb rest ih =>
    have hbox := hnd tb (List.mem_cons_self _ _)
    have hrest := ih (fun tb h => hnd tb (List.mem_cons_of_mem _ h))
    simp only [removeFromBoxes, List.map_cons, List.map_map] at hrest ⊢
    rw [loadProgress_twice_listed_once _ _ hbox, hrest]

/-- Idempotence of the handlers: on a state whose
pending lists have no duplicate, running the handler of an outcome a second time,
on the state the first run produced, changes nothing. -/
theorem resolve_twice_listed_once (decodeURIComponent : String → Except JsError String)
    (st : Bento) (engine : Engine) (outcome : Outcome)
    (hnd : ∀ tb ∈ st.boxes, tb.2.engines.Nodup) :
    resolve decodeURIComponent (resolve decodeURIComponent st engine outcome) engine outcome =
      resolve decodeURIComponent st engine outcome := by
  cases outcome with
  | failure =>
    simp only [resolve, onFailure, removeFromBoxes_twice st.boxes engine.name hnd]
  | success res link =>
    simp only [resolve, onSuccess]
    cases hres : res.isEmpty with
    | true =>
      simp only [if_true, removeFromBoxes_twice st.boxes engine.name hnd]
    | false =>
      simp only [Bool.false_eq_true, if_false]
      cases hg : groupBy (stamp res) engine.mediaTypes with
      | error e => simp only [hg]
      | ok grouped =>
        simp only []
        have htwice := storeGroups_twice decodeURIComponent engine link grouped st.boxes hnd
        cases hs : storeGroups decodeURIComponent engine link grouped st.boxes with
        | mk boxes err =>
          rw [hs] at htwice
          simp only at htwice
          cases err with
          | some e => simp only [hg, htwice]
          | none => simp only [hg, htwice, assign_assign]

/-! ## Registration of the scenarios -/

/-- A media type named like an inherited member of a plain object cannot be
registered: `mediaTypesProvider.type` throws. -/
theorem registerType_rejects_inherited_name (types : Obj MediaType) (type engine : String)
    (hown : Obj.get types type = none) (hproto : protoMember type ≠ none) :
    registerType types type engine = .error .typeError := by
  have hne : ¬ ("other" = type) := by
    intro h
    subst h
    exact hproto (by decide)
  unfold registerType
  simp only [hown]
  cases hp : protoMember type with
  | none => exact absurd hp hproto
  | some s =>
    cases hother : Obj.get types "other" with
    | none => rfl
    | some other =>
      by_cases hmem : engine ∈ other.engines
      · simp [hmem, hown]
      · simp [hmem, Obj.get_set, hne, hown]

/-- The registries of the scenarios are what the registration calls produce. -/
theorem scenario_registries :
    Registry.initial.engine (.str "catalog") booksConfig = .ok catalogRegistry ∧
    Registry.initial.engine (.str "ejournals") otherConfig = .ok otherRegistry ∧
    ((Registry.initial.engine (.str "catalog") booksConfig).bind
      (fun r => (r.engine (.str "scout") booksConfig).bind
        (fun r => r.engine (.str "acumen") booksConfig))) = .ok threeRegistry := by
  refine ⟨rfl, rfl, rfl⟩

/-! ## Evaluations at concrete inputs -/

/-- The spec's round-trip example: the three items go to `books`, `journals`
and `other`. -/
theorem groupBy_roundTrip_example :
    groupBy exampleItems (.rule exampleRule) =
      .ok [("books", [[("type", .str "book")]]), ("journals", [[("type", .str "periodical")]]),
        ("other", [[("type", .str "zzz")]])] := by
  rfl

/-- C1, at a failing input. With the rule of the spec's example, the raw value
`"constructor"` is declared by no media type, yet `groupBy` does not put the item
in `other`: `groups["constructor"]` is the inherited `Object`, which is not
undefined, and the item lands in a group named after that function. -/
theorem groupBy_inherited_key_misses_other :
    (∀ tq ∈ exampleRule.types, ¬ declares tq.2 (.str "constructor")) ∧
    bucketOf exampleRule [("type", .str "constructor")] ≠ "other" ∧
    groupBy [[("type", .str "constructor")]] (.rule exampleRule) =
      .ok [("function Object() \x7b [native code] \x7d", [[("type", .str "constructor")]])] := by
  refine ⟨by decide, by decide, rfl⟩

/-- C3, at a failing input. Engine `catalog` resolves with raw results A, B, C
and a response without `resourceLinks`: B and C are classified into `books`, A
into `other`. The handler stores A in `other`, throws on `link[engine.id]`, and
never reaches `books`, whose stored list for the engine stays undefined instead of
being B, C. -/
theorem stored_list_missing_after_throw
    (decodeURIComponent : String → Except JsError String) :
    Registry.initial.engine (.str "catalog") booksConfig = .ok catalogRegistry ∧
    groupBy (stamp rawABC) catalog.mediaTypes =
      .ok [("other", [[("title", .str "A"), ("type", .str "map"), ("position", .num 0)]]),
           ("books", [[("title", .str "B"), ("type", .str "book"), ("position", .num 1)],
                      [("title", .str "C"), ("type", .str "book"), ("position", .num 2)]])] ∧
    (onSuccess decodeURIComponent (getBoxes Bento.initial catalogRegistry.types) catalog rawABC
      none).2 = some .typeError ∧
    (resolve decodeURIComponent (getBoxes Bento.initial catalogRegistry.types) catalog
      (.success rawABC none)).stored "books" "catalog" = none := by
  refine ⟨rfl, rfl, rfl, rfl⟩

/-- C5, at a failing input. A successful response of `catalog` with one book and
no `resourceLinks` field: the success handler throws a TypeError, and `catalog`
is still in the pending list of `books`, which was expecting it. -/
theorem success_without_resourceLinks_throws
    (decodeURIComponent : String → Except JsError String) :
    Registry.initial.engine (.str "catalog") booksConfig = .ok catalogRegistry ∧
    (getBoxes Bento.initial catalogRegistry.types).pending "books" = some ["catalog"] ∧
    (onSuccess decodeURIComponent (getBoxes Bento.initial catalogRegistry.types) catalog
      [[("type", .str "book")]] none).2 = some .typeError ∧
    (onSuccess decodeURIComponent (getBoxes Bento.initial catalogRegistry.types) catalog
      [[("type", .str "book")]] none).1.pending "books" = some ["catalog"] := by
  refine ⟨rfl, rfl, rfl, rfl⟩

/-- C6, at two failing inputs. (a) An engine whose rule names the type `other`
is pushed twice onto the pending list of `other`; after its one resolution the
list still holds it. (b) After the one resolution of `catalog` with results and
no `resourceLinks`, the pending list of `books` still holds it. In both cases
every engine of the box has resolved once and the pending list is not empty. -/
theorem pending_not_empty_after_all_resolved
    (decodeURIComponent : String → Except JsError String) :
    Registry.initial.engine (.str "ejournals") otherConfig = .ok otherRegistry ∧
    Registry.initial.engine (.str "catalog") booksConfig = .ok catalogRegistry ∧
    (getBoxes Bento.initial otherRegistry.types).pending "other" =
      some ["ejournals", "ejournals"] ∧
    (resolve decodeURIComponent (getBoxes Bento.initial otherRegistry.types) ejournals
      .failure).pending "other" = some ["ejournals"] ∧
    (getBoxes Bento.initial catalogRegistry.types).pending "books" = some ["catalog"] ∧
    (resolve decodeURIComponent (getBoxes Bento.initial catalogRegistry.types) catalog
      (.success [[("type", .str "book")]] none)).pending "books" = some ["catalog"] := by
  refine ⟨rfl, rfl, rfl, rfl, rfl, rfl⟩

/-- C8, at a failing input. Three engines share the boxes `other` and `books`;
`catalog` resolves with one item classified into `other` and no `resourceLinks`,
`scout` and `acumen` fail. When `catalog` resolves first the final `resultLimit`
of `other` is 2, when it resolves last it is 3. -/
theorem resultLimit_depends_on_order (decodeURIComponent : String → Except JsError String) :
    ((Registry.initial.engine (.str "catalog") booksConfig).bind
      (fun r => (r.engine (.str "scout") booksConfig).bind
        (fun r => r.engine (.str "acumen") booksConfig))) = .ok threeRegistry ∧
    (resolveAll decodeURIComponent (getBoxes Bento.initial threeRegistry.types)
      [(catalog, .success [[("type", .str "map")]] none),
       (booksEngine "scout", .failure), (booksEngine "acumen", .failure)]).limit "other" =
      some 2 ∧
    (resolveAll decodeURIComponent (getBoxes Bento.initial threeRegistry.types)
      [(booksEngine "scout", .failure), (booksEngine "acumen", .failure),
       (catalog, .success [[("type", .str "map")]] none)]).limit "other" = some 3 := by
  refine ⟨rfl, rfl, rfl⟩

/-- C9, at a failing input. The box `other` of `otherRegistry` starts with the
engine listed twice. The failure handler leaves one entry; the same handler run a
second time removes that entry too, so the second run is not a no-op. -/
theorem second_failure_removes_again (decodeURIComponent : String → Except JsError String) :
    Registry.initial.engine (.str "ejournals") otherConfig = .ok otherRegistry ∧
    (resolve decodeURIComponent (getBoxes Bento.initial otherRegistry.types) ejournals
      .failure).pending "other" = some ["ejournals"] ∧
    (resolve decodeURIComponent
      (resolve decodeURIComponent (getBoxes Bento.initial otherRegistry.types) ejournals
        .failure)
      ejournals .failure).pending "other" = some [] := by
  refine ⟨rfl, rfl, rfl⟩

/-- C10, at a failing input. The callbacks `getBoxes` attaches to a request
close over the service and the engine only, so a callback of an earlier search
that runs after `getBoxes` of the next one is `resolve` on the new boxes: its
failure callback empties the pending list of `books`, and its success callback
stores the old response's items there. -/
theorem stale_handler_changes_boxes (decodeURIComponent : String → Except JsError String) :
    Registry.initial.engine (.str "catalog") booksConfig = .ok catalogRegistry ∧
    (getBoxes Bento.initial catalogRegistry.types).pending "books" = some ["catalog"] ∧
    (getBoxes Bento.initial catalogRegistry.types).stored "books" "catalog" = none ∧
    (resolve decodeURIComponent (getBoxes Bento.initial catalogRegistry.types) catalog
      .failure).pending "books" = some [] ∧
    (resolve Except.ok (getBoxes Bento.initial catalogRegistry.types) catalog
      (.success [[("type", .str "book")]] someLinks)).stored "books" "catalog" =
        some [[("type", .str "book"), ("position", .num 0)]] ∧
    (resolve Except.ok (getBoxes Bento.initial catalogRegistry.types) catalog
      (.success [[("type", .str "book")]] someLinks)).limit "books" = some 3 := by
  refine ⟨rfl, rfl, rfl, rfl, rfl, rfl⟩

/-! ## Registration: what `type` and `engine` do to the tables -/

theorem Obj.mem_keys_of_get {β : Type} (o : Obj β) (k : String) (v : β)
    (h : Obj.get o k = some v) : k ∈ Obj.keys o := by
  by_contra hc
  rw [(Obj.get_eq_none_iff o k).2 hc] at h
  cases h

theorem Obj.keys_set_existing {β : Type} (o : Obj β) (k : String) (v w : β)
    (h : Obj.get o k = some v) : Obj.keys (Obj.set o k w) = Obj.keys o := by
  rw [Obj.keys_set, if_pos (Obj.mem_keys_of_get o k v h)]

/-- The statement `_types[k].engines.push(engine)` on an existing media type. -/
theorem pushEngine_spec (types : Obj MediaType) (k engine : String) (m : MediaType)
    (h : Obj.get types k = some m) :
    (∀ t n, Obj.get types t = some n →
      ∃ n', Obj.get (Obj.set types k { m with engines := m.engines ++ [engine] }) t = some n' ∧
        ∀ x ∈ n.engines, x ∈ n'.engines) ∧
    (∃ n, Obj.get (Obj.set types k { m with engines := m.engines ++ [engine] }) k = some n ∧
      engine ∈ n.engines) ∧
    Obj.keys (Obj.set types k { m with engines := m.engines ++ [engine] }) = Obj.keys types := by
  refine ⟨?_, ?_, Obj.keys_set_existing _ _ _ _ h⟩
  · intro t n hn
    rw [Obj.get_set]
    split
    · rename_i heq
      rw [← heq, h] at hn
      cases hn
      exact ⟨_, rfl, fun x hx => List.mem_append_left _ hx⟩
    · exact ⟨n, hn, fun x hx => hx⟩
  · rw [Obj.get_set, if_pos rfl]
    exact ⟨_, rfl, by simp⟩

theorem registerType_spec (types types' : Obj MediaType) (type engine : String)
    (h : registerType types type engine = .ok types') :
    (∀ t m, Obj.get types t = some m →
      ∃ m', Obj.get types' t = some m' ∧ ∀ x ∈ m.engines, x ∈ m'.engines) ∧
    (∃ m, Obj.get types' type = some m ∧ engine ∈ m.engines) ∧
    (∃ o, Obj.get types' "other" = some o ∧ engine ∈ o.engines) ∧
    (∀ t, t ∈ Obj.keys types' ↔ t ∈ Obj.keys types ∨ t = type ∨ t = "other") := by
  unfold registerType at h
  generalize hT1 : (match Obj.get types type with
    | some _ => types
    | none =>
      match protoMember type with
      | some _ => types
      | none => Obj.set types type { engines := [], loaded := false }) = types1 at h
  have h1mono : ∀ t m, Obj.get types t = some m → Obj.get types1 t = some m := by
    intro t m hm
    rw [← hT1]
    split
    · exact hm
    · rename_i hnone
      split
      · exact hm
      · rw [Obj.get_set]
        split
        · rename_i heq; rw [heq, hm] at hnone; cases hnone
        · exact hm
  have h1keys : ∀ t, t ∈ Obj.keys types1 ↔ t ∈ Obj.keys types ∨ (t = type ∧ t ∈ Obj.keys types1) := by
    intro t
    constructor
    · intro ht
      by_cases htt : t = type
      · right; exact ⟨htt, ht⟩
      · left
        rw [← hT1] at ht
        split at ht
        · exact ht
        · split at ht
          · exact ht
          · rw [Obj.keys_set] at ht
            split at ht
            · exact ht
            · rcases List.mem_append.1 ht with h' | h'
              · exact h'
              · exact absurd (by simpa using h') htt
    · rintro (ht | ⟨_, ht⟩)
      · cases hg : Obj.get types t with
        | none => exact absurd ht ((Obj.get_eq_none_iff _ _).1 hg)
        | some m => exact Obj.mem_keys_of_get _ _ _ (h1mono t m hg)
      · exact ht
  cases ho : Obj.get types1 "other" with
  | none => simp [ho] at h
  | some other =>
    simp only [ho] at h
    generalize hT2 : (if engine ∈ other.engines then types1
      else Obj.set types1 "other" { other with engines := other.engines ++ [engine] }) = types2
      at h
    have h2 : (∀ t n, Obj.get types1 t = some n →
          ∃ n', Obj.get types2 t = some n' ∧ ∀ x ∈ n.engines, x ∈ n'.engines) ∧
        (∃ n, Obj.get types2 "other" = some n ∧ engine ∈ n.engines) ∧
        Obj.keys types2 = Obj.keys types1 := by
      rw [← hT2]
      split
      · rename_i hmem
        exact ⟨fun t n hn => ⟨n, hn, fun x hx => hx⟩, ⟨other, ho, hmem⟩, rfl⟩
      · exact pushEngine_spec types1 "other" engine other ho
    obtain ⟨h2mono, h2other, h2keys⟩ := h2
    cases hg : Obj.get types2 type with
    | none => simp [hg] at h
    | some t0 =>
      simp only [hg] at h
      cases h
      obtain ⟨h3mono, h3type, h3keys⟩ := pushEngine_spec types2 type engine t0 hg
      refine ⟨?_, h3type, ?_, ?_⟩
      · intro t m hm
        obtain ⟨n, hn, hsub⟩ := h2mono t m (h1mono t m hm)
        obtain ⟨n', hn', hsub'⟩ := h3mono t n hn
        exact ⟨n', hn', fun x hx => hsub' x (hsub x hx)⟩
      · obtain ⟨n, hn, hmem⟩ := h2other
        obtain ⟨n', hn', hsub'⟩ := h3mono "other" n hn
        exact ⟨n', hn', hsub' engine hmem⟩
      · intro t
        rw [h3keys, h2keys]
        constructor
        · intro ht
          rcases (h1keys t).1 ht with h' | ⟨h', _⟩
          · left; exact h'
          · right; left; exact h'
        · rintro (ht | ht | ht)
          · exact (h1keys t).2 (Or.inl ht)
          · rw [ht, ← h2keys]; exact Obj.mem_keys_of_get _ _ _ hg
          · rw [ht]; exact Obj.mem_keys_of_get _ _ _ ho

theorem registerTypes_spec (name : String) (ts : List String) :
    ∀ (types types' : Obj MediaType), registerTypes name ts types = .ok types' →
      (∀ t m, Obj.get types t = some m →
        ∃ m', Obj.get types' t = some m' ∧ ∀ x ∈ m.engines, x ∈ m'.engines) ∧
      (∀ t ∈ ts, ∃ m, Obj.get types' t = some m ∧ name ∈ m.engines) ∧
      (ts ≠ [] → ∃ o, Obj.get types' "other" = some o ∧ name ∈ o.engines) ∧
      (∀ t, t ∈ Obj.keys types' ↔
        t ∈ Obj.keys types ∨ t ∈ ts ∨ (ts ≠ [] ∧ t = "other")) := by
  induction ts with
  | nil =>
    intro types types' h
    simp only [registerTypes] at h
    cases h
    exact ⟨fun t m hm => ⟨m, hm, fun x hx => hx⟩, by simp, by simp, by simp⟩
  | cons type rest ih =>
    intro types types' h
    simp only [registerTypes] at h
    cases h1 : registerType types type name with
    | error e => simp [h1] at h
    | ok types1 =>
      simp only [h1] at h
      obtain ⟨amono, atype, aother, akeys⟩ := registerType_spec types types1 type name h1
      obtain ⟨bmono, btypes, _, bkeys⟩ := ih types1 types' h
      refine ⟨?_, ?_, ?_, ?_⟩
      · intro t m hm
        obtain ⟨n, hn, hsub⟩ := amono t m hm
        obtain ⟨n', hn', hsub'⟩ := bmono t n hn
        exact ⟨n', hn', fun x hx => hsub' x (hsub x hx)⟩
      · intro t ht
        rcases List.mem_cons.1 ht with h' | h'
        · obtain ⟨n, hn, hmem⟩ := atype
          obtain ⟨n', hn', hsub'⟩ := bmono type n hn
          exact ⟨n', h' ▸ hn', hsub' name hmem⟩
        · exact btypes t h'
      · intro _
        obtain ⟨n, hn, hmem⟩ := aother
        obtain ⟨n', hn', hsub'⟩ := bmono "other" n hn
        exact ⟨n', hn', hsub' name hmem⟩
      · intro t
        rw [bkeys, akeys]
        constructor
        · rintro ((h' | h' | h') | h' | ⟨_, h'⟩)
          · left; exact h'
          · right; left; rw [h']; exact List.mem_cons_self _ _
          · right; right; exact ⟨by simp, h'⟩
          · right; left; exact List.mem_cons_of_mem _ h'
          · right; right; exact ⟨by simp, h'⟩
        · rintro (h' | h' | ⟨_, h'⟩)
          · left; left; exact h'
          · rcases List.mem_cons.1 h' with h2 | h2
            · left; right; left; exact h2
            · right; left; exact h2
          · left; right; right; exact h'

/-- What a registration that returns has done: the media types of the rule (or
the engine's own name) are registered, and the engine record is stored under the
name. -/
theorem Registry.engine_ok (reg reg' : Registry) (name : String) (cfg : EngineConfig)
    (hid : cfg.id.truthy = true) (h : reg.engine (.str name) cfg = .ok reg') :
    (match cfg.mediaTypes with
      | some media => registerTypes name (Obj.keys media.types) reg.types = .ok reg'.types
      | none => registerType reg.types name name = .ok reg'.types) ∧
    ∃ e : Engine, reg'.engines = assign reg.engines name e ∧ e.name = name ∧
      e.id = cfg.id ∧ e.priority = cfg.priority ∧ e.filterQuery = cfg.filterQuery ∧
      e.mediaTypes =
        (match cfg.mediaTypes with
          | some media => MediaTypes.rule media
          | none => MediaTypes.name name) := by
  unfold Registry.engine at h
  simp only [hid, if_true] at h
  cases hm : cfg.mediaTypes with
  | some media =>
    simp only [hm] at h ⊢
    cases hr : registerTypes name (Obj.keys media.types) reg.types with
    | error e => simp [hr, Except.map] at h
    | ok types =>
      simp only [hr, Except.map] at h
      cases h
      exact ⟨rfl, _, rfl, rfl, rfl, rfl, rfl, rfl⟩
  | none =>
    simp only [hm] at h ⊢
    cases hr : registerType reg.types name name with
    | error e => simp [hr, Except.map] at h
    | ok types =>
      simp only [hr, Except.map] at h
      cases h
      exact ⟨rfl, _, rfl, rfl, rfl, rfl, rfl, rfl⟩

/-- A registration that is not accepted leaves the registry as it is: the name is
no string, or the id is falsy. -/
theorem Registry.engine_skipped (reg : Registry) (name : JVal) (cfg : EngineConfig)
    (h : (∀ s, name ≠ .str s) ∨ cfg.id.truthy = false) : reg.engine name cfg = .ok reg := by
  unfold Registry.engine
  cases name with
  | str s =>
    rcases h with h | h
    · exact absurd rfl (h s)
    · simp [h]
  | _ => rfl

/-- Registration with a rule that names at least one media type: the engine's
name is in the engine list of `other` and of every media type of the rule. -/
theorem engine_with_rule_listed (reg reg' : Registry) (name : String) (cfg : EngineConfig)
    (media : MediaRule) (hid : cfg.id.truthy = true) (hrule : cfg.mediaTypes = some media)
    (htypes : media.types ≠ []) (h : reg.engine (.str name) cfg = .ok reg') :
    (∃ o, Obj.get reg'.types "other" = some o ∧ name ∈ o.engines) ∧
    ∀ t ∈ Obj.keys media.types, ∃ m, Obj.get reg'.types t = some m ∧ name ∈ m.engines := by
  have hreg := (Registry.engine_ok reg reg' name cfg hid h).1
  rw [hrule] at hreg
  simp only at hreg
  obtain ⟨_, htypes', hother, _⟩ := registerTypes_spec name _ _ _ hreg
  refine ⟨hother ?_, htypes'⟩
  cases hk : media.types with
  | nil => exact absurd hk htypes
  | cons a b => simp [Obj.keys]

theorem registerType_fresh (types : Obj MediaType) (type engine : String) (o : MediaType)
    (hfresh : Obj.get types type = none) (hproto : protoMember type = none)
    (hother : Obj.get types "other" = some o) :
    ∃ types', registerType types type engine = .ok types' ∧
      Obj.get types' type = some { engines := [engine], loaded := false } := by
  have hne : ¬ type = "other" := by
    intro heq
    rw [heq, hother] at hfresh
    cases hfresh
  have hne' : ¬ "other" = type := fun heq => hne heq.symm
  unfold registerType
  simp only [hfresh, hproto, Obj.get_set, hne, if_false, hother]
  by_cases hmem : engine ∈ o.engines
  · simp [hmem, Obj.get_set]
  · simp [hmem, Obj.get_set, hne']

/-- C13, amended. An engine registered without a mediaTypes rule under a name
that is no media type yet (and no inherited member name): the registration
returns, the name becomes a media type whose engine list is exactly the engine
itself, and the engine's classification rule is its own name. -/
theorem engine_without_rule_fresh_name (reg : Registry) (name : String) (cfg : EngineConfig)
    (hid : cfg.id.truthy = true) (hrule : cfg.mediaTypes = none)
    (hother : (Obj.get reg.types "other").isSome = true)
    (hfresh : Obj.get reg.types name = none) (hproto : protoMember name = none) :
    ∃ reg', reg.engine (.str name) cfg = .ok reg' ∧
      Obj.get reg'.types name = some { engines := [name], loaded := false } ∧
      ∃ e, Obj.get reg'.engines name = some e ∧ e.name = name ∧
        e.mediaTypes = MediaTypes.name name := by
  obtain ⟨o, ho⟩ := Option.isSome_iff_exists.1 hother
  obtain ⟨types', hreg, hget⟩ := registerType_fresh reg.types name name o hfresh hproto ho
  have hname : ¬ name = "__proto__" := by
    intro heq
    rw [heq] at hproto
    exact absurd hproto (by decide)
  unfold Registry.engine
  simp only [hid, if_true, hrule, hreg, Except.map]
  refine ⟨_, rfl, hget, ?_⟩
  simp only [assign, hname, if_false, Obj.get_set, if_true]
  exact ⟨_, rfl, rfl, rfl⟩

theorem engine_without_rule_fresh_name_witness :
    (plainConfig.id.truthy = true ∧ plainConfig.mediaTypes = none ∧
      (Obj.get catalogRegistry.types "other").isSome = true ∧
      Obj.get catalogRegistry.types "databases" = none ∧ protoMember "databases" = none) ∧
    ∃ reg', catalogRegistry.engine (.str "databases") plainConfig = .ok reg' ∧
      Obj.get reg'.types "databases" = some { engines := ["databases"], loaded := false } ∧
      ∃ e, Obj.get reg'.engines "databases" = some e ∧ e.name = "databases" ∧
        e.mediaTypes = MediaTypes.name "databases" :=
  ⟨⟨rfl, rfl, rfl, rfl, by decide⟩,
    engine_without_rule_fresh_name catalogRegistry "databases" plainConfig rfl rfl rfl rfl
      (by decide)⟩

/-- C13 as stated fails: `books` is already a media type of `catalog`; the
engine `books`, registered without a rule, joins that media type and is not its
sole member. An engine named `other` is listed twice in `other`. -/
theorem engine_without_rule_joins_existing_type :
    enginesOf (catalogRegistry.engine (.str "books") plainConfig) "books" =
      some ["catalog", "books"] ∧
    enginesOf (Registry.initial.engine (.str "other") plainConfig) "other" =
      some ["other", "other"] := by
  exact ⟨rfl, rfl⟩

/-- C14, amended. A registration whose name is not a string is discarded: the
call returns and the engine registry and the media-type table are unchanged. -/
theorem engine_with_non_string_name_discarded (reg : Registry) (name : JVal)
    (cfg : EngineConfig) (hname : ∀ s, name ≠ .str s) : reg.engine name cfg = .ok reg :=
  Registry.engine_skipped reg name cfg (Or.inl hname)

theorem engine_with_non_string_name_discarded_witness :
    (∀ s, JVal.num 7 ≠ .str s) ∧ catalogRegistry.engine (.num 7) booksConfig = .ok catalogRegistry :=
  ⟨(fun _ h => by cases h),
    engine_with_non_string_name_discarded catalogRegistry (.num 7) booksConfig
      (fun _ h => by cases h)⟩

/-- C14 as stated fails: the empty string and a name that is already registered
are both accepted. After `catalog` has registered, registering the name `""` adds
the media type `""` and the engine `""`; registering `catalog` again pushes the
name onto `books` a second time. -/
theorem engine_accepts_empty_and_registered_names :
    enginesOf (.ok catalogRegistry) "" = none ∧
    enginesOf (catalogRegistry.engine (.str "") plainConfig) "" = some [""] ∧
    namesOf (catalogRegistry.engine (.str "") plainConfig) = some ["catalog", ""] ∧
    enginesOf (.ok catalogRegistry) "books" = some ["catalog"] ∧
    enginesOf (catalogRegistry.engine (.str "catalog") booksConfig) "books" =
      some ["catalog", "catalog"] := by
  exact ⟨rfl, rfl, rfl, rfl, rfl⟩

/-- C12, at a failing input. An engine config with a backend id and a rule whose
types map is empty: the registration returns and stores the engine, `type` is
never called, and the engine's name is not in the engine list of `other`. -/
theorem engine_with_empty_rule_not_in_other :
    emptyRuleConfig.id.truthy = true ∧
    namesOf (Registry.initial.engine (.str "suggest") emptyRuleConfig) = some ["suggest"] ∧
    enginesOf (Registry.initial.engine (.str "suggest") emptyRuleConfig) "other" = some [] := by
  exact ⟨rfl, rfl, rfl⟩

/-- C11, at a failing input. The box `books` starts with the pending list
`catalog`, `scout`; `catalog` fails and `scout` succeeds with one book and a
response without `resourceLinks`. In either order the box ends with `scout` still
pending: the success handler stores the book and throws before `loadProgress`. -/
theorem failure_isolation_broken_by_throw
    (decodeURIComponent : String → Except JsError String) :
    registerAll [(.str "catalog", booksConfig), (.str "scout", booksConfig)] Registry.initial =
      .ok twoRegistry ∧
    (getBoxes Bento.initial twoRegistry.types).pending "books" = some ["catalog", "scout"] ∧
    (resolveAll decodeURIComponent (getBoxes Bento.initial twoRegistry.types)
      [(catalog, .failure),
       (booksEngine "scout", .success [[("type", .str "book")]] none)]).pending "books" =
      some ["scout"] ∧
    (resolveAll decodeURIComponent (getBoxes Bento.initial twoRegistry.types)
      [(booksEngine "scout", .success [[("type", .str "book")]] none),
       (catalog, .failure)]).pending "books" = some ["scout"] := by
  exact ⟨rfl, rfl, rfl, rfl⟩

/-- C18 as stated fails: in a box with three registered engines and limit 1,
the empty resolution of the first engine already raises the limit to 2 (expected
is 0 contributed + 2 pending = 2), so the limit is not still 1. -/
theorem resultLimit_after_first_empty_is_two :
    (getBoxes Bento.initial threeRegistry.types).limit "books" = some 1 ∧
    (resolve Except.ok (getBoxes Bento.initial threeRegistry.types) catalog
      (.success [] someLinks)).limit "books" = some 2 ∧
    (resolve Except.ok (getBoxes Bento.initial threeRegistry.types) catalog
      (.success [] someLinks)).limit "books" ≠ some 1 := by
  exact ⟨rfl, rfl, by decide⟩

/-- C18, amended. A box with three registered engines starts at limit 1; when
the first engine resolves empty (expected 0 + 2 = 2) the limit goes from 1 to 2;
when the second resolves with results (expected 1 + 1 = 2) it stays 2; when the
third resolves empty (expected 1 + 0 = 1) it goes from 2 to 3. -/
theorem resultLimit_scenario :
    (getBoxes Bento.initial threeRegistry.types).pending "books" =
      some ["catalog", "scout", "acumen"] ∧
    (getBoxes Bento.initial threeRegistry.types).limit "books" = some 1 ∧
    (resolveAll Except.ok (getBoxes Bento.initial threeRegistry.types)
      [(catalog, .success [] someLinks)]).limit "books" = some 2 ∧
    (resolveAll Except.ok (getBoxes Bento.initial threeRegistry.types)
      [(catalog, .success [] someLinks),
       (booksEngine "scout", .success [[("type", .str "book")]] someLinks)]).limit "books" =
      some 2 ∧
    (resolveAll Except.ok (getBoxes Bento.initial threeRegistry.types)
      [(catalog, .success [] someLinks),
       (booksEngine "scout", .success [[("type", .str "book")]] someLinks),
       (booksEngine "acumen", .success [] someLinks)]).limit "books" = some 3 ∧
    recomputeLimit 1 (0 + 2) = 2 ∧ recomputeLimit 2 (1 + 1) = 2 ∧ recomputeLimit 2 (1 + 0) = 3 := by
  exact ⟨rfl, rfl, rfl, rfl, rfl, rfl, rfl, rfl⟩

/-! ## The result limit -/

theorem initResultLimit_eq (numEngines : Nat) :
    initResultLimit numEngines = if numEngines > 1 then 1 else 3 := by
  unfold initResultLimit
  split
  · rfl
  · rename_i h
    have : numEngines < 2 := by omega
    simp [this]

/-- Every box `getBoxes` creates holds the engine list of its media type, and
its initial `resultLimit` is 1 when that list has more than one entry and 3
otherwise. -/
theorem getBoxes_initial_limit (st : Bento) (types : Obj MediaType) :
    List.Forall₂
      (fun (tm : String × MediaType) (tb : String × Box) =>
        tb.1 = tm.1 ∧ tb.2.engines = tm.2.engines ∧
        tb.2.resultLimit = if tb.2.engines.length > 1 then 1 else 3)
      types (getBoxes st types).boxes := by
  simp only [getBoxes]
  induction types with
  | nil => exact List.Forall₂.nil
  | cons tm rest ih =>
    exact List.Forall₂.cons ⟨rfl, rfl, initResultLimit_eq _⟩ ih

/-- The limit after `loadProgress`, by the rule of the spec. -/
theorem loadProgress_limit (box : Box) (engine : String) :
    (loadProgress box engine).engines = box.engines ∧
        (loadProgress box engine).resultLimit = box.resultLimit ∨
      engine ∈ box.engines ∧
        (loadProgress box engine).engines = box.engines.erase engine ∧
        (loadProgress box engine).resultLimit =
          recomputeLimit box.resultLimit
            ((loadProgress box engine).results.length +
              (loadProgress box engine).engines.length) := by
  by_cases hmem : engine ∈ box.engines
  · right
    refine ⟨hmem, loadProgress_engines box engine, ?_⟩
    rw [loadProgress_engines, loadProgress_results]
    unfold loadProgress
    simp only [hmem, if_true, setResultLimit, recomputeLimit]
    split <;> rfl
  · left
    rw [loadProgress_of_not_mem box engine hmem]
    exact ⟨rfl, rfl⟩

theorem storeGroup_limit (decodeURIComponent : String → Except JsError String)
    (engine : Engine) (link : Option (Obj JVal)) (grouped : Obj (List Item)) (type : String)
    (box : Box) :
    (storeGroup decodeURIComponent engine link grouped type box).1.engines = box.engines ∧
        (storeGroup decodeURIComponent engine link grouped type box).1.resultLimit =
          box.resultLimit ∨
      engine.name ∈ box.engines ∧
        (storeGroup decodeURIComponent engine link grouped type box).1.engines =
          box.engines.erase engine.name ∧
        (storeGroup decodeURIComponent engine link grouped type box).1.resultLimit =
          recomputeLimit box.resultLimit
            ((storeGroup decodeURIComponent engine link grouped type box).1.results.length +
              (storeGroup decodeURIComponent engine link grouped type box).1.engines.length) := by
  unfold storeGroup
  cases hg : Obj.get grouped type with
  | none => exact loadProgress_limit box engine.name
  | some group =>
    simp only []
    cases hl : linkText link engine.id with
    | error e => left; exact ⟨rfl, rfl⟩
    | ok more =>
      simp only []
      cases hd : decodeURIComponent more with
      | error e => left; exact ⟨rfl, rfl⟩
      | ok url =>
        simp only []
        cases hm : engine.mediaTypes with
        | name n => exact loadProgress_limit _ engine.name
        | rule media => exact loadProgress_limit _ engine.name

theorem storeGroups_limit (decodeURIComponent : String → Except JsError String)
    (engine : Engine) (link : Option (Obj JVal)) (grouped : Obj (List Item)) (boxes : Obj Box) :
    List.Forall₂
      (fun (old new : String × Box) =>
        new.1 = old.1 ∧
        (new.2.engines = old.2.engines ∧ new.2.resultLimit = old.2.resultLimit ∨
          engine.name ∈ old.2.engines ∧ new.2.engines = old.2.engines.erase engine.name ∧
            new.2.resultLimit =
              recomputeLimit old.2.resultLimit (new.2.results.length + new.2.engines.length)))
      boxes (storeGroups decodeURIComponent engine link grouped boxes).1 := by
  induction boxes with
  | nil => simp [storeGroups]
  | cons tb rest ih =>
    obtain ⟨type, box⟩ := tb
    have h := storeGroup_limit decodeURIComponent engine link grouped type box
    simp only [storeGroups]
    split
    · rename_i box' e heq
      rw [heq] at h
      refine List.Forall₂.cons ⟨rfl, h⟩ ?_
      exact List.forall₂_same.mpr (fun x _ => ⟨rfl, Or.inl ⟨rfl, rfl⟩⟩)
    · rename_i box' heq
      rw [heq] at h
      exact List.Forall₂.cons ⟨rfl, h⟩ ih

theorem removeFromBoxes_limit (boxes : Obj Box) (engine : String) :
    List.Forall₂
      (fun (old new : String × Box) =>
        new.1 = old.1 ∧
        (new.2.engines = old.2.engines ∧ new.2.resultLimit = old.2.resultLimit ∨
          engine ∈ old.2.engines ∧ new.2.engines = old.2.engines.erase engine ∧
            new.2.resultLimit =
              recomputeLimit old.2.resultLimit (new.2.results.length + new.2.engines.length)))
      boxes (removeFromBoxes boxes engine) := by
  induction boxes with
  | nil => simp [removeFromBoxes]
  | cons tb rest ih =>
    exact List.Forall₂.cons ⟨rfl, loadProgress_limit tb.2 engine⟩ ih

/-- C17. For every state, engine and outcome, each box after the resolution is
in one of two cases. Either the engine was not removed from its pending list and
the `resultLimit` is unchanged; or the engine was removed (its first occurrence)
and the `resultLimit` is recomputed from the box after the removal: with
`expected` the number of engines with stored results plus the number of engines
still pending, it is incremented by exactly 1 if `expected < 2` and the limit is
below 3, or `expected < 3` and the limit is below 2, and unchanged otherwise. -/
theorem resultLimit_recomputed_on_removal (decodeURIComponent : String → Except JsError String)
    (st : Bento) (engine : Engine) (outcome : Outcome) :
    List.Forall₂
      (fun (old new : String × Box) =>
        new.1 = old.1 ∧
        (new.2.engines = old.2.engines ∧ new.2.resultLimit = old.2.resultLimit ∨
          engine.name ∈ old.2.engines ∧ new.2.engines = old.2.engines.erase engine.name ∧
            new.2.resultLimit =
              recomputeLimit old.2.resultLimit (new.2.results.length + new.2.engines.length)))
      st.boxes (resolve decodeURIComponent st engine outcome).boxes := by
  cases outcome with
  | failure => exact removeFromBoxes_limit st.boxes engine.name
  | success res link =>
    simp only [resolve, onSuccess]
    split
    · exact removeFromBoxes_limit st.boxes engine.name
    · split
      · exact List.forall₂_same.mpr (fun x _ => ⟨rfl, Or.inl ⟨rfl, rfl⟩⟩)
      · rename_i grouped _
        have h := storeGroups_limit decodeURIComponent engine link grouped st.boxes
        split
        · rename_i boxes e heq
          rw [heq] at h
          exact h
        · rename_i boxes heq
          rw [heq] at h
          exact h

/-- The rule of the spec, case by case: an increment of exactly 1 under the
condition, no change otherwise. -/
theorem recomputeLimit_cases (limit expected : Nat) :
    ((expected < 2 ∧ limit < 3) ∨ (expected < 3 ∧ limit < 2) →
      recomputeLimit limit expected = limit + 1) ∧
    (¬ ((expected < 2 ∧ limit < 3) ∨ (expected < 3 ∧ limit < 2)) →
      recomputeLimit limit expected = limit) := by
  unfold recomputeLimit
  constructor
  · intro h; rw [if_pos h]
  · intro h; rw [if_neg h]

/-! ## The registry a sequence of registrations builds, and the boxes made of it -/

theorem registerType_nodup (types types' : Obj MediaType) (type engine : String)
    (hnd : (Obj.keys types).Nodup) (h : registerType types type engine = .ok types') :
    (Obj.keys types').Nodup := by
  unfold registerType at h
  generalize hT1 : (match Obj.get types type with
    | some _ => types
    | none =>
      match protoMember type with
      | some _ => types
      | none => Obj.set types type { engines := [], loaded := false }) = types1 at h
  have h1 : (Obj.keys types1).Nodup := by
    rw [← hT1]
    split
    · exact hnd
    · split
      · exact hnd
      · exact Obj.nodup_keys_set _ _ _ hnd
  cases ho : Obj.get types1 "other" with
  | none => simp [ho] at h
  | some other =>
    simp only [ho] at h
    generalize hT2 : (if engine ∈ other.engines then types1
      else Obj.set types1 "other" { other with engines := other.engines ++ [engine] }) = types2
      at h
    have h2 : (Obj.keys types2).Nodup := by
      rw [← hT2]
      split
      · exact h1
      · exact Obj.nodup_keys_set _ _ _ h1
    cases hg : Obj.get types2 type with
    | none => simp [hg] at h
    | some t0 =>
      simp only [hg] at h
      cases h
      exact Obj.nodup_keys_set _ _ _ h2

theorem registerTypes_nodup (name : String) (ts : List String) :
    ∀ (types types' : Obj MediaType), (Obj.keys types).Nodup →
      registerTypes name ts types = .ok types' → (Obj.keys types').Nodup := by
  induction ts with
  | nil =>
    intro types types' hnd h
    simp only [registerTypes] at h
    cases h
    exact hnd
  | cons type rest ih =>
    intro types types' hnd h
    simp only [registerTypes] at h
    cases h1 : registerType types type name with
    | error e => simp [h1] at h
    | ok types1 =>
      simp only [h1] at h
      exact ih types1 types' (registerType_nodup types types1 type name hnd h1) h

/-- One registration call: the media types afterwards are the ones before and
the ones the call names; distinct keys stay distinct; `other` stays. -/
theorem Registry.engine_types (reg reg' : Registry) (name : JVal) (cfg : EngineConfig)
    (hother : "other" ∈ Obj.keys reg.types) (hnd : (Obj.keys reg.types).Nodup)
    (h : reg.engine name cfg = .ok reg') :
    (∀ t, t ∈ Obj.keys reg'.types ↔
      t ∈ Obj.keys reg.types ∨ t ∈ declaredTypes [(name, cfg)]) ∧
    (Obj.keys reg'.types).Nodup := by
  cases name with
  | str s =>
    cases hid : cfg.id.truthy with
    | false =>
      rw [Registry.engine_skipped reg (.str s) cfg (Or.inr hid)] at h
      cases h
      simp [declaredTypes, hid, hnd]
    | true =>
      have hok := (Registry.engine_ok reg reg' s cfg hid h).1
      cases hm : cfg.mediaTypes with
      | some media =>
        rw [hm] at hok
        simp only at hok
        obtain ⟨_, _, _, hkeys⟩ := registerTypes_spec s _ _ _ hok
        refine ⟨?_, registerTypes_nodup s _ _ _ hnd hok⟩
        intro t
        rw [hkeys]
        simp only [declaredTypes, hid, if_true, hm, List.append_nil]
        constructor
        · rintro (h' | h' | ⟨_, h'⟩)
          · left; exact h'
          · right; exact h'
          · left; rw [h']; exact hother
        · rintro (h' | h')
          · left; exact h'
          · right; left; exact h'
      | none =>
        rw [hm] at hok
        simp only at hok
        obtain ⟨_, _, _, hkeys⟩ := registerType_spec _ _ _ _ hok
        refine ⟨?_, registerType_nodup _ _ _ _ hnd hok⟩
        intro t
        rw [hkeys]
        simp only [declaredTypes, hid, if_true, hm, List.append_nil, List.mem_singleton]
        constructor
        · rintro (h' | h' | h')
          · left; exact h'
          · right; exact h'
          · left; rw [h']; exact hother
        · rintro (h' | h')
          · left; exact h'
          · right; left; exact h'
  | undefined | null | bool _ | num _ | arr _ | obj _ =>
    rw [Registry.engine_skipped reg _ cfg (Or.inl (fun _ hc => by cases hc))] at h
    cases h
    simp [declaredTypes, hnd]

theorem declaredTypes_cons (name : JVal) (cfg : EngineConfig)
    (rest : List (JVal × EngineConfig)) :
    declaredTypes ((name, cfg) :: rest) = declaredTypes [(name, cfg)] ++ declaredTypes rest := by
  cases name <;> simp [declaredTypes]

theorem registerAll_types (regs : List (JVal × EngineConfig)) :
    ∀ (reg reg' : Registry), "other" ∈ Obj.keys reg.types → (Obj.keys reg.types).Nodup →
      registerAll regs reg = .ok reg' →
      (∀ t, t ∈ Obj.keys reg'.types ↔ t ∈ Obj.keys reg.types ∨ t ∈ declaredTypes regs) ∧
      (Obj.keys reg'.types).Nodup := by
  induction regs with
  | nil =>
    intro reg reg' _ hnd h
    simp only [registerAll] at h
    cases h
    simp [declaredTypes, hnd]
  | cons nc rest ih =>
    intro reg reg' hother hnd h
    obtain ⟨name, cfg⟩ := nc
    simp only [registerAll] at h
    cases h1 : reg.engine name cfg with
    | error e => simp [h1] at h
    | ok reg1 =>
      simp only [h1] at h
      obtain ⟨hkeys1, hnd1⟩ := Registry.engine_types reg reg1 name cfg hother hnd h1
      obtain ⟨hkeys, hnd'⟩ := ih reg1 reg' ((hkeys1 "other").2 (Or.inl hother)) hnd1 h
      refine ⟨?_, hnd'⟩
      intro t
      rw [hkeys, hkeys1, declaredTypes_cons name cfg rest, List.mem_append, or_assoc]

/-- C15. After the engines have registered, `getBoxes` on any previous Bento
state gives one box per media type: the boxes are exactly `other` and the media
types the registrations name, each once; every box has the engine list of its
media type as pending list, no stored results and no resource links; and the
boxes do not depend on the previous state. -/
theorem getBoxes_fresh (st : Bento) (regs : List (JVal × EngineConfig)) (reg : Registry)
    (hreg : registerAll regs Registry.initial = .ok reg) :
    (∀ t, t ∈ Obj.keys (getBoxes st reg.types).boxes ↔ t = "other" ∨ t ∈ declaredTypes regs) ∧
    (Obj.keys (getBoxes st reg.types).boxes).Nodup ∧
    List.Forall₂
      (fun (tm : String × MediaType) (tb : String × Box) =>
        tb.1 = tm.1 ∧ tb.2.engines = tm.2.engines ∧ tb.2.results = [] ∧
        tb.2.resourceLinks = [] ∧ tb.2.resourceLinkParams = [] ∧
        tb.2.resultLimit = initResultLimit tm.2.engines.length)
      reg.types (getBoxes st reg.types).boxes ∧
    ∀ previous : Bento, (getBoxes previous reg.types).boxes = (getBoxes st reg.types).boxes := by
  obtain ⟨hkeys, hnd⟩ := registerAll_types regs Registry.initial reg (by decide) (by decide) hreg
  have hk : Obj.keys (getBoxes st reg.types).boxes = Obj.keys reg.types := by
    simp [getBoxes, Obj.keys, List.map_map, Function.comp_def]
  refine ⟨?_, hk ▸ hnd, ?_, fun _ => rfl⟩
  · intro t
    rw [hk, hkeys]
    simp [Registry.initial, initialTypes, Obj.keys]
  · simp only [getBoxes]
    generalize reg.types = types
    induction types with
    | nil => exact List.Forall₂.nil
    | cons tm rest ih => exact List.Forall₂.cons ⟨rfl, rfl, rfl, rfl, rfl, rfl⟩ ih

theorem getBoxes_fresh_witness :
    registerAll priorityRegistrations Registry.initial = .ok priorityRegistry ∧
    (∀ t, t ∈ Obj.keys (getBoxes Bento.initial priorityRegistry.types).boxes ↔
      t = "other" ∨ t ∈ declaredTypes priorityRegistrations) ∧
    (Obj.keys (getBoxes Bento.initial priorityRegistry.types).boxes).Nodup :=
  ⟨rfl, (getBoxes_fresh Bento.initial priorityRegistrations priorityRegistry rfl).1,
    (getBoxes_fresh Bento.initial priorityRegistrations priorityRegistry rfl).2.1⟩

/-! ## Dispatch: `orderObjectBy` and `searchAll` -/

theorem priorityLe_iff (a b : Engine) : priorityLe a b ↔ a.priority ≤ b.priority := by
  unfold priorityLe comparePriority
  split
  · rename_i h; simp [h]
  · split
    · rename_i h1 h2
      constructor
      · intro h; omega
      · intro h; omega
    · rename_i h1 h2
      constructor
      · intro _; omega
      · intro _; omega

theorem orderedInsert_filter (p : Int) (a : Engine) (l : List Engine) :
    (l.orderedInsert priorityLe a).filter (fun e => decide (e.priority = p)) =
      if a.priority = p then a :: l.filter (fun e => decide (e.priority = p))
      else l.filter (fun e => decide (e.priority = p)) := by
  induction l with
  | nil =>
    simp only [List.orderedInsert, List.filter_cons, List.filter_nil]
    split <;> simp_all
  | cons b rest ih =>
    simp only [List.orderedInsert]
    split
    · rename_i hab
      simp only [List.filter_cons]
      split <;> simp_all
    · rename_i hab
      rw [priorityLe_iff] at hab
      simp only [List.filter_cons, ih]
      by_cases ha : a.priority = p
      · have hb : ¬ b.priority = p := by omega
        simp [ha, hb]
      · simp [ha]

/-- The sort of `orderObjectBy` is stable: engines of one priority keep their
relative order. -/
theorem insertionSort_priority_filter (p : Int) (l : List Engine) :
    (l.insertionSort priorityLe).filter (fun e => decide (e.priority = p)) =
      l.filter (fun e => decide (e.priority = p)) := by
  induction l with
  | nil => rfl
  | cons a rest ih =>
    simp only [List.insertionSort, orderedInsert_filter, ih, List.filter_cons]
    split <;> simp_all

theorem orderedInsert_pairwise (a : Engine) (l : List Engine)
    (h : l.Pairwise (fun x y => x.priority ≤ y.priority)) :
    (l.orderedInsert priorityLe a).Pairwise (fun x y => x.priority ≤ y.priority) := by
  induction l with
  | nil => simp [List.orderedInsert]
  | cons b rest ih =>
    simp only [List.orderedInsert]
    have hb := List.pairwise_cons.1 h
    split
    · rename_i hab
      rw [priorityLe_iff] at hab
      refine List.pairwise_cons.2 ⟨?_, h⟩
      intro x hx
      rcases List.mem_cons.1 hx with hx | hx
      · rw [hx]; exact hab
      · exact le_trans hab (hb.1 x hx)
    · rename_i hab
      rw [priorityLe_iff] at hab
      refine List.pairwise_cons.2 ⟨?_, ih hb.2⟩
      intro x hx
      rcases (List.mem_orderedInsert priorityLe).1 hx with hx | hx
      · rw [hx]; omega
      · exact hb.1 x hx

theorem insertionSort_priority_pairwise (l : List Engine) :
    (l.insertionSort priorityLe).Pairwise (fun x y => x.priority ≤ y.priority) := by
  induction l with
  | nil => simp
  | cons a rest ih => exact orderedInsert_pairwise a _ ih

theorem Obj.set_of_not_mem {β : Type} (o : Obj β) (k : String) (v : β)
    (h : k ∉ Obj.keys o) : Obj.set o k v = o ++ [(k, v)] := by
  induction o with
  | nil => rfl
  | cons kv rest ih =>
    obtain ⟨a, b⟩ := kv
    simp only [Obj.keys, List.map_cons, List.mem_cons, not_or] at h
    have hne : ¬ a = k := fun e => h.1 e.symm
    simp only [Obj.set, hne, if_false, List.cons_append]
    rw [ih h.2]

theorem foldl_assign_names (l : List Engine) :
    ∀ (acc : Obj Engine), (l.map Engine.name).Nodup →
      (∀ e ∈ l, e.name ≠ "__proto__" ∧ e.name ∉ Obj.keys acc) →
      l.foldl (fun newObj engine => assign newObj engine.name engine) acc =
        acc ++ l.map (fun e => (e.name, e)) := by
  induction l with
  | nil => intro acc _ _; simp
  | cons a rest ih =>
    intro acc hnd h
    have ha := h a (List.mem_cons_self _ _)
    have hnd' := List.nodup_cons.1 hnd
    simp only [List.foldl_cons, List.map_cons]
    rw [assign, if_neg ha.1, Obj.set_of_not_mem _ _ _ ha.2, ih _ hnd'.2]
    · simp
    · intro e he
      refine ⟨(h e (List.mem_cons_of_mem _ he)).1, ?_⟩
      simp only [Obj.keys, List.map_append, List.map_cons, List.map_nil, List.mem_append,
        List.mem_singleton, not_or]
      refine ⟨(h e (List.mem_cons_of_mem _ he)).2, ?_⟩
      intro heq
      apply hnd'.1
      rw [← heq]
      exact List.mem_map_of_mem _ he

theorem wellNamed_names (engines : Obj Engine) (h : WellNamed engines) :
    (engines.map Prod.snd).map Engine.name = Obj.keys engines := by
  simp only [Obj.keys, List.map_map]
  apply List.map_congr_left
  intro ne hne
  exact (h.2 ne hne).1

theorem Obj.enumerate_perm {β : Type} (o : Obj β) : (Obj.enumerate o).Perm o := by
  unfold Obj.enumerate
  refine ((List.perm_insertionSort indexLe _).append_right _).trans ?_
  have hnot : (fun kv : String × β => (arrayIndex kv.1).isNone) =
      (fun kv => !(arrayIndex kv.1).isSome) := by
    funext kv
    cases arrayIndex kv.1 <;> rfl
  rw [hnot]
  exact List.filter_append_perm _ o

/-- An object none of whose keys is an array index is enumerated in insertion
order. -/
theorem Obj.enumerate_of_plain {β : Type} (o : Obj β)
    (h : ∀ kv ∈ o, arrayIndex kv.1 = none) : Obj.enumerate o = o := by
  unfold Obj.enumerate
  have h1 : o.filter (fun kv => (arrayIndex kv.1).isSome) = [] :=
    List.filter_eq_nil_iff.2 (fun kv hkv => by simp [h kv hkv])
  have h2 : o.filter (fun kv => (arrayIndex kv.1).isNone) = o :=
    List.filter_eq_self.2 (fun kv hkv => by simp [h kv hkv])
  rw [h1, h2]
  rfl

theorem wellNamed_enumerate (engines : Obj Engine) (h : WellNamed engines) :
    WellNamed (Obj.enumerate engines) := by
  have hperm := Obj.enumerate_perm engines
  refine ⟨(hperm.map Prod.fst).nodup_iff.2 h.1, ?_⟩
  intro ne hne
  exact h.2 ne (hperm.mem_iff.1 hne)

/-- With engine names as registration leaves them, `orderObjectBy` returns the
sorted engines, each under its name. -/
theorem orderObjectBy_eq (engines : Obj Engine) (h : WellNamed engines) :
    orderObjectBy engines =
      (((Obj.enumerate engines).map Prod.snd).insertionSort priorityLe).map
        (fun e => (e.name, e)) := by
  have hw := wellNamed_enumerate engines h
  have hperm := List.perm_insertionSort priorityLe ((Obj.enumerate engines).map Prod.snd)
  unfold orderObjectBy
  simp only []
  rw [foldl_assign_names _ []]
  · simp
  · rw [(hperm.map Engine.name).nodup_iff, wellNamed_names _ hw]
    exact hw.1
  · intro e he
    have he' := hperm.mem_iff.1 he
    obtain ⟨ne, hne, heq⟩ := List.mem_map.1 he'
    have := hw.2 ne hne
    rw [heq] at this
    exact ⟨this.1 ▸ this.2, by simp [Obj.keys]⟩

theorem wellNamed_assign (engines : Obj Engine) (name : String) (e : Engine)
    (h : WellNamed engines) (he : e.name = name) : WellNamed (assign engines name e) := by
  unfold assign
  split
  · exact h
  · rename_i hne
    refine ⟨Obj.nodup_keys_set _ _ _ h.1, ?_⟩
    intro ne hmem
    rcases Obj.eq_of_mem_set _ _ _ _ hmem with h' | h'
    · exact h.2 ne h'
    · rw [h']; exact ⟨he, hne⟩

theorem Registry.engine_wellNamed (reg reg' : Registry) (name : JVal) (cfg : EngineConfig)
    (hw : WellNamed reg.engines) (h : reg.engine name cfg = .ok reg') :
    WellNamed reg'.engines := by
  cases name with
  | str s =>
    cases hid : cfg.id.truthy with
    | false =>
      rw [Registry.engine_skipped reg (.str s) cfg (Or.inr hid)] at h
      cases h
      exact hw
    | true =>
      obtain ⟨_, e, heng, hname, _⟩ := Registry.engine_ok reg reg' s cfg hid h
      rw [heng]
      exact wellNamed_assign _ _ _ hw hname
  | undefined | null | bool _ | num _ | arr _ | obj _ =>
    rw [Registry.engine_skipped reg _ cfg (Or.inl (fun _ hc => by cases hc))] at h
    cases h
    exact hw

theorem registerAll_wellNamed (regs : List (JVal × EngineConfig)) :
    ∀ (reg reg' : Registry), WellNamed reg.engines → registerAll regs reg = .ok reg' →
      WellNamed reg'.engines := by
  induction regs with
  | nil =>
    intro reg reg' hw h
    simp only [registerAll] at h
    cases h
    exact hw
  | cons nc rest ih =>
    intro reg reg' hw h
    obtain ⟨name, cfg⟩ := nc
    simp only [registerAll] at h
    cases h1 : reg.engine name cfg with
    | error e => simp [h1] at h
    | ok reg1 =>
      simp only [h1] at h
      exact ih reg1 reg' (Registry.engine_wellNamed reg reg1 name cfg hw h1) h

/-- After the engines have registered, `searchAll` makes one request per
registered engine, none lost or duplicated, whatever the names; a config without
priority has priority 10. -/
theorem searchAll_one_request_per_engine (params : Obj JVal)
    (regs : List (JVal × EngineConfig)) (reg : Registry)
    (hreg : registerAll regs Registry.initial = .ok reg) :
    ((searchAll params reg.engines).2.map Prod.fst).Perm (Obj.keys reg.engines) ∧
    ((searchAll params reg.engines).2.map Prod.fst).Nodup ∧
    ({ } : EngineConfig).priority = 10 := by
  have hw : WellNamed reg.engines :=
    registerAll_wellNamed regs Registry.initial reg
      ⟨by simp [Registry.initial, Obj.keys], by simp [Registry.initial]⟩ hreg
  have hwe := wellNamed_enumerate reg.engines hw
  have hnames : (searchAll params reg.engines).2.map Prod.fst =
      (Obj.enumerate (orderObjectBy reg.engines)).map Prod.fst := by
    simp only [searchAll, List.map_map]
    rfl
  have hsorted : (orderObjectBy reg.engines).map Prod.fst =
      (((Obj.enumerate reg.engines).map Prod.snd).insertionSort priorityLe).map Engine.name := by
    rw [orderObjectBy_eq reg.engines hw, List.map_map]
    rfl
  have hperm : ((searchAll params reg.engines).2.map Prod.fst).Perm (Obj.keys reg.engines) := by
    rw [hnames]
    refine ((Obj.enumerate_perm _).map Prod.fst).trans ?_
    rw [hsorted]
    refine ((List.perm_insertionSort priorityLe _).map Engine.name).trans ?_
    rw [wellNamed_names _ hwe]
    exact (Obj.enumerate_perm reg.engines).map Prod.fst
  exact ⟨hperm, hperm.nodup_iff.2 hw.1, rfl⟩

/-- When no registered engine has an array index for its name, `searchAll` makes
its requests in non-decreasing priority, engines of equal priority in
registration order (the sort is stable). -/
theorem searchAll_dispatch_order_of_plain_names (params : Obj JVal)
    (regs : List (JVal × EngineConfig)) (reg : Registry)
    (hreg : registerAll regs Registry.initial = .ok reg)
    (hplain : ∀ ne ∈ reg.engines, arrayIndex ne.1 = none) :
    (searchAll params reg.engines).2.map Prod.fst =
      ((Obj.enumerate (orderObjectBy reg.engines)).map Prod.snd).map Engine.name ∧
    ((Obj.enumerate (orderObjectBy reg.engines)).map Prod.snd).Pairwise
      (fun a b => a.priority ≤ b.priority) ∧
    (∀ p : Int,
      ((Obj.enumerate (orderObjectBy reg.engines)).map Prod.snd).filter
          (fun e => decide (e.priority = p)) =
        (reg.engines.map Prod.snd).filter (fun e => decide (e.priority = p))) := by
  have hw : WellNamed reg.engines :=
    registerAll_wellNamed regs Registry.initial reg
      ⟨by simp [Registry.initial, Obj.keys], by simp [Registry.initial]⟩ hreg
  have hin : Obj.enumerate reg.engines = reg.engines := Obj.enumerate_of_plain _ hplain
  have heq := orderObjectBy_eq reg.engines hw
  rw [hin] at heq
  have hperm := List.perm_insertionSort priorityLe (reg.engines.map Prod.snd)
  have hout : Obj.enumerate (orderObjectBy reg.engines) = orderObjectBy reg.engines := by
    apply Obj.enumerate_of_plain
    intro kv hkv
    rw [heq] at hkv
    obtain ⟨e, he, hke⟩ := List.mem_map.1 hkv
    obtain ⟨ne, hne, hnee⟩ := List.mem_map.1 (hperm.mem_iff.1 he)
    have hname := (hw.2 ne hne).1
    rw [← hke]
    simp only []
    rw [← hnee, hname]
    exact hplain ne hne
  have hvals : (Obj.enumerate (orderObjectBy reg.engines)).map Prod.snd =
      (reg.engines.map Prod.snd).insertionSort priorityLe := by
    rw [hout, heq, List.map_map]
    simp [Function.comp_def]
  refine ⟨?_, ?_, ?_⟩
  · have hnames : (searchAll params reg.engines).2.map Prod.fst =
        (Obj.enumerate (orderObjectBy reg.engines)).map Prod.fst := by
      simp only [searchAll, List.map_map]
      rfl
    rw [hnames, hvals, hout, heq, List.map_map]
    rfl
  · rw [hvals]; exact insertionSort_priority_pairwise _
  · intro p
    rw [hvals]
    exact insertionSort_priority_filter p _

/-- The registrations `priorityRegistrations`: the requests go out by priority,
the two engines of priority 5 in registration order. -/
theorem searchAll_dispatch_order_example :
    registerAll priorityRegistrations Registry.initial = .ok priorityRegistry ∧
    (searchAll catsParams priorityRegistry.engines).2.map Prod.fst =
      ["databases", "catalog", "scout", "acumen"] ∧
    ((searchAll catsParams priorityRegistry.engines).2.map Prod.fst).Nodup ∧
    ((Obj.enumerate (orderObjectBy priorityRegistry.engines)).map Prod.snd).Pairwise
      (fun a b => a.priority ≤ b.priority) :=
  ⟨rfl, rfl,
    (searchAll_one_request_per_engine catsParams priorityRegistrations priorityRegistry rfl).2.1,
    (searchAll_dispatch_order_of_plain_names catsParams priorityRegistrations priorityRegistry
      rfl (by decide)).2.1⟩

theorem extend_get_of_not_mem {β : Type} (src : Obj β) (k : String) :
    ∀ (dst : Obj β), k ∉ Obj.keys src → Obj.get (extend dst src) k = Obj.get dst k := by
  induction src with
  | nil => intro dst _; rfl
  | cons kv rest ih =>
    intro dst h
    obtain ⟨a, b⟩ := kv
    simp only [Obj.keys, List.map_cons, List.mem_cons, not_or] at h
    have hne : ¬ a = k := fun e => h.1 e.symm
    have : extend dst ((a, b) :: rest) = extend (Obj.set dst a b) rest := by simp [extend]
    rw [this, ih _ h.2, Obj.get_set, if_neg hne]

theorem extend_get_of_get {β : Type} (src : Obj β) (k : String) (v : β) :
    ∀ (dst : Obj β), (Obj.keys src).Nodup → Obj.get src k = some v →
      Obj.get (extend dst src) k = some v := by
  induction src with
  | nil => intro dst _ h; simp [Obj.get] at h
  | cons kv rest ih =>
    intro dst hnd h
    obtain ⟨a, b⟩ := kv
    have hnd' := List.nodup_cons.1 hnd
    have : extend dst ((a, b) :: rest) = extend (Obj.set dst a b) rest := by simp [extend]
    rw [this]
    by_cases hk : a = k
    · simp only [Obj.get, hk, if_true] at h
      cases h
      rw [extend_get_of_not_mem rest k _ (hk ▸ hnd'.1), Obj.get_set, if_pos hk]
    · simp only [Obj.get, hk, if_false] at h
      exact ih _ hnd'.2 h

/-- The query text of the request for one engine. -/
theorem requestParams_queryText (params : Obj JVal) (engine : Engine) (q : String)
    (hkeys : (Obj.keys params).Nodup) (hs : Obj.get params "s" = some (.str q)) :
    queryText (requestParams params engine) =
      some (.str (match engine.filterQuery with
        | some filterQuery => q ++ " " ++ filterQuery
        | none => q)) := by
  have hp : Obj.get (extend [("engine", engine.id)] params) "s" = some (.str q) :=
    extend_get_of_get params "s" _ _ hkeys hs
  unfold requestParams queryText
  cases hf : engine.filterQuery with
  | none => simp only [hp]
  | some filterQuery =>
    simp only [hp, Obj.get_set, if_true, Option.getD_some, JVal.toStr]

/-- C20. For every query text and every set of engines, the request `searchAll`
makes for an engine carries the submitted query text followed by one space and
the engine's `filterQuery` when the engine has one, and exactly the submitted
query text otherwise: the text of a request depends on no other engine, and the
caller's params still hold the submitted text afterwards. -/
theorem searchAll_query_text (params : Obj JVal) (engines : Obj Engine) (q : String)
    (hkeys : (Obj.keys params).Nodup) (hs : Obj.get params "s" = some (.str q)) :
    queryText (searchAll params engines).1 = some (.str q) ∧
    List.Forall₂
      (fun (ne : String × Engine) (request : String × Obj JVal) =>
        request.1 = ne.1 ∧
        queryText request.2 =
          some (.str (match ne.2.filterQuery with
            | some filterQuery => q ++ " " ++ filterQuery
            | none => q)))
      (Obj.enumerate (orderObjectBy engines)) (searchAll params engines).2 := by
  have hext : extend params SearchParams = Obj.set params "limit" (.num 100) := by
    simp [extend, SearchParams]
  have hs' : Obj.get (extend params SearchParams) "s" = some (.str q) := by
    rw [hext, Obj.get_set, if_neg (by decide)]
    exact hs
  have hkeys' : (Obj.keys (extend params SearchParams)).Nodup := by
    rw [hext]
    exact Obj.nodup_keys_set _ _ _ hkeys
  refine ⟨hs', ?_⟩
  simp only [searchAll]
  generalize Obj.enumerate (orderObjectBy engines) = prioritized
  induction prioritized with
  | nil => exact List.Forall₂.nil
  | cons ne rest ih =>
    exact List.Forall₂.cons ⟨rfl, requestParams_queryText _ ne.2 q hkeys' hs'⟩ ih

theorem searchAll_query_text_witness :
    ((Obj.keys catsParams).Nodup ∧ Obj.get catsParams "s" = some (.str "cats")) ∧
    (searchAll catsParams priorityRegistry.engines).2.map (fun request => queryText request.2) =
      [some (.str "cats"), some (.str "cats"), some (.str "cats site:example.org"),
        some (.str "cats")] ∧
    queryText (searchAll catsParams priorityRegistry.engines).1 = some (.str "cats") :=
  ⟨⟨by decide, rfl⟩, rfl,
    (searchAll_query_text catsParams priorityRegistry.engines "cats" (by decide) rfl).1⟩

/-! ## Failure isolation when the success handler completes -/

theorem onSuccess_of_grouped (decodeURIComponent : String → Except JsError String)
    (st : Bento) (engine : Engine) (res : List Item) (link : Option (Obj JVal))
    (grouped : Obj (List Item)) (hres : res ≠ [])
    (hgrouped : groupBy (stamp res) engine.mediaTypes = .ok grouped) :
    (onSuccess decodeURIComponent st engine res link).1.boxes =
        (storeGroups decodeURIComponent engine link grouped st.boxes).1 ∧
      (onSuccess decodeURIComponent st engine res link).2 =
        (storeGroups decodeURIComponent engine link grouped st.boxes).2 := by
  have hempty : res.isEmpty = false := by
    cases res with
    | nil => exact absurd rfl hres
    | cons _ _ => rfl
  simp only [onSuccess, hempty, hgrouped, Bool.false_eq_true, if_false]
  cases hs : storeGroups decodeURIComponent engine link grouped st.boxes with
  | mk boxes err =>
    cases err with
    | some e => exact ⟨rfl, rfl⟩
    | none => exact ⟨rfl, rfl⟩

theorem forall₂_both {α : Type} {R S : α → α → Prop} :
    ∀ {a b : List α}, List.Forall₂ R a b → List.Forall₂ S a b →
      List.Forall₂ (fun x y => R x y ∧ S x y) a b := by
  intro a b hab
  induction hab with
  | nil => intro _; exact List.Forall₂.nil
  | cons h _ ih =>
    intro hs
    cases hs with
    | cons h2 t2 => exact List.Forall₂.cons ⟨h, h2⟩ (ih t2)

/-- Failure isolation for the handlers that complete: a box whose pending list
is `E`, `F` and that has no stored results, where `E` fails and `F` succeeds with
items of which a group goes to the box, ends in either order with an empty
pending list and with the group of `F` as its only stored entry. -/
theorem failure_isolation_of_completes (decodeURIComponent : String → Except JsError String)
    (st : Bento) (failing succeeding : Engine) (res : List Item) (link : Option (Obj JVal))
    (grouped : Obj (List Item)) (more url : String)
    (hne : failing.name ≠ succeeding.name) (hname : succeeding.name ≠ "__proto__")
    (hres : res ≠ []) (hgrouped : groupBy (stamp res) succeeding.mediaTypes = .ok grouped)
    (hlink : linkText link succeeding.id = .ok more)
    (hdecode : decodeURIComponent more = .ok url) :
    List.Forall₂
      (fun (old new : String × Box) =>
        new.1 = old.1 ∧
        ∀ group, old.2.engines = [failing.name, succeeding.name] → old.2.results = [] →
          Obj.get grouped old.1 = some group →
          new.2.engines = [] ∧ new.2.results = [(succeeding.name, sortByPosition group)])
      st.boxes
      (resolveAll decodeURIComponent st
        [(failing, .failure), (succeeding, .success res link)]).boxes ∧
    List.Forall₂
      (fun (old new : String × Box) =>
        new.1 = old.1 ∧
        ∀ group, old.2.engines = [failing.name, succeeding.name] → old.2.results = [] →
          Obj.get grouped old.1 = some group →
          new.2.engines = [] ∧ new.2.results = [(succeeding.name, sortByPosition group)])
      st.boxes
      (resolveAll decodeURIComponent st
        [(succeeding, .success res link), (failing, .failure)]).boxes := by
  have hfail : ∀ s : Bento, List.Forall₂
      (fun (old new : String × Box) =>
        new.1 = old.1 ∧ new.2.engines = old.2.engines.erase failing.name ∧
        new.2.results = old.2.results)
      s.boxes (resolve decodeURIComponent s failing .failure).boxes := fun s =>
    List.Forall₂.imp (fun _ _ h => ⟨h.1, h.2.1, h.2.2.1⟩)
      (removeFromBoxes_forall₂ s.boxes failing.name)
  have hsucc : ∀ s : Bento, List.Forall₂
      (fun (old new : String × Box) =>
        new.1 = old.1 ∧ new.2.engines = old.2.engines.erase succeeding.name ∧
        new.2.results =
          match Obj.get grouped old.1 with
          | some group => assign old.2.results succeeding.name (sortByPosition group)
          | none => old.2.results)
      s.boxes (resolve decodeURIComponent s succeeding (.success res link)).boxes := by
    intro s
    obtain ⟨hb, he⟩ := onSuccess_of_grouped decodeURIComponent s succeeding res link grouped
      hres hgrouped
    have hok := storeGroups_completes decodeURIComponent succeeding link grouped more url
      hlink hdecode s.boxes
    simp only [resolve]
    rw [hb]
    exact List.Forall₂.imp (fun _ _ h => ⟨h.1.1, h.1.2, h.2.2⟩)
      (forall₂_both
        (storeGroups_engines_of_completes decodeURIComponent succeeding link grouped s.boxes hok)
        (storeGroups_results decodeURIComponent succeeding link grouped s.boxes hok))
  have hset : ∀ group : List Item,
      assign ([] : Obj (List Item)) succeeding.name (sortByPosition group) =
        [(succeeding.name, sortByPosition group)] := by
    intro group
    simp [assign, hname, Obj.set]
  constructor
  · simp only [resolveAll]
    refine forall₂_chain ?_ (hfail st) (hsucc _)
    intro x y z hxy hyz
    refine ⟨hyz.1.trans hxy.1, ?_⟩
    intro group heng hresults hg
    obtain ⟨hy1, hy2, hy3⟩ := hxy
    obtain ⟨_, hz2, hz3⟩ := hyz
    rw [hy1, hg] at hz3
    simp only at hz3
    rw [hz2, hy2, heng, hz3, hy3, hresults, hset]
    simp [hne]
  · simp only [resolveAll]
    refine forall₂_chain ?_ (hsucc st) (hfail _)
    intro x y z hxy hyz
    refine ⟨hyz.1.trans hxy.1, ?_⟩
    intro group heng hresults hg
    obtain ⟨_, hy2, hy3⟩ := hxy
    obtain ⟨_, hz2, hz3⟩ := hyz
    rw [hg] at hy3
    simp only at hy3
    rw [hz2, hy2, heng, hz3, hy3, hresults, hset]
    have hne' : ¬ succeeding.name = failing.name := fun e => hne e.symm
    simp [hne, hne']

/-! ## Plain-name rules, `invertArrayToObject`, the initial limits -/

/-- C21. With a plain engine-name string as rule (any name but `__proto__`, which
names no registered engine), `groupBy` returns a mapping with the single bucket of
that name, holding all items of the collection in their input order. -/
theorem groupBy_name_single_bucket (collection : List Item) (media : String)
    (hname : media ≠ "__proto__") :
    groupBy collection (.name media) = .ok [(media, collection)] := by
  simp [groupBy, assign, hname, Obj.set]

theorem groupBy_name_single_bucket_witness :
    "databases" ≠ "__proto__" ∧
    groupBy exampleItems (.name "databases") = .ok [("databases", exampleItems)] :=
  ⟨by decide, groupBy_name_single_bucket exampleItems "databases" (by decide)⟩

/-- C22 as stated fails: `initResultLimit` sets the limit to 2 for no engine
count, and it differs from the initialisation of `src/app/bento/bento.js` for no
engine count. -/
theorem initResultLimit_never_two :
    ¬ ∃ numEngines : Nat,
      initResultLimit numEngines = 2 ∨ initResultLimit numEngines ≠ legacyInitLimit numEngines := by
  rintro ⟨n, h⟩
  rw [initResultLimit_eq] at h
  unfold legacyInitLimit at h
  rcases h with h | h
  · split at h <;> omega
  · exact h rfl

/-- C22, amended. The two initialisations of `resultLimit` agree on every engine
count: both yield 1 for more than one engine and 3 otherwise; the arm `2` of
`initResultLimit` is never taken. -/
theorem initResultLimit_eq_legacy (numEngines : Nat) :
    initResultLimit numEngines = legacyInitLimit numEngines ∧
    (initResultLimit numEngines = 1 ∨ initResultLimit numEngines = 3) ∧
    (initResultLimit numEngines = 1 ↔ numEngines > 1) := by
  rw [initResultLimit_eq]
  unfold legacyInitLimit
  refine ⟨rfl, ?_, ?_⟩
  · split
    · left; rfl
    · right; rfl
  · split
    · rename_i h; simp [h]
    · rename_i h; simp [h]

/-- C30. A registration under a string name whose config has a falsy id (`null`
when missing, `undefined`, `0`, `''`) registers nothing: the call returns and the
engine registry and the media-type table are unchanged. -/
theorem engine_with_falsy_id_registers_nothing (reg : Registry) (name : String)
    (cfg : EngineConfig) (hid : cfg.id.truthy = false) :
    reg.engine (.str name) cfg = .ok reg ∧
    ({ } : EngineConfig).id = .null ∧
    JVal.truthy .null = false ∧ JVal.truthy .undefined = false ∧
    JVal.truthy (.num 0) = false ∧ JVal.truthy (.str "") = false :=
  ⟨Registry.engine_skipped reg (.str name) cfg (Or.inr hid), rfl, rfl, rfl, rfl, rfl⟩

theorem engine_with_falsy_id_registers_nothing_witness :
    ({ booksConfig with id := .num 0 } : EngineConfig).id.truthy = false ∧
    catalogRegistry.engine (.str "scout") { booksConfig with id := .num 0 } =
      .ok catalogRegistry :=
  ⟨rfl,
    (engine_with_falsy_id_registers_nothing catalogRegistry "scout"
      { booksConfig with id := .num 0 } rfl).1⟩

/-- C24, at a failing input. `catalog` resolves successfully with one book and a
response without `resourceLinks`: the handler throws before the pre-load, and
`Bento.engines` has no entry for `catalog` although the engine yielded results. -/
theorem preload_missing_after_throw (decodeURIComponent : String → Except JsError String) :
    Registry.initial.engine (.str "catalog") booksConfig = .ok catalogRegistry ∧
    (resolve decodeURIComponent (getBoxes Bento.initial catalogRegistry.types) catalog
      (.success [[("type", .str "book")]] none)).stored "books" "catalog" =
        some [[("type", .str "book"), ("position", .num 0)]] ∧
    Obj.get (resolve decodeURIComponent (getBoxes Bento.initial catalogRegistry.types) catalog
      (.success [[("type", .str "book")]] none)).engines "catalog" = none ∧
    Obj.get (resolve Except.ok (getBoxes Bento.initial catalogRegistry.types) catalog
      (.success [[("type", .str "book")]] someLinks)).engines "catalog" =
        some { tpl := none, controller := none } := by
  exact ⟨rfl, rfl, rfl, rfl⟩

/-- C25, at a failing input. `catalog` resolves with four books: the list stored
in `boxes.books.results.catalog` holds the four of them, sorted by position, where
`src/app/bento/bento.js` would store the first three. -/
theorem stored_list_not_limited_to_three :
    ((resolve Except.ok (getBoxes Bento.initial catalogRegistry.types) catalog
      (.success rawFour someLinks)).stored "books" "catalog").map List.length = some 4 ∧
    (resolve Except.ok (getBoxes Bento.initial catalogRegistry.types) catalog
      (.success rawFour someLinks)).stored "books" "catalog" = some (stamp rawFour) ∧
    (legacyStoredGroup (stamp rawFour)).length = 3 := by
  exact ⟨rfl, rfl, rfl⟩

/-- C28, at a failing input. The box `books` has the two registered engines
`catalog` and `scout`; `catalog` fails and `scout` contributes one book with a
response without `resourceLinks` (n = 2, k = 1). After both have resolved the
limit of the box is 2 in either order, not 3: the success handler stores the book
and throws, so `scout` stays pending and counts twice in `expecting`. -/
theorem final_limit_not_by_counts (decodeURIComponent : String → Except JsError String) :
    registerAll [(.str "catalog", booksConfig), (.str "scout", booksConfig)] Registry.initial =
      .ok twoRegistry ∧
    (resolveAll decodeURIComponent (getBoxes Bento.initial twoRegistry.types)
      [(catalog, .failure),
       (booksEngine "scout", .success [[("type", .str "book")]] none)]).limit "books" =
      some 2 ∧
    (resolveAll decodeURIComponent (getBoxes Bento.initial twoRegistry.types)
      [(booksEngine "scout", .success [[("type", .str "book")]] none),
       (catalog, .failure)]).limit "books" = some 2 ∧
    (resolveAll decodeURIComponent (getBoxes Bento.initial twoRegistry.types)
      [(booksEngine "scout", .success [[("type", .str "book")]] none),
       (catalog, .failure)]).stored "books" "scout" =
      some [[("type", .str "book"), ("position", .num 0)]] := by
  exact ⟨rfl, rfl, rfl, rfl⟩

/-- C29, at a failing input. `catalog` registers with a rule and `suggest` with a
rule that names no media type: both registrations are accepted, and the engine list
of `other` holds `catalog` only. The pending list of `other` is empty as soon as
`catalog` has resolved, before `suggest` has. -/
theorem other_misses_engine_with_empty_rule
    (decodeURIComponent : String → Except JsError String) :
    registerAll suggestRegistrations Registry.initial = .ok suggestRegistry ∧
    Obj.keys suggestRegistry.engines = ["catalog", "suggest"] ∧
    enginesOf (.ok suggestRegistry) "other" = some ["catalog"] ∧
    (resolve decodeURIComponent (getBoxes Bento.initial suggestRegistry.types) catalog
      .failure).pending "other" = some [] := by
  exact ⟨rfl, rfl, rfl, rfl⟩

/-! ## The box watcher -/

theorem removedEngine_of_absent (e : String) (newVal : List String) (he : e ∉ newVal) :
    ∀ (oldVal : List String), e ∈ oldVal → (∀ x ∈ oldVal, x ≠ e → x ∈ newVal) →
      removedEngine oldVal newVal = e := by
  intro oldVal
  induction oldVal with
  | nil => intro h; simp at h
  | cons a rest ih =>
    intro hmem hall
    simp only [removedEngine]
    by_cases ha : a = e
    · rw [ha, if_neg he]
    · rw [if_pos (hall a (List.mem_cons_self _ _) ha)]
      apply ih
      · rcases List.mem_cons.1 hmem with h | h
        · exact absurd h.symm ha
        · exact h
      · intro x hx hxe
        exact hall x (List.mem_cons_of_mem _ hx) hxe

theorem removedEngine_eq_find (oldVal newVal : List String) :
    removedEngine oldVal newVal = (oldVal.find? (fun eng => decide (eng ∉ newVal))).getD "" := by
  induction oldVal with
  | nil => rfl
  | cons a rest ih =>
    simp only [removedEngine, List.find?_cons]
    by_cases ha : a ∈ newVal
    · simp [ha, ih]
    · simp [ha]

/-- C26. For every previous pending list without duplicates and every current
list obtained from it by removing one engine, the scan of the watcher selects that
engine; in general it selects the first element of the previous list that is
absent from the current one, and `''` when there is none. -/
theorem watcher_selects_removed_engine (oldVal : List String) (engine : String)
    (hnodup : oldVal.Nodup) (hmem : engine ∈ oldVal) :
    removedEngine oldVal (oldVal.erase engine) = engine ∧
    ∀ previous current : List String,
      removedEngine previous current =
        (previous.find? (fun eng => decide (eng ∉ current))).getD "" := by
  refine ⟨?_, removedEngine_eq_find⟩
  apply removedEngine_of_absent engine _ hnodup.not_mem_erase oldVal hmem
  intro x hx hxe
  exact (List.mem_erase_of_ne hxe).2 hx

theorem watcher_selects_removed_engine_witness :
    (["catalog", "scout", "acumen"].Nodup ∧ "scout" ∈ ["catalog", "scout", "acumen"]) ∧
    removedEngine ["catalog", "scout", "acumen"] (["catalog", "scout", "acumen"].erase "scout") =
      "scout" :=
  ⟨⟨by decide, by decide⟩,
    (watcher_selects_removed_engine ["catalog", "scout", "acumen"] "scout" (by decide)
      (by decide)).1⟩

/-! ## The limit stays between 1 and 3 -/

theorem recomputeLimit_bounds (limit expected : Nat) (h : 1 ≤ limit ∧ limit ≤ 3) :
    limit ≤ recomputeLimit limit expected ∧ recomputeLimit limit expected ≤ 3 ∧
    recomputeLimit limit expected ≤ limit + 1 := by
  unfold recomputeLimit
  split
  · rename_i hc
    refine ⟨by omega, ?_, by omega⟩
    rcases hc with hc | hc <;> omega
  · exact ⟨le_refl _, h.2, by omega⟩

theorem forall₂_transfer {α : Type} {R : α → α → Prop} {P : α → Prop}
    (hstep : ∀ x y, R x y → P x → P y) :
    ∀ {a b : List α}, List.Forall₂ R a b → (∀ x ∈ a, P x) → ∀ y ∈ b, P y := by
  intro a b hab
  induction hab with
  | nil => intro _ y hy; simp at hy
  | cons h _ ih =>
    intro ha y hy
    rcases List.mem_cons.1 hy with hy | hy
    · rw [hy]; exact hstep _ _ h (ha _ (List.mem_cons_self _ _))
    · exact ih (fun x hx => ha x (List.mem_cons_of_mem _ hx)) y hy

theorem resolve_limit_bounds (decodeURIComponent : String → Except JsError String)
    (st : Bento) (engine : Engine) (outcome : Outcome)
    (h : ∀ tb ∈ st.boxes, 1 ≤ tb.2.resultLimit ∧ tb.2.resultLimit ≤ 3) :
    ∀ tb ∈ (resolve decodeURIComponent st engine outcome).boxes,
      1 ≤ tb.2.resultLimit ∧ tb.2.resultLimit ≤ 3 := by
  refine forall₂_transfer ?_
    (resultLimit_recomputed_on_removal decodeURIComponent st engine outcome) h
  intro x y hxy hx
  rcases hxy.2 with h' | h'
  · rw [h'.2]; exact hx
  · rw [h'.2.2]
    have := recomputeLimit_bounds x.2.resultLimit (y.2.results.length + y.2.engines.length) hx
    omega

theorem resolveAll_limit_bounds (decodeURIComponent : String → Except JsError String)
    (run : List (Engine × Outcome)) :
    ∀ (st : Bento), (∀ tb ∈ st.boxes, 1 ≤ tb.2.resultLimit ∧ tb.2.resultLimit ≤ 3) →
      ∀ tb ∈ (resolveAll decodeURIComponent st run).boxes,
        1 ≤ tb.2.resultLimit ∧ tb.2.resultLimit ≤ 3 := by
  induction run with
  | nil => intro st h; exact h
  | cons eo rest ih =>
    intro st h
    obtain ⟨engine, outcome⟩ := eo
    exact ih _ (resolve_limit_bounds decodeURIComponent st engine outcome h)

theorem getBoxes_limit_bounds (st : Bento) (types : Obj MediaType) :
    ∀ tb ∈ (getBoxes st types).boxes, 1 ≤ tb.2.resultLimit ∧ tb.2.resultLimit ≤ 3 := by
  intro tb htb
  simp only [getBoxes, List.mem_map] at htb
  obtain ⟨tm, _, heq⟩ := htb
  rw [← heq]
  simp only [initResultLimit_eq]
  split <;> omega

theorem forall₂_strengthen {α : Type} {R S : α → α → Prop} {P : α → Prop}
    (hstep : ∀ x y, P x → R x y → S x y) :
    ∀ {a b : List α}, List.Forall₂ R a b → (∀ x ∈ a, P x) → List.Forall₂ S a b := by
  intro a b hab
  induction hab with
  | nil => intro _; exact List.Forall₂.nil
  | cons h _ ih =>
    intro ha
    exact List.Forall₂.cons (hstep _ _ (ha _ (List.mem_cons_self _ _)) h)
      (ih (fun x hx => ha x (List.mem_cons_of_mem _ hx)))

/-- C27. In every state reached from `getBoxes` by any sequence of engine
resolutions, the `resultLimit` of every box is 1, 2 or 3; and one resolution, from
any state, never decreases the `resultLimit` of a box and raises it by at most
1. -/
theorem resultLimit_invariant (decodeURIComponent : String → Except JsError String)
    (st : Bento) (types : Obj MediaType) (run : List (Engine × Outcome)) :
    (∀ tb ∈ (resolveAll decodeURIComponent (getBoxes st types) run).boxes,
      tb.2.resultLimit = 1 ∨ tb.2.resultLimit = 2 ∨ tb.2.resultLimit = 3) ∧
    ∀ (reached : Bento) (engine : Engine) (outcome : Outcome),
      List.Forall₂
        (fun (old new : String × Box) =>
          new.1 = old.1 ∧ old.2.resultLimit ≤ new.2.resultLimit ∧
          new.2.resultLimit ≤ old.2.resultLimit + 1)
        reached.boxes (resolve decodeURIComponent reached engine outcome).boxes := by
  constructor
  · intro tb htb
    have := resolveAll_limit_bounds decodeURIComponent run (getBoxes st types)
      (getBoxes_limit_bounds st types) tb htb
    omega
  · intro reached engine outcome
    refine List.Forall₂.imp ?_
      (resultLimit_recomputed_on_removal decodeURIComponent reached engine outcome)
    intro x y hxy
    refine ⟨hxy.1, ?_⟩
    rcases hxy.2 with h' | h'
    · rw [h'.2]; omega
    · rw [h'.2.2]
      unfold recomputeLimit
      split <;> omega

/-! ## Inverting a map of arrays -/

theorem invertInto_nodup (value : String) (xs : List JVal) :
    ∀ (inverted : Obj String), (Obj.keys inverted).Nodup →
      (Obj.keys (invertInto inverted value xs)).Nodup := by
  induction xs with
  | nil => intro inverted h; exact h
  | cons x rest ih =>
    intro inverted h
    simp only [invertInto]
    apply ih
    unfold assign
    split
    · exact h
    · exact Obj.nodup_keys_set _ _ _ h

theorem invertFold_nodup (obj : Obj (List JVal)) :
    ∀ (inverted : Obj String), (Obj.keys inverted).Nodup →
      (Obj.keys (obj.foldl (fun inverted kv => invertInto inverted kv.1 kv.2) inverted)).Nodup := by
  induction obj with
  | nil => intro inverted h; exact h
  | cons kv rest ih =>
    intro inverted h
    exact ih _ (invertInto_nodup kv.1 kv.2 inverted h)

theorem mem_invertFold (obj : Obj (List JVal)) :
    ∀ (inverted : Obj String) (p : String × String),
      p ∈ obj.foldl (fun inverted kv => invertInto inverted kv.1 kv.2) inverted →
      p ∈ inverted ∨ ∃ a, (p.2, a) ∈ obj ∧ p.1 ∈ a.map JVal.toStr := by
  induction obj with
  | nil => intro inverted p h; left; exact h
  | cons kv rest ih =>
    intro inverted p h
    rcases ih _ p h with h' | ⟨a, ha, hk⟩
    · rcases mem_invertInto kv.1 kv.2 inverted p h' with h2 | ⟨h2, h3⟩
      · left; exact h2
      · right
        refine ⟨kv.2, ?_, h3⟩
        rw [h2]
        exact List.mem_cons_self _ _
    · right; exact ⟨a, List.mem_cons_of_mem _ ha, hk⟩

theorem invertFold_get (k : String) (hk : k ≠ "__proto__") (obj : Obj (List JVal)) :
    ∀ (inverted : Obj String),
      (Obj.get inverted k ≠ none ∨ ∃ f a, (f, a) ∈ obj ∧ k ∈ a.map JVal.toStr) →
      Obj.get (obj.foldl (fun inverted kv => invertInto inverted kv.1 kv.2) inverted) k ≠ none := by
  induction obj with
  | nil =>
    intro inverted h
    rcases h with h | ⟨f, a, ha, _⟩
    · exact h
    · simp at ha
  | cons kv rest ih =>
    intro inverted h
    simp only [List.foldl_cons]
    apply ih
    rcases h with h | ⟨f, a, ha, hka⟩
    · left; exact invertInto_get kv.1 kv.2 k hk inverted (Or.inl h)
    · rcases List.mem_cons.1 ha with ha | ha
      · left
        apply invertInto_get kv.1 kv.2 k hk inverted
        right
        rw [← ha]
        exact hka
      · right; exact ⟨f, a, ha, hka⟩

/-- For every object whose values are arrays, where no element (as a property
key) occurs under two different keys and no element is the key `__proto__`, the
result of `invertArrayToObject` has exactly one key per array element, each mapped
to the key of the array that contained it. -/
theorem invertArrayToObject_spec (obj : Obj (List JVal))
    (hdisjoint : ∀ p ∈ obj, ∀ q ∈ obj, ∀ k : String,
      k ∈ p.2.map JVal.toStr → k ∈ q.2.map JVal.toStr → p.1 = q.1)
    (hproto : ∀ p ∈ obj, "__proto__" ∉ p.2.map JVal.toStr) :
    (Obj.keys (invertArrayToObject obj)).Nodup ∧
    ∀ (k field : String),
      Obj.get (invertArrayToObject obj) k = some field ↔
        ∃ a, (field, a) ∈ obj ∧ k ∈ a.map JVal.toStr := by
  have hfwd : ∀ (k field : String), Obj.get (invertArrayToObject obj) k = some field →
      ∃ a, (field, a) ∈ obj ∧ k ∈ a.map JVal.toStr := by
    intro k field h
    rcases mem_invertFold obj [] (k, field) (Obj.mem_of_get _ _ _ h) with h' | h'
    · simp at h'
    · exact h'
  refine ⟨invertFold_nodup obj [] (by simp [Obj.keys]), ?_⟩
  intro k field
  constructor
  · exact hfwd k field
  · rintro ⟨a, ha, hka⟩
    have hk : k ≠ "__proto__" := by
      intro hc
      rw [hc] at hka
      exact hproto _ ha hka
    have hne := invertFold_get k hk obj [] (Or.inr ⟨field, a, ha, hka⟩)
    cases hg : Obj.get (obj.foldl (fun inverted kv => invertInto inverted kv.1 kv.2) []) k with
    | none => exact absurd hg hne
    | some g =>
      obtain ⟨b, hb, hkb⟩ := hfwd k g hg
      have := hdisjoint _ hb _ ha k hkb hka
      simp only at this
      unfold invertArrayToObject
      rw [hg, this]

theorem invertArrayToObject_spec_witness :
    invertArrayToObject invertExample = [("value1", "field"), ("value2", "field")] ∧
    (Obj.keys (invertArrayToObject invertExample)).Nodup ∧
    Obj.get (invertArrayToObject invertExample) "value2" = some "field" :=
  have h := invertArrayToObject_spec invertExample
    (by
      intro p hp q hq k _ _
      simp only [invertExample, List.mem_singleton] at hp hq
      rw [hp, hq])
    (by
      intro p hp
      simp only [invertExample, List.mem_singleton] at hp
      rw [hp]
      decide)
  ⟨rfl, h.1, (h.2 "value2" "field").2 ⟨[.str "value1", .str "value2"], List.mem_singleton.2 rfl, by decide⟩⟩

/-! ## The pre-loaded engines -/

/-- The map `self.engines` after one resolution: a failure and an empty result
list leave it as it was; any resolution leaves it as it was or assigns the entry
of the resolved engine, and never touches the entry of another engine. -/
theorem resolve_engines_frame (decodeURIComponent : String → Except JsError String)
    (st : Bento) (engine : Engine) :
    (resolve decodeURIComponent st engine .failure).engines = st.engines ∧
    (∀ link, (resolve decodeURIComponent st engine (.success [] link)).engines = st.engines) ∧
    ∀ outcome,
      ((resolve decodeURIComponent st engine outcome).engines = st.engines ∨
        (resolve decodeURIComponent st engine outcome).engines =
          assign st.engines engine.name
            { tpl := engine.templateUrl, controller := engine.controller }) ∧
      ∀ other, other ≠ engine.name →
        Obj.get (resolve decodeURIComponent st engine outcome).engines other =
          Obj.get st.engines other := by
  have hcases : ∀ outcome,
      (resolve decodeURIComponent st engine outcome).engines = st.engines ∨
        (resolve decodeURIComponent st engine outcome).engines =
          assign st.engines engine.name
            { tpl := engine.templateUrl, controller := engine.controller } := by
    intro outcome
    cases outcome with
    | failure => left; rfl
    | success res link =>
      simp only [resolve, onSuccess]
      split
      · left; rfl
      · split
        · left; rfl
        · split
          · left; rfl
          · right; rfl
  refine ⟨rfl, fun link => rfl, fun outcome => ⟨hcases outcome, ?_⟩⟩
  intro other hne
  rcases hcases outcome with h | h
  · rw [h]
  · rw [h]
    unfold assign
    split
    · rfl
    · rw [Obj.get_set]
      simp [Ne.symm hne]

/-! ## The engine list of `other` -/

theorem mem_keys_assign {β : Type} (o : Obj β) (k : String) (v : β) (x : String)
    (h : x ∈ Obj.keys (assign o k v)) : x ∈ Obj.keys o ∨ x = k := by
  unfold assign at h
  split at h
  · left; exact h
  · rw [Obj.keys_set] at h
    split at h
    · left; exact h
    · rcases List.mem_append.1 h with h' | h'
      · left; exact h'
      · right; simpa using h'

/-- One registration whose rule, if it has one, names at least one media type:
when every registered engine is in the engine list of `other` before the call,
the same holds after it. -/
theorem engine_other_lists (reg reg' : Registry) (name : JVal) (cfg : EngineConfig)
    (hrule : ∀ media, cfg.mediaTypes = some media → media.types ≠ [])
    (hinv : ∀ k ∈ Obj.keys reg.engines,
      ∃ o, Obj.get reg.types "other" = some o ∧ k ∈ o.engines)
    (h : reg.engine name cfg = .ok reg') :
    ∀ k ∈ Obj.keys reg'.engines, ∃ o, Obj.get reg'.types "other" = some o ∧ k ∈ o.engines := by
  by_cases hskip : (∀ s, name ≠ .str s) ∨ cfg.id.truthy = false
  · rw [Registry.engine_skipped reg name cfg hskip] at h
    cases h
    exact hinv
  · have hname : ∃ s, name = .str s := by
      by_contra hc
      exact hskip (Or.inl (fun s hs => hc ⟨s, hs⟩))
    obtain ⟨s, hs⟩ := hname
    have hid : cfg.id.truthy = true := by
      cases hb : cfg.id.truthy with
      | true => rfl
      | false => exact absurd (Or.inr hb) hskip
    rw [hs] at h
    obtain ⟨hreg, e, heng, _⟩ := Registry.engine_ok reg reg' s cfg hid h
    have hmono : ∀ t m, Obj.get reg.types t = some m →
        ∃ m', Obj.get reg'.types t = some m' ∧ ∀ x ∈ m.engines, x ∈ m'.engines := by
      cases hm : cfg.mediaTypes with
      | some media =>
        rw [hm] at hreg
        exact (registerTypes_spec s _ _ _ hreg).1
      | none =>
        rw [hm] at hreg
        exact (registerType_spec _ _ _ _ hreg).1
    have hself : ∃ o, Obj.get reg'.types "other" = some o ∧ s ∈ o.engines := by
      cases hm : cfg.mediaTypes with
      | some media =>
        rw [hm] at hreg
        refine (registerTypes_spec s _ _ _ hreg).2.2.1 ?_
        have hne := hrule media hm
        cases hk : media.types with
        | nil => exact absurd hk hne
        | cons kv rest => simp [Obj.keys]
      | none =>
        rw [hm] at hreg
        exact (registerType_spec _ _ _ _ hreg).2.2.1
    intro k hk
    rw [heng] at hk
    rcases mem_keys_assign _ _ _ _ hk with hk' | hk'
    · obtain ⟨o, ho, hko⟩ := hinv k hk'
      obtain ⟨o', ho', hsub⟩ := hmono "other" o ho
      exact ⟨o', ho', hsub k hko⟩
    · rw [hk']; exact hself

/-- A sequence of registrations in which every rule names at least one media
type: every registered engine is in the engine list of `other`. -/
theorem registerAll_other_lists (regs : List (JVal × EngineConfig)) :
    ∀ (reg reg' : Registry),
      (∀ nc ∈ regs, ∀ media, nc.2.mediaTypes = some media → media.types ≠ []) →
      (∀ k ∈ Obj.keys reg.engines, ∃ o, Obj.get reg.types "other" = some o ∧ k ∈ o.engines) →
      registerAll regs reg = .ok reg' →
      ∀ k ∈ Obj.keys reg'.engines,
        ∃ o, Obj.get reg'.types "other" = some o ∧ k ∈ o.engines := by
  induction regs with
  | nil =>
    intro reg reg' _ hinv h
    simp only [registerAll] at h
    cases h
    exact hinv
  | cons nc rest ih =>
    intro reg reg' hrule hinv h
    obtain ⟨name, cfg⟩ := nc
    simp only [registerAll] at h
    cases h1 : reg.engine name cfg with
    | error e => simp [h1] at h
    | ok reg1 =>
      simp only [h1] at h
      exact ih reg1 reg' (fun nc hnc => hrule nc (List.mem_cons_of_mem _ hnc))
        (engine_other_lists reg reg1 name cfg
          (hrule (name, cfg) (List.mem_cons_self _ _)) hinv h1) h

/-! ## The final limit of a box on runs whose handlers return -/

theorem loadProgress_settles (old box : Box) (engine : String)
    (hres : box.results = old.results ∨ ∃ group, box.results = assign old.results engine group)
    (heng : box.engines = old.engines) (hlim : box.resultLimit = old.resultLimit) :
    Settles engine old (loadProgress box engine) := by
  refine ⟨?_, ?_, ?_⟩
  · rw [loadProgress_results]; exact hres
  · rw [loadProgress_engines, heng]
  · by_cases hmem : engine ∈ box.engines
    · right
      refine ⟨heng ▸ hmem, ?_⟩
      rw [loadProgress_results, loadProgress_engines]
      unfold loadProgress
      rw [if_pos hmem]
      unfold setResultLimit recomputeLimit
      simp only [hlim]
      split <;> rfl
    · left
      refine ⟨heng ▸ hmem, ?_⟩
      rw [loadProgress_of_not_mem box engine hmem, hlim]

theorem storeGroup_settles (decodeURIComponent : String → Except JsError String)
    (engine : Engine) (link : Option (Obj JVal)) (grouped : Obj (List Item)) (type : String)
    (box : Box) (h : (storeGroup decodeURIComponent engine link grouped type box).2 = none) :
    Settles engine.name box (storeGroup decodeURIComponent engine link grouped type box).1 := by
  unfold storeGroup at h ⊢
  cases hg : Obj.get grouped type with
  | none =>
    simp only [hg]
    exact loadProgress_settles box box engine.name (Or.inl rfl) rfl rfl
  | some group =>
    simp only [hg] at h ⊢
    cases hl : linkText link engine.id with
    | error e => simp [hl] at h
    | ok more =>
      simp only [hl] at h ⊢
      cases hd : decodeURIComponent more with
      | error e => simp [hd] at h
      | ok url =>
        simp only [hd]
        apply loadProgress_settles
        · right
          refine ⟨sortByPosition group, ?_⟩
          cases engine.mediaTypes <;> rfl
        · cases engine.mediaTypes <;> rfl
        · cases engine.mediaTypes <;> rfl

theorem storeGroups_settles (decodeURIComponent : String → Except JsError String)
    (engine : Engine) (link : Option (Obj JVal)) (grouped : Obj (List Item)) :
    ∀ (boxes : Obj Box), (storeGroups decodeURIComponent engine link grouped boxes).2 = none →
      List.Forall₂ (fun (old new : String × Box) => new.1 = old.1 ∧ Settles engine.name old.2 new.2)
        boxes (storeGroups decodeURIComponent engine link grouped boxes).1 := by
  intro boxes
  induction boxes with
  | nil => intro _; exact List.Forall₂.nil
  | cons tb rest ih =>
    obtain ⟨type, box⟩ := tb
    intro h
    have hs := storeGroup_settles decodeURIComponent engine link grouped type box
    unfold storeGroups at h ⊢
    cases hsg : storeGroup decodeURIComponent engine link grouped type box with
    | mk box' err =>
      rw [hsg] at hs
      cases err with
      | some e => simp [hsg] at h
      | none =>
        simp only [hsg] at h ⊢
        exact List.Forall₂.cons ⟨rfl, hs rfl⟩ (ih h)

theorem resolve_settles (decodeURIComponent : String → Except JsError String)
    (st : Bento) (engine : Engine) (outcome : Outcome)
    (h : Completes decodeURIComponent st engine outcome) :
    List.Forall₂ (fun (old new : String × Box) => new.1 = old.1 ∧ Settles engine.name old.2 new.2)
      st.boxes (resolve decodeURIComponent st engine outcome).boxes := by
  have hremove : List.Forall₂
      (fun (old new : String × Box) => new.1 = old.1 ∧ Settles engine.name old.2 new.2)
      st.boxes (removeFromBoxes st.boxes engine.name) := by
    unfold removeFromBoxes
    rw [List.forall₂_map_right_iff]
    exact List.forall₂_same.2
      (fun tb _ => ⟨rfl, loadProgress_settles tb.2 tb.2 engine.name (Or.inl rfl) rfl rfl⟩)
  cases outcome with
  | failure => exact hremove
  | success res link =>
    simp only [Completes] at h
    simp only [resolve]
    unfold onSuccess at h ⊢
    split
    · exact hremove
    · rename_i hne
      simp only [hne, if_false] at h
      cases hg : groupBy (stamp res) engine.mediaTypes with
      | error e => simp [hg] at h
      | ok grouped =>
        simp only [hg] at h ⊢
        have hs := storeGroups_settles decodeURIComponent engine link grouped st.boxes
        cases hsg : storeGroups decodeURIComponent engine link grouped st.boxes with
        | mk boxes err =>
          rw [hsg] at hs
          cases err with
          | some e => simp [hsg] at h
          | none => exact hs rfl

theorem resolveAll_settles (decodeURIComponent : String → Except JsError String)
    (run : List (Engine × Outcome)) :
    ∀ (st : Bento), AllComplete decodeURIComponent st run →
      List.Forall₂
        (fun (old new : String × Box) =>
          new.1 = old.1 ∧ SettlesAll (run.map (fun eo => eo.1.name)) old.2 new.2)
        st.boxes (resolveAll decodeURIComponent st run).boxes := by
  induction run with
  | nil =>
    intro st _
    exact List.forall₂_same.2 (fun tb _ => ⟨rfl, rfl⟩)
  | cons eo rest ih =>
    obtain ⟨engine, outcome⟩ := eo
    intro st h
    have h1 := resolve_settles decodeURIComponent st engine outcome h.1
    have h2 := ih (resolve decodeURIComponent st engine outcome) h.2
    refine forall₂_chain ?_ h1 h2
    intro x y z hxy hyz
    exact ⟨hyz.1.trans hxy.1, y.2, hxy.2, hyz.2⟩

theorem length_assign {β : Type} (o : Obj β) (k : String) (v : β) :
    (assign o k v).length = o.length ∨
    ((assign o k v).length = o.length + 1 ∧ k ∈ Obj.keys (assign o k v) ∧ k ∉ Obj.keys o) := by
  have hlen : ∀ (x : Obj β), x.length = (Obj.keys x).length := by
    intro x; simp [Obj.keys]
  unfold assign
  split
  · left; rfl
  · by_cases hk : k ∈ Obj.keys o
    · left
      rw [hlen, hlen o, Obj.keys_set, if_pos hk]
    · right
      refine ⟨?_, ?_, hk⟩
      · rw [hlen, hlen o, Obj.keys_set, if_neg hk]; simp
      · rw [Obj.keys_set, if_neg hk]; simp

theorem keys_subset_assign {β : Type} (o : Obj β) (k : String) (v : β) (x : String)
    (h : x ∈ Obj.keys o) : x ∈ Obj.keys (assign o k v) := by
  unfold assign
  split
  · exact h
  · rw [Obj.keys_set]
    split
    · exact h
    · exact List.mem_append_left _ h

theorem settles_keys_mono (engine : String) (old new : Box) (h : Settles engine old new)
    (x : String) (hx : x ∈ Obj.keys old.results) : x ∈ Obj.keys new.results := by
  rcases h.1 with h1 | ⟨group, h1⟩
  · rw [h1]; exact hx
  · rw [h1]; exact keys_subset_assign _ _ _ _ hx

theorem settles_keys_new (engine : String) (old new : Box) (h : Settles engine old new)
    (x : String) (hx : x ∈ Obj.keys new.results) : x ∈ Obj.keys old.results ∨ x = engine := by
  rcases h.1 with h1 | ⟨group, h1⟩
  · rw [h1] at hx; left; exact hx
  · rw [h1] at hx; exact mem_keys_assign _ _ _ _ hx

theorem settles_length_results (engine : String) (old new : Box) (h : Settles engine old new) :
    new.results.length = old.results.length ∨
    (new.results.length = old.results.length + 1 ∧ engine ∈ Obj.keys new.results ∧
      engine ∉ Obj.keys old.results) := by
  rcases h.1 with h1 | ⟨group, h1⟩
  · left; rw [h1]
  · rw [h1]; exact length_assign _ _ _

theorem settlesAll_keys_mono (names : List String) :
    ∀ (old new : Box), SettlesAll names old new →
      ∀ x ∈ Obj.keys old.results, x ∈ Obj.keys new.results := by
  induction names with
  | nil => intro old new h x hx; simp only [SettlesAll] at h; rw [h]; exact hx
  | cons e rest ih =>
    intro old new h x hx
    obtain ⟨mid, h1, h2⟩ := h
    exact ih mid new h2 x (settles_keys_mono e old mid h1 x hx)

theorem settlesAll_keys_new (names : List String) :
    ∀ (old new : Box), SettlesAll names old new →
      ∀ x ∈ Obj.keys new.results, x ∈ Obj.keys old.results ∨ x ∈ names := by
  induction names with
  | nil => intro old new h x hx; simp only [SettlesAll] at h; rw [h] at hx; left; exact hx
  | cons e rest ih =>
    intro old new h x hx
    obtain ⟨mid, h1, h2⟩ := h
    rcases ih mid new h2 x hx with h3 | h3
    · rcases settles_keys_new e old mid h1 x h3 with h4 | h4
      · left; exact h4
      · right; rw [h4]; exact List.mem_cons_self _ _
    · right; exact List.mem_cons_of_mem _ h3

/-- One handler that returns keeps the relation between the limit and the
counts, when it stores a new result list only for an engine that was pending. -/
theorem settles_limitTracks (n : Nat) (engine : String) (old new : Box)
    (h : Settles engine old new) (hinv : LimitTracks n old)
    (hpending : new.results.length ≠ old.results.length → engine ∈ old.engines) :
    LimitTracks n new := by
  have hlen := settles_length_results engine old new h
  obtain ⟨_, heng, hlim⟩ := h
  unfold LimitTracks at hinv ⊢
  rcases hlim with ⟨hnot, hl⟩ | ⟨hmem, hl⟩
  · have hsame : new.results.length = old.results.length := by
      by_contra hc
      exact hnot (hpending hc)
    rw [heng, List.erase_of_not_mem hnot, hl, hsame]
    exact hinv
  · have hp : new.engines.length = old.engines.length - 1 := by
      rw [heng, List.length_erase_of_mem hmem]
    have hpos : 0 < old.engines.length := List.length_pos_of_mem hmem
    rw [hl]
    unfold recomputeLimit
    rcases hlen with hr | ⟨hr, _, _⟩
    · split <;> omega
    · split <;> omega

/-- A box along handlers that all return, each engine resolving once: when every
engine of the box resolves and result lists are stored only for engines of the
box, the pending list ends empty and the limit is the one the counts decide. -/
theorem settlesAll_limitTracks (n : Nat) (names : List String) :
    ∀ (old new : Box), SettlesAll names old new → names.Nodup → old.engines.Nodup →
      (∀ x ∈ old.engines, x ∈ names) →
      (∀ x ∈ Obj.keys new.results, x ∈ Obj.keys old.results ∨ x ∈ old.engines) →
      LimitTracks n old → new.engines = [] ∧ LimitTracks n new := by
  induction names with
  | nil =>
    intro old new h _ _ hall _ hinv
    simp only [SettlesAll] at h
    rw [h]
    refine ⟨List.eq_nil_iff_forall_not_mem.2 (fun x hx => ?_), hinv⟩
    exact absurd (hall x hx) (List.not_mem_nil x)
  | cons e rest ih =>
    intro old new h hnames hnd hall hstored hinv
    obtain ⟨mid, h1, h2⟩ := h
    have hrest : rest.Nodup := (List.nodup_cons.1 hnames).2
    have he : e ∉ rest := (List.nodup_cons.1 hnames).1
    have hmid : mid.engines = old.engines.erase e := h1.2.1
    apply ih mid new h2 hrest
    · rw [hmid]; exact hnd.erase e
    · intro x hx
      rw [hmid] at hx
      have hx' := (hnd.mem_erase_iff).1 hx
      rcases List.mem_cons.1 (hall x hx'.2) with hxe | hxr
      · exact absurd hxe hx'.1
      · exact hxr
    · intro x hx
      rcases hstored x hx with hx' | hx'
      · left; exact settles_keys_mono e old mid h1 x hx'
      · by_cases hxe : x = e
        · rcases settlesAll_keys_new rest mid new h2 x hx with h3 | h3
          · left; exact h3
          · rw [hxe] at h3; exact absurd h3 he
        · right
          rw [hmid]
          exact (List.mem_erase_of_ne hxe).2 hx'
    · apply settles_limitTracks n e old mid h1 hinv
      intro hlen
      rcases settles_length_results e old mid h1 with hr | ⟨_, hin, hout⟩
      · exact absurd hr hlen
      · rcases hstored e (settlesAll_keys_mono rest mid new h2 e hin) with h3 | h3
        · exact absurd h3 hout
        · exact h3

/-- The final limit on runs whose handlers all return.  For every registry state
and every run in which each engine resolves once: a box whose engines are
distinct and have all resolved, and which holds result lists only of its own
engines, ends with an empty pending list and the limit 3 if it had at most one
engine or at most one engine contributed, 2 if exactly two contributed, and 1
otherwise. -/
theorem final_limit_of_complete_run (decodeURIComponent : String → Except JsError String)
    (st : Bento) (types : Obj MediaType) (run : List (Engine × Outcome))
    (hrun : AllComplete decodeURIComponent (getBoxes st types) run)
    (honce : (run.map (fun eo => eo.1.name)).Nodup) :
    List.Forall₂
      (fun (tm : String × MediaType) (new : String × Box) =>
        new.1 = tm.1 ∧
        (tm.2.engines.Nodup → (∀ x ∈ tm.2.engines, x ∈ run.map (fun eo => eo.1.name)) →
          (∀ x ∈ Obj.keys new.2.results, x ∈ tm.2.engines) →
          new.2.engines = [] ∧
          new.2.resultLimit =
            if tm.2.engines.length ≤ 1 ∨ new.2.results.length ≤ 1 then 3
            else if new.2.results.length = 2 then 2 else 1))
      types (resolveAll decodeURIComponent (getBoxes st types) run).boxes := by
  have h := resolveAll_settles decodeURIComponent run (getBoxes st types) hrun
  simp only [getBoxes] at h
  rw [List.forall₂_map_left_iff] at h
  refine List.Forall₂.imp ?_ h
  intro tm new hx
  refine ⟨hx.1, ?_⟩
  intro hnd hall hstored
  have hinit : LimitTracks tm.2.engines.length
      { engines := tm.2.engines, loaded := tm.2.loaded, results := [],
        resourceLinks := [], resourceLinkParams := [],
        resultLimit := initResultLimit tm.2.engines.length } := by
    unfold LimitTracks
    simp only [List.length_nil, initResultLimit_eq]
    split <;> omega
  obtain ⟨hempty, hfinal⟩ := settlesAll_limitTracks tm.2.engines.length _ _ _ hx.2 honce hnd hall
    (fun x hx => Or.inr (hstored x hx)) hinit
  refine ⟨hempty, ?_⟩
  unfold LimitTracks at hfinal
  rw [hempty] at hfinal
  simp only [List.length_nil] at hfinal
  split
  · omega
  · split <;> omega

/-- The run `catalog` fails, `scout` contributes one book with a link: both
handlers return, and the theorem on the final limit applies to the boxes of
`twoRegistry`; the limit of `books` (two engines, one contributed) ends at 3. -/
theorem final_limit_of_complete_run_example :
    List.Forall₂
      (fun (tm : String × MediaType) (new : String × Box) =>
        new.1 = tm.1 ∧
        (tm.2.engines.Nodup → (∀ x ∈ tm.2.engines, x ∈ ["catalog", "scout"]) →
          (∀ x ∈ Obj.keys new.2.results, x ∈ tm.2.engines) →
          new.2.engines = [] ∧
          new.2.resultLimit =
            if tm.2.engines.length ≤ 1 ∨ new.2.results.length ≤ 1 then 3
            else if new.2.results.length = 2 then 2 else 1))
      twoRegistry.types
      (resolveAll Except.ok (getBoxes Bento.initial twoRegistry.types)
        [(catalog, .failure),
         (booksEngine "scout", .success [[("type", .str "book")]] someLinks)]).boxes ∧
    (resolveAll Except.ok (getBoxes Bento.initial twoRegistry.types)
      [(catalog, .failure),
       (booksEngine "scout", .success [[("type", .str "book")]] someLinks)]).limit "books" =
      some 3 ∧
    (resolveAll Except.ok (getBoxes Bento.initial twoRegistry.types)
      [(booksEngine "scout", .success [[("type", .str "book")]] someLinks),
       (catalog, .failure)]).limit "books" = some 3 :=
  ⟨final_limit_of_complete_run Except.ok Bento.initial twoRegistry.types
      [(catalog, .failure), (booksEngine "scout", .success [[("type", .str "book")]] someLinks)]
      ⟨trivial, rfl, trivial⟩ (by decide),
    rfl, rfl⟩

/-! ## Duplicate pending entries, index names, the key `__proto__` -/

/-- C4, at a failing input. `ejournals` registers with a rule that names the type
`other` and is listed twice in the pending list of `other`. Its failure, and
likewise its success with an empty result list, removes one entry: the engine is
still in the pending list of the box after it has resolved. -/
theorem failure_leaves_engine_pending (decodeURIComponent : String → Except JsError String) :
    Registry.initial.engine (.str "ejournals") otherConfig = .ok otherRegistry ∧
    (getBoxes Bento.initial otherRegistry.types).pending "other" =
      some ["ejournals", "ejournals"] ∧
    (resolve decodeURIComponent (getBoxes Bento.initial otherRegistry.types) ejournals
      .failure).pending "other" = some ["ejournals"] ∧
    (resolve decodeURIComponent (getBoxes Bento.initial otherRegistry.types) ejournals
      (.success [] none)).pending "other" = some ["ejournals"] := by
  exact ⟨rfl, rfl, rfl, rfl⟩

/-- C16, at a failing input. `ejournals` is the one registered engine; its rule
names the type `other`, so the box `other` lists it twice and starts with the
limit 1, where the box of one engine starts at 3 (as `other` does for `catalog`). -/
theorem initial_limit_counts_duplicate_entry :
    Registry.initial.engine (.str "ejournals") otherConfig = .ok otherRegistry ∧
    Obj.keys otherRegistry.engines = ["ejournals"] ∧
    (getBoxes Bento.initial otherRegistry.types).pending "other" =
      some ["ejournals", "ejournals"] ∧
    (getBoxes Bento.initial otherRegistry.types).limit "other" = some 1 ∧
    (getBoxes Bento.initial catalogRegistry.types).pending "other" = some ["catalog"] ∧
    (getBoxes Bento.initial catalogRegistry.types).limit "other" = some 3 := by
  exact ⟨rfl, rfl, rfl, rfl, rfl, rfl⟩

/-- C19, at a failing input. The engines `b` (priority 1), `1`, `a` and `0`
(priority 10 each) register in this order. `searchAll` makes its requests in the
order `0`, `1`, `b`, `a`: the sorted engines are put back into an object, whose
enumeration puts the array-index names first, so `b` is not dispatched first and
`1`, `a`, `0` do not keep their registration order. -/
theorem dispatch_order_broken_by_index_names :
    (registerAll indexRegistrations Registry.initial).map
        (fun reg => reg.engines.map (fun ne => (ne.1, ne.2.priority))) =
      .ok [("b", 1), ("1", 10), ("a", 10), ("0", 10)] ∧
    (registerAll indexRegistrations Registry.initial).map
        (fun reg => (orderObjectBy reg.engines).map Prod.fst) =
      .ok ["b", "0", "1", "a"] ∧
    (registerAll indexRegistrations Registry.initial).map
        (fun reg => (searchAll catsParams reg.engines).2.map Prod.fst) =
      .ok ["0", "1", "b", "a"] := by
  exact ⟨rfl, rfl, rfl⟩

/-- C23, at a failing input. The object `{a: ["__proto__", "x"]}` has two array
elements; its inversion has the one key `x`, and no key `__proto__`. A
registration accepts a rule with such a qualifier, and `buildGroups` inverts it
the same way. -/
theorem invert_misses_proto_element :
    invertArrayToObject protoExample = [("x", "a")] ∧
    Obj.get (invertArrayToObject protoExample) "__proto__" = none ∧
    (Registry.initial.engine (.str "catalog") protoConfig).map
        (fun reg => (Obj.keys reg.types, Obj.keys reg.engines)) =
      .ok (["other", "a"], ["catalog"]) ∧
    buildGroups [("a", .arr [.str "__proto__", .str "x"])] = [("x", "a")] := by
  exact ⟨rfl, rfl, rfl, rfl⟩
